import Mathlib

/-! # contextify: a shallow embedding of `pkg/contextify.go`

Go strings and byte slices are modelled as lists of bytes (`Str = List Nat`).
The Go standard-library functions the package calls (`filepath.Clean`,
`filepath.Match`, `utf8.DecodeRuneInString`, `strings.TrimSpace`,
`strings.Index`, `bufio.Scanner`, `sort.Strings`, `filepath.Walk`,
`ioutil.ReadDir`) are transliterated for a Unix platform
(`filepath.Separator = '/'`).  The part of `main.go` that appends the paths of
the tool's own files to the omit list is embedded as `addSelfPatterns`.
Loops that consume a string are given fuel equal to the length of that string;
every iteration consumes at least one byte, so the fuel never runs out.

The file system is a tree of readable directories, regular files and symbolic
links (`Node`); `Node.isDir` is what `os.Lstat` reports and `Node.stat` what
`os.Stat` reports.  A path handed to the package is represented by what the
package derives from it: its `filepath.Base`, its path relative to the root
directory, and the object it names.
-/

namespace Contextify

/-! ## Strings -/

/-- A Go string (or byte slice): a sequence of bytes. -/
abbrev Str := List Nat

/-- UTF-8 encoding of one code point. -/
def utf8EncodeNat (c : Nat) : Str :=
  if c < 0x80 then [c]
  else if c < 0x800 then [0xC0 + c / 64, 0x80 + c % 64]
  else if c < 0x10000 then [0xE0 + c / 4096, 0x80 + (c / 64) % 64, 0x80 + c % 64]
  else [0xF0 + c / 262144, 0x80 + (c / 4096) % 64, 0x80 + (c / 64) % 64, 0x80 + c % 64]

/-- The bytes of a list of characters. -/
def bytesOfChars : List Char → Str
  | [] => []
  | c :: cs => utf8EncodeNat c.toNat ++ bytesOfChars cs

/-- The bytes of a string literal, as Go stores it. -/
def str (s : String) : Str := bytesOfChars s.toList

/-- The constant `filepath.Separator` on Unix. -/
def Separator : Nat := 47

/-- Whether a byte is a UTF-8 continuation byte in the range `lo..hi`. -/
def inRange (lo hi b : Nat) : Bool := decide (lo ≤ b) && decide (b ≤ hi)

/-- The constant `utf8.RuneError`. -/
def RuneError : Nat := 0xFFFD

/-- Go `utf8.DecodeRuneInString`: the first rune of `s` and its width in bytes;
`(RuneError, 0)` for the empty string and `(RuneError, 1)` for an invalid
encoding. -/
def decodeRune : Str → Nat × Nat
  | [] => (RuneError, 0)
  | b0 :: rest =>
    if b0 < 0x80 then (b0, 1)
    else if inRange 0xC2 0xDF b0 then
      match rest with
      | b1 :: _ =>
        if inRange 0x80 0xBF b1 then ((b0 % 32) * 64 + b1 % 64, 2) else (RuneError, 1)
      | _ => (RuneError, 1)
    else if inRange 0xE0 0xEF b0 then
      match rest with
      | b1 :: b2 :: _ =>
        let lo := if b0 = 0xE0 then 0xA0 else 0x80
        let hi := if b0 = 0xED then 0x9F else 0xBF
        if inRange lo hi b1 && inRange 0x80 0xBF b2 then
          ((b0 % 16) * 4096 + (b1 % 64) * 64 + b2 % 64, 3)
        else (RuneError, 1)
      | _ => (RuneError, 1)
    else if inRange 0xF0 0xF4 b0 then
      match rest with
      | b1 :: b2 :: b3 :: _ =>
        let lo := if b0 = 0xF0 then 0x90 else 0x80
        let hi := if b0 = 0xF4 then 0x8F else 0xBF
        if inRange lo hi b1 && inRange 0x80 0xBF b2 && inRange 0x80 0xBF b3 then
          ((b0 % 8) * 262144 + (b1 % 64) * 4096 + (b2 % 64) * 64 + b3 % 64, 4)
        else (RuneError, 1)
      | _ => (RuneError, 1)
    else (RuneError, 1)

/-! ## `filepath.Clean` -/

/-- The `..` case of `filepath.Clean`: drop the last element of the output
buffer.  `out` is the buffer reversed, `w` its length; bytes are removed until
the length is `dotdot` or the last remaining byte is a separator, which is
removed as well. -/
def cleanBacktrack (dotdot : Nat) : Str → Str
  | [] => []
  | c :: out =>
    -- `out.w--`, then `for out.w > dotdot && !IsPathSeparator(out.index(out.w))`
    if out.length > dotdot && c != Separator then cleanBacktrack dotdot out else out

/-- The main loop of `filepath.Clean`.  `out` is the output buffer reversed;
`copying` records that the loop is inside the inner `for` that copies a real
path element. -/
def cleanLoop (rooted : Bool) : Str → Str → Nat → Bool → Str
  | [], out, _, _ => out
  | c :: rest, out, dotdot, copying =>
    if copying && c != Separator then
      cleanLoop rooted rest (c :: out) dotdot true
    else if c == Separator then
      -- empty path element
      cleanLoop rooted rest out dotdot false
    else if c == 46 && (rest.isEmpty || rest.head? == some Separator) then
      -- `.` element
      cleanLoop rooted rest out dotdot false
    else if c == 46 && rest.head? == some 46 &&
        (rest.tail.isEmpty || rest.tail.head? == some Separator) then
      -- `..` element: remove to last separator
      match rest with
      | [] => out
      | _ :: rest2 =>
        if out.length > dotdot then
          cleanLoop rooted rest2 (cleanBacktrack dotdot out) dotdot false
        else if !rooted then
          let out1 := if out.length > 0 then Separator :: out else out
          let out2 := 46 :: 46 :: out1
          cleanLoop rooted rest2 out2 out2.length false
        else
          cleanLoop rooted rest2 out dotdot false
    else
      -- real path element: add slash if needed, then copy the element
      let out1 :=
        if (rooted && out.length != 1) || (!rooted && out.length != 0) then Separator :: out
        else out
      cleanLoop rooted rest (c :: out1) dotdot true

/-- Go `filepath.Clean` (Unix: no volume name, `FromSlash` is the identity). -/
def Clean (path : Str) : Str :=
  match path with
  | [] => [46]
  | c :: rest =>
    let rooted := c == Separator
    let out :=
      if rooted then cleanLoop true rest [Separator] 1 false
      else cleanLoop false (c :: rest) [] 0 false
    if out.isEmpty then [46] else out.reverse

/-! ## `filepath.Match` -/

/-- Go `filepath.getEsc`: a possibly escaped character of a character class,
and the rest of the chunk; `none` is `ErrBadPattern`. -/
def getEsc (chunk : Str) : Option (Nat × Str) :=
  match chunk with
  | [] => none
  | c :: rest =>
    if c == 45 || c == 93 then none
    else
      let chunk1 := if c == 92 then rest else chunk
      if chunk1.isEmpty then none
      else
        let rn := decodeRune chunk1
        if rn.1 == RuneError && rn.2 == 1 then none
        else
          let nchunk := chunk1.drop rn.2
          if nchunk.isEmpty then none else some (rn.1, nchunk)

/-- The range-parsing loop of a character class in `matchChunk`: returns
whether rune `r` is in one of the ranges and the chunk after the closing `]`;
`none` is `ErrBadPattern`. -/
def classLoop : Nat → Str → Nat → Bool → Nat → Option (Bool × Str)
  | 0, _, _, _, _ => none
  | fuel + 1, chunk, r, matched, nrange =>
    if chunk.head? == some 93 && nrange > 0 then some (matched, chunk.tail)
    else
      match getEsc chunk with
      | none => none
      | some (lo, chunk1) =>
        let hiChunk :=
          if chunk1.head? == some 45 then getEsc chunk1.tail else some (lo, chunk1)
        match hiChunk with
        | none => none
        | some (hi, chunk2) =>
          classLoop fuel chunk2 r (matched || (decide (lo ≤ r) && decide (r ≤ hi))) (nrange + 1)

/-- The result of `matchChunk`: `bad` is `ErrBadPattern`, `fail` is
`ok = false`, and `rest t` is `ok = true` with remainder `t`. -/
inductive ChunkResult where
  | bad : ChunkResult
  | fail : ChunkResult
  | rest : Str → ChunkResult
  deriving DecidableEq, Repr

/-- Go `filepath.matchChunk`: does `chunk` match a prefix of `s`?  After a
mismatch (`failed`) the loop goes on to check that the chunk is well formed. -/
def matchChunkLoop : Nat → Str → Str → Bool → ChunkResult
  | _, [], s, failed => if failed then .fail else .rest s
  | 0, _ :: _, _, _ => .bad
  | fuel + 1, c :: chunk, s, failed0 =>
    let failed := failed0 || s.isEmpty
    if c == 91 then
      -- character class
      let r := if failed then 0 else (decodeRune s).1
      let s1 := if failed then s else s.drop (decodeRune s).2
      let negated := chunk.head? == some 94
      let chunk1 := if negated then chunk.tail else chunk
      match classLoop fuel chunk1 r false 0 with
      | none => .bad
      | some (matched, chunk2) =>
        matchChunkLoop fuel chunk2 s1 (failed || (matched == negated))
    else if c == 63 then
      if failed then matchChunkLoop fuel chunk s true
      else matchChunkLoop fuel chunk (s.drop (decodeRune s).2) (s.head? == some Separator)
    else if c == 92 then
      match chunk with
      | [] => .bad
      | c2 :: chunk2 =>
        if failed then matchChunkLoop fuel chunk2 s true
        else matchChunkLoop fuel chunk2 s.tail (s.head? != some c2)
    else
      if failed then matchChunkLoop fuel chunk s true
      else matchChunkLoop fuel chunk s.tail (s.head? != some c)

/-- Go `filepath.matchChunk`. -/
def matchChunk (chunk s : Str) : ChunkResult :=
  matchChunkLoop chunk.length chunk s false

/-- The `Scan` loop of `scanChunk`: splits the pattern before its first `*`
outside a bracket pair. -/
def scanLoop : Str → Bool → Str × Str
  | [], _ => ([], [])
  | c :: rest, inrange =>
    if c == 92 then
      match rest with
      | [] => ([c], [])
      | d :: rest2 => let r := scanLoop rest2 inrange; (c :: d :: r.1, r.2)
    else if c == 91 then let r := scanLoop rest true; (c :: r.1, r.2)
    else if c == 93 then let r := scanLoop rest false; (c :: r.1, r.2)
    else if c == 42 && !inrange then ([], c :: rest)
    else let r := scanLoop rest inrange; (c :: r.1, r.2)

/-- Go `filepath.scanChunk`: the next segment of the pattern, a non-star string
possibly preceded by stars. -/
def scanChunk (pattern : Str) : Bool × Str × Str :=
  let star := pattern.head? == some 42
  let r := scanLoop (pattern.dropWhile (· == 42)) false
  (star, r.1, r.2)

/-- The loop of `Match` that retries the chunk after skipping `i+1` bytes,
never skipping a separator.  `last` says that no pattern is left after the
chunk. -/
def starLoop (chunk : Str) (last : Bool) : Str → ChunkResult
  | [] => .fail
  | c :: name =>
    if c == Separator then .fail
    else
      match matchChunk chunk name with
      | .rest t => if last && !t.isEmpty then starLoop chunk last name else .rest t
      | .fail => starLoop chunk last name
      | .bad => .bad

/-- The `Pattern` loop of Go `filepath.Match`; `none` is `ErrBadPattern`. -/
def matchLoop : Nat → Str → Str → Option Bool
  | _, [], name => some name.isEmpty
  | 0, _ :: _, _ => none
  | fuel + 1, pattern, name =>
    match scanChunk pattern with
    | (star, chunk, rest) =>
      if star && chunk.isEmpty then
        -- trailing `*` matches the rest of the name unless it has a separator
        some (!name.contains Separator)
      else
        let retry : ChunkResult := if star then starLoop chunk rest.isEmpty name else .fail
        let afterRetry : Option Bool :=
          match retry with
          | .rest t => matchLoop fuel rest t
          | .fail => some false
          | .bad => none
        match matchChunk chunk name with
        | .rest t => if t.isEmpty || !rest.isEmpty then matchLoop fuel rest t else afterRetry
        | .fail => afterRetry
        | .bad => none

/-- Go `filepath.Match(pattern, name)`; `none` is `ErrBadPattern`. -/
def Match (pattern name : Str) : Option Bool := matchLoop pattern.length pattern name

/-- The `matched` result of `filepath.Match`, the error being discarded as in
`matched, _ := filepath.Match(...)`. -/
def matched (pattern name : Str) : Bool := (Match pattern name).getD false

/-- Go `strings.ReplaceAll(pattern, "/", string(filepath.Separator))`. -/
def replaceSlash (pattern : Str) : Str := pattern.map fun b => if b == 47 then Separator else b

/-- The loop of `IsIgnored` over the patterns. -/
def isIgnoredLoop (normalizedPath : Str) : List Str → Bool
  | [] => false
  | pattern :: patterns =>
    let normalizedPattern := replaceSlash pattern
    if matched normalizedPattern normalizedPath then true
    else if matched (normalizedPattern ++ [42]) normalizedPath then true
    else isIgnoredLoop normalizedPath patterns

/-- Go `IsIgnored`: checks if a file or directory should be ignored. -/
def IsIgnored (path : Str) (isDir : Bool) (ignorePatterns : List Str) : Bool :=
  let normalizedPath := if isDir then Clean path ++ [Separator] else Clean path
  isIgnoredLoop normalizedPath ignorePatterns

/-! ## `strings.TrimSpace` -/

/-- Go `utf8.RuneStart`: the byte is not a continuation byte. -/
def RuneStart (b : Nat) : Bool := !inRange 0x80 0xBF b

/-- Go `utf8.DecodeLastRuneInString`, on the reversed string: the last rune of
the string and its width. -/
def decodeLastRune (rs : Str) : Nat × Nat :=
  match rs with
  | [] => (RuneError, 0)
  | b :: _ =>
    if b < 0x80 then (b, 1)
    else
      -- walk back at most `UTFMax` bytes to a rune start
      let cand : Nat :=
        if 1 < rs.length && RuneStart (rs.getD 1 0) then 2
        else if 2 < rs.length && RuneStart (rs.getD 2 0) then 3
        else if 3 < rs.length && RuneStart (rs.getD 3 0) then 4
        else min rs.length 5
      let rn := decodeRune (rs.take cand).reverse
      if rn.2 != cand then (RuneError, 1) else rn

/-- Go `unicode.IsSpace`. -/
def isSpace (r : Nat) : Bool :=
  r == 9 || r == 10 || r == 11 || r == 12 || r == 13 || r == 32 || r == 0x85 || r == 0xA0 ||
    r == 0x1680 || inRange 0x2000 0x200A r || r == 0x2028 || r == 0x2029 || r == 0x202F ||
    r == 0x205F || r == 0x3000

/-- The table `asciiSpace` of package `strings`, for a byte below `utf8.RuneSelf`. -/
def asciiSpace (c : Nat) : Bool :=
  c == 9 || c == 10 || c == 11 || c == 12 || c == 13 || c == 32

/-- Go `strings.TrimLeftFunc(s, unicode.IsSpace)`: drop leading space runes. -/
def trimLeftFunc : Nat → Str → Str
  | 0, _ => []
  | fuel + 1, s =>
    if s.isEmpty then []
    else if isSpace (decodeRune s).1 then trimLeftFunc fuel (s.drop (decodeRune s).2)
    else s

/-- Go `strings.lastIndexFunc(s, unicode.IsSpace, false)` on the reversed
string: what is left, reversed, when the trailing space runes are removed down to
and excluding the last rune that is not a space (`none` for index `-1`). -/
def lastIndexFunc : Nat → Str → Option Str
  | 0, _ => none
  | fuel + 1, rs =>
    if rs.isEmpty then none
    else
      let rn := decodeLastRune rs
      if !isSpace rn.1 then some (rs.drop rn.2) else lastIndexFunc fuel (rs.drop rn.2)

/-- Go `strings.TrimRightFunc(s, unicode.IsSpace)`. -/
def trimRightFunc (s : Str) : Str :=
  match lastIndexFunc s.length s.reverse with
  | none => []
  | some before =>
    let i := before.length
    if s.getD i 0 ≥ 0x80 then s.take (i + (decodeRune (s.drop i)).2) else s.take (i + 1)

/-- Go `strings.TrimSpace`. -/
def TrimSpace (s : Str) : Str :=
  -- fast path for ASCII: look for the first ASCII non-space byte
  let s1 := s.dropWhile fun c => decide (c < 0x80) && asciiSpace c
  match s1 with
  | [] => []
  | c :: _ =>
    if c ≥ 0x80 then trimRightFunc (trimLeftFunc s1.length s1)
    else
      -- now look for the first ASCII non-space byte from the end
      let r1 := s1.reverse.dropWhile fun c => decide (c < 0x80) && asciiSpace c
      match r1 with
      | [] => []
      | d :: _ => if d ≥ 0x80 then trimRightFunc r1.reverse else r1.reverse

/-! ## `LoadGitignore` -/

/-- The constant `bufio.MaxScanTokenSize`. -/
def MaxScanTokenSize : Nat := 65536

/-- Go `bufio.dropCR`: drop one trailing `\r`. -/
def dropCR (data : Str) : Str :=
  if data.getLast? == some 13 then data.dropLast else data

/-- The tokens of a `bufio.Scanner` with the default `ScanLines` split function
reading a regular file: the lines, the last one terminated or not.  `cur` is
the line read so far, reversed.  The scanner's buffer holds at most
`MaxScanTokenSize` bytes, so a line that fills it before its newline or the end
of the file is seen stops the scan with `ErrTooLong` (`none`). -/
def scanLines (cur : Str) : Str → Option (List Str)
  | [] => if cur.isEmpty then some [] else if cur.length ≥ MaxScanTokenSize then none
      else some [dropCR cur.reverse]
  | b :: rest =>
    if b == 10 then
      if cur.length ≥ MaxScanTokenSize then none
      else (scanLines [] rest).map fun ls => dropCR cur.reverse :: ls
    else scanLines (b :: cur) rest

/-- What `os.OpenFile(path, os.O_RDONLY, 0)` and the reads that follow find at a
path. -/
inductive FileState where
  | notExist : FileState
  | openError : FileState
  | readError : FileState
  | content : Str → FileState
  deriving DecidableEq, Repr

/-- The errors of `LoadGitignore`. -/
inductive LoadError where
  | opening : LoadError
  | reading : LoadError
  deriving DecidableEq, Repr

/-- The loop of `LoadGitignore` over the scanned lines. -/
def loadLoop : List Str → List Str
  | [] => []
  | text :: rest =>
    let line := TrimSpace text
    if !line.isEmpty && !(line.head? == some 35) then line :: loadLoop rest
    else loadLoop rest

/-- Go `LoadGitignore`: loads ignore patterns from `.gitignore`. -/
def LoadGitignore (file : FileState) : Except LoadError (List Str) :=
  match file with
  | .notExist => .ok []
  | .openError => .error .opening
  | .readError => .error .reading
  | .content c =>
    match scanLines [] c with
    | none => .error .reading
    | some lines => .ok (loadLoop lines)

/-! ## `IsBinaryFile` -/

/-- The loop of `IsBinaryFile` over the sampled bytes. -/
def binaryLoop : Str → Bool
  | [] => false
  | b :: chunk =>
    if b < 32 && b != 7 && b != 8 && b != 9 && b != 10 && b != 12 && b != 13 && b != 27 then true
    else binaryLoop chunk

/-- Go `IsBinaryFile`: checks if a file is binary.  The argument is what opening
the path for reading yields: `none` when it fails, else the bytes of the file. -/
def IsBinaryFile (file : Option Str) : Bool :=
  match file with
  | none => false
  | some content =>
    -- `file.Read(chunk)` with a 1024-byte chunk; `io.EOF` on an empty file
    let chunk := content.take 1024
    if chunk.isEmpty then false
    else if chunk.contains 0 then true
    else binaryLoop chunk

/-! ## The file system -/

/-- A file-system object, as `os.Lstat` sees it: a regular file (`none` when it
cannot be opened for reading), a directory with its named entries, a symbolic
link with the object that its target names, or a symbolic link whose target
does not exist.  Directories are readable, and the target of a link is given as
a finite object of its own, so a link that leads back into a directory above it
is not represented. -/
inductive Node where
  | file : Option Str → Node
  | dir : List (Str × Node) → Node
  | link : Node → Node
  | dangling : Node

/-- Go `FileInfo.IsDir` of the `os.Lstat` of the object, which is what
`ioutil.ReadDir` and `filepath.Walk` report: a symbolic link is not a
directory. -/
def Node.isDir : Node → Bool
  | .file _ => false
  | .dir _ => true
  | .link _ => false
  | .dangling => false

/-- Go `os.Stat` of the path of the object: symbolic links are followed, and
`none` is the error for a link whose target does not exist. -/
def Node.stat : Node → Option Node
  | .file c => some (.file c)
  | .dir es => some (.dir es)
  | .link target => target.stat
  | .dangling => none

mutual
/-- The nesting depth of a file-system object. -/
def Node.height : Node → Nat
  | .file _ => 0
  | .dir es => heightList es + 1
  | .link target => target.height + 1
  | .dangling => 0
/-- The largest nesting depth among the entries of a directory. -/
def heightList : List (Str × Node) → Nat
  | [] => 0
  | e :: es => max e.2.height (heightList es)
end

/-- The object that a name inside a directory refers to (`os.Lstat` of
`filepath.Join(dir, name)`). -/
def lookupEntry (name : Str) : List (Str × Node) → Option Node
  | [] => none
  | e :: es => if e.1 == name then some e.2 else lookupEntry name es

/-- Byte-wise lexicographic `a <= b` on Go strings. -/
def strLe : Str → Str → Bool
  | [], _ => true
  | _ :: _, [] => false
  | a :: as, b :: bs => if a < b then true else if b < a then false else strLe as bs

/-- Go `sort.Strings`. -/
def sortStrings (l : List Str) : List Str := l.insertionSort fun a b => strLe a b = true

/-- Go `filepath.Base` (Unix). -/
def Base (path : Str) : Str :=
  if path.isEmpty then [46]
  else
    -- strip trailing slashes, then keep what follows the last separator
    let stripped := path.reverse.dropWhile (· == Separator)
    let last := (stripped.takeWhile (· != Separator)).reverse
    if last.isEmpty then [Separator] else last

/-- The value of `filepath.Rel(rootDir, filepath.Join(currentDir, name))` for a
directory entry `name`, where `rel` is `filepath.Rel(rootDir, currentDir)`. -/
def relJoin (rel name : Str) : Str :=
  if rel == [46] then name else rel ++ Separator :: name

/-! ## `GenerateTree` -/

/-- The first loop of `GenerateTree`: the names of the entries that are not
ignored. -/
def treeContents (rel : Str) (ignorePatterns : List Str) : List (Str × Node) → List Str
  | [] => []
  | file :: files =>
    let relPath := relJoin rel file.1
    if file.2.isDir then
      if !IsIgnored relPath true ignorePatterns then file.1 :: treeContents rel ignorePatterns files
      else treeContents rel ignorePatterns files
    else
      if !IsIgnored relPath false ignorePatterns then file.1 :: treeContents rel ignorePatterns files
      else treeContents rel ignorePatterns files

/-- The second loop of `GenerateTree`: split the names into directories and
files by `os.Stat`, which follows symbolic links; a name whose `os.Stat` returns
an error is dropped. -/
def treeSplit (entries : List (Str × Node)) : List Str → List Str × List Str
  | [] => ([], [])
  | content :: contents =>
    let r := treeSplit entries contents
    match (lookupEntry content entries).bind Node.stat with
    | some stat => if stat.isDir then (content :: r.1, r.2) else (r.1, content :: r.2)
    | none => r

/-- The connector of an entry that is not the last of its level. -/
def teeConnector : Str := str "├── "

/-- The connector of the last entry of a level. -/
def lastConnector : Str := str "└── "

/-- The prefix extension below an entry that is not the last of its level. -/
def barExtension : Str := str "│   "

/-- The prefix extension below the last entry of a level. -/
def blankExtension : Str := str "    "

/-- The last loop of `GenerateTree`, over the files; `i` is the loop index and
`n` is `len(filesList)`. -/
def treeFiles (pre : Str) (n : Nat) : Nat → List Str → List Str
  | _, [] => []
  | i, f :: fs =>
    let pointer := if i == n - 1 then lastConnector else teeConnector
    (pre ++ pointer ++ f) :: treeFiles pre n (i + 1) fs

/-- The loop of `GenerateTree` over the subdirectories; `i` is the loop index,
`nd` is `len(dirs)`, `nf` is `len(filesList)`, and `sub d p` stands for the
recursive call `GenerateTree(filepath.Join(currentDir, d), ignorePatterns, p,
rootDir)`. -/
def treeDirs (sub : Str → Str → List Str) (pre : Str) (nd nf : Nat) : Nat → List Str → List Str
  | _, [] => []
  | i, d :: ds =>
    let isLast := i == nd - 1 && nf == 0
    let pointer := if isLast then lastConnector else teeConnector
    let extension := if isLast then blankExtension else barExtension
    let subLines := sub d (pre ++ extension)
    (pre ++ pointer ++ d) :: subLines ++ treeDirs sub pre nd nf (i + 1) ds

/-- The recursive call `GenerateTree(filepath.Join(currentDir, d), ignorePatterns,
prefix, rootDir)` on the subdirectory named `d`; `recur` is `GenerateTree` on
the object that the joined path names. -/
def treeSub (recur : Str → Str → Node → Str → List Str) (files : List (Str × Node))
    (rel : Str) : Str → Str → List Str := fun d pre =>
  match lookupEntry d files with
  | some child => recur d (relJoin rel d) child pre
  | none => []

/-- Go `GenerateTree`: generates a directory tree structure.  `base` is
`filepath.Base(currentDir)`, `rel` is `filepath.Rel(rootDir, currentDir)` and
`node` is what `currentDir` names; the fuel bounds the recursion depth. -/
def GenerateTreeLoop : Nat → Str → Str → Node → List Str → Str → List Str
  | 0, _, _, _, _, _ => []
  | fuel + 1, base, rel, node, ignorePatterns, pre =>
    if base == str ".git" then []
    else
      let lines : List Str := if pre.isEmpty then [base] else []
      match node with
      | .file _ => lines
      | .dir files =>
        let contents := treeContents rel ignorePatterns files
        let split := treeSplit files contents
        let dirs := sortStrings split.1
        let filesList := sortStrings split.2
        let sub := treeSub (fun d r child p => GenerateTreeLoop fuel d r child ignorePatterns p)
          files rel
        lines ++ treeDirs sub pre dirs.length filesList.length 0 dirs
          ++ treeFiles pre filesList.length 0 filesList
      -- `ioutil.ReadDir` follows a symbolic link: the call reads what the target names
      | .link target => GenerateTreeLoop fuel base rel target ignorePatterns pre
      | .dangling => lines

/-- Go `GenerateTree(currentDir, ignorePatterns, prefix, rootDir)`: the fuel is
the nesting depth of the directory, which the recursion cannot exceed. -/
def GenerateTree (base rel : Str) (node : Node) (ignorePatterns : List Str) (pre : Str) :
    List Str :=
  GenerateTreeLoop (node.height + 1) base rel node ignorePatterns pre

/-! ## `ProcessDirectory` -/

/-- The loop of `filepath.walk` over the sorted names of a directory; `visit`
stands for the recursive call of `walk` on an entry. -/
def walkNames (visit : Str → List Str) : List Str → List Str
  | [] => []
  | name :: names => visit name ++ walkNames visit names

/-- The call of `filepath.walk` on the entry `name` of a directory; `recur` is
`walk` on the object that the joined path names. -/
def walkEntry (recur : Str → Node → List Str) (files : List (Str × Node)) (rel : Str) :
    Str → List Str := fun name =>
  match lookupEntry name files with
  | some child => recur (relJoin rel name) child
  | none => []

/-- Go `filepath.walk` with the callback of `ProcessDirectory`: the relative
paths appended to `allFiles`, in order.  `rel` is `filepath.Rel(config.Directory,
path)`.  A directory for which the callback returns `filepath.SkipDir` is not
read.  The walk goes by `os.Lstat` and does not follow symbolic links: a link is
visited like a file. -/
def walkLoop : Nat → Str → Node → List Str → List Str
  | 0, _, _, _ => []
  | fuel + 1, rel, node, ignorePatterns =>
    match node with
    | .file _ => if !IsIgnored rel false ignorePatterns then [rel] else []
    | .dir files =>
      if IsIgnored rel true ignorePatterns then []
      else
        let names := sortStrings (files.map fun e => e.1)
        walkNames (walkEntry (fun r child => walkLoop fuel r child ignorePatterns) files rel)
          names
    | .link _ => if !IsIgnored rel false ignorePatterns then [rel] else []
    | .dangling => if !IsIgnored rel false ignorePatterns then [rel] else []

/-- Go `filepath.walk` with the callback of `ProcessDirectory`, below the path
whose relative path is `rel`: the fuel is the nesting depth of the object, which
the recursion cannot exceed. -/
def walkFrom (rel : Str) (node : Node) (ignorePatterns : List Str) : List Str :=
  walkLoop (node.height + 1) rel node ignorePatterns

/-- Go `filepath.Walk(config.Directory, ...)` as called by `ProcessDirectory`:
`none` when the root cannot be examined, else the collected `allFiles`. -/
def Walk (root : Option Node) (ignorePatterns : List Str) : Option (List Str) :=
  match root with
  | none => none
  | some node => some (walkFrom (str ".") node ignorePatterns)

/-- The elements of a path, split at the separators; `cur` is the element read
so far, reversed. -/
def splitPath (cur : Str) : Str → List Str
  | [] => [cur.reverse]
  | c :: rest =>
    if c == Separator then cur.reverse :: splitPath [] rest else splitPath (c :: cur) rest

/-- The object found below `node` by following the given names through
directories, no symbolic link being followed: the entry at that location, as
`os.Lstat` sees it. -/
def resolve : Node → List Str → Option Node
  | node, [] => some node
  | .file _, _ :: _ => none
  | .dir files, name :: names =>
    match lookupEntry name files with
    | some child => resolve child names
    | none => none
  | .link _, _ :: _ => none
  | .dangling, _ :: _ => none

/-- The object that the operating system finds below `node` for the given names,
every symbolic link on the way and at the end being followed (`os.Stat` of the
joined path). -/
def openPath : Node → List Str → Option Node
  | node, [] => node.stat
  | node, name :: names =>
    match node.stat with
    | some (.dir files) =>
      match lookupEntry name files with
      | some child => openPath child names
      | none => none
    | _ => none

/-- What opening `filepath.Join(config.Directory, relPath)` for reading yields:
the bytes of the regular file that the path names, `none` when there is no such
file or it cannot be read.  Empty and `.` elements of the path are dropped, as
`filepath.Join` does. -/
def readRel (root : Node) (relPath : Str) : Option Str :=
  match openPath root ((splitPath [] relPath).filter fun c => !c.isEmpty && c != [46]) with
  | some (.file content) => content
  | _ => none

/-- The settings of a run: Go `Config`. -/
structure Config where
  Directory : Str
  TokenLimit : Int
  Output : Str
  Omit : List Str
  Preprompt : Str
  Request : Str

/-- An `io.Writer`, by its behaviour: given the slices written so far and a new
slice, the number of bytes it reports written and whether it returns an error. -/
abbrev Writer := List Str → Str → Nat × Bool

/-- Go `countingWriter`: wraps an `io.Writer` and counts bytes written.  The
state of the wrapped writer is the list of slices it has been passed. -/
structure countingWriter where
  log : List Str
  count : Nat

/-- Go `countingWriter.Write`: the new state and whether the write failed. -/
def countingWriter.Write (writer : Writer) (cw : countingWriter) (p : Str) :
    countingWriter × Bool :=
  let r := writer cw.log p
  ({ log := cw.log ++ [p], count := cw.count + r.1 }, r.2)

/-- The errors that `ProcessDirectory` returns, by the stage that failed. -/
inductive RunError where
  | loadingGitignore : RunError
  | walkingDirectory : RunError
  | writingBOM : RunError
  | writingPreprompt : RunError
  | writingDirectoryHeader : RunError
  | writingDirectoryTree : RunError
  | writingContentsHeader : RunError
  | writingFileHeader : Str → RunError
  | writingFileContent : Str → RunError
  | writingFileFooter : Str → RunError
  deriving DecidableEq, Repr

/-- What `.gitignore` in the root directory is, for `LoadGitignore`, which
opens `filepath.Join(config.Directory, ".gitignore")`.  `root` is what the path
`config.Directory`, taken to be non-empty, names (`none` when nothing is
there); symbolic links are followed. -/
def gitignoreState (root : Option Node) : FileState :=
  match root.bind Node.stat with
  | none => .notExist
  | some (.dir files) =>
    match (lookupEntry (str ".gitignore") files).bind Node.stat with
    | none => .notExist
    | some (.file (some c)) => .content c
    | some (.dir _) => .readError
    | some _ => .openError
  | some _ => .openError

/-- Go `strings.Join(lines, "\n")`. -/
def joinLines : List Str → Str
  | [] => []
  | [l] => l
  | l :: ls => l ++ 10 :: joinLines ls

/-- The delimiter line `fmt.Sprintf("=== File: %s ===\n", relPath)`. -/
def fileHeader (relPath : Str) : Str := str "=== File: " ++ relPath ++ str " ===\n"

/-- The loop of `ProcessDirectory` over the collected files: the final state of
the counting writer and the error that stopped the loop, if any. -/
def filesLoop (writer : Writer) (root : Node) :
    countingWriter → List Str → countingWriter × Option RunError
  | cw, [] => (cw, none)
  | cw, relPath :: rest =>
    let file := readRel root relPath
    if IsBinaryFile file then filesLoop writer root cw rest
    else
      match file with
      | none => filesLoop writer root cw rest
      | some content =>
        let w1 := cw.Write writer (fileHeader relPath)
        if w1.2 then (w1.1, some (.writingFileHeader relPath))
        else
          let w2 := w1.1.Write writer content
          if w2.2 then (w2.1, some (.writingFileContent relPath))
          else
            let w3 := w2.1.Write writer (str "\n\n")
            if w3.2 then (w3.1, some (.writingFileFooter relPath))
            else filesLoop writer root w3.1 rest

/-- The outcome of a run of `ProcessDirectory`: the returned error or byte
count, and the slices passed to the output sink, in order. -/
structure Run where
  result : Except RunError Nat
  written : List Str

/-- Go `ProcessDirectory`: processes the directory and writes output to the
writer, returning the total of bytes written.  `root` is what
`config.Directory` names (`none` when nothing is there). -/
def ProcessDirectory (root : Option Node) (config : Config) (writer : Writer) : Run :=
  let cw : countingWriter := { log := [], count := 0 }
  -- load ignore patterns
  match LoadGitignore (gitignoreState root) with
  | .error _ => { result := .error .loadingGitignore, written := cw.log }
  | .ok loaded =>
    let ignorePatterns := loaded ++ config.Omit
    -- collect all files
    match root, Walk root ignorePatterns with
    | some node, some allFiles =>
      let w1 := cw.Write writer [0xEF, 0xBB, 0xBF]
      if w1.2 then { result := .error .writingBOM, written := w1.1.log }
      else
        let w2 := w1.1.Write writer config.Preprompt
        if w2.2 then { result := .error .writingPreprompt, written := w2.1.log }
        else
          let w3 := w2.1.Write writer (str "Directory structure:\n")
          if w3.2 then { result := .error .writingDirectoryHeader, written := w3.1.log }
          else
            let treeLines := GenerateTree (Base config.Directory) (str ".") node ignorePatterns []
            let treeStr := joinLines treeLines ++ str "\n\n"
            let w4 := w3.1.Write writer treeStr
            if w4.2 then { result := .error .writingDirectoryTree, written := w4.1.log }
            else
              let w5 := w4.1.Write writer (str "File contents:\n\n")
              if w5.2 then { result := .error .writingContentsHeader, written := w5.1.log }
              else
                match filesLoop writer node w5.1 allFiles with
                | (cw2, some e) => { result := .error e, written := cw2.log }
                | (cw2, none) => { result := .ok cw2.count, written := cw2.log }
    | _, _ => { result := .error .walkingDirectory, written := cw.log }

/-- The writer `bytes.Buffer`: it accepts every slice whole. -/
def bufferWriter : Writer := fun _ p => (p.length, false)

/-- A writer that accepts `capacity` bytes in all and fails on the write that
exceeds it, having written what still fits. -/
def limitedWriter (capacity : Nat) : Writer := fun log p =>
  let used := log.flatten.length
  if used + p.length ≤ capacity then (p.length, false) else (capacity - used, true)

/-! ## Classes of patterns and names used in the statements -/

/-- A byte that `filepath.Match` treats as itself: none of `*`, `?`, `[`, `\\`. -/
def IsLiteral (b : Nat) : Prop := b ≠ 42 ∧ b ≠ 63 ∧ b ≠ 91 ∧ b ≠ 92

instance : DecidablePred IsLiteral := fun b => by unfold IsLiteral; infer_instance

/-- A bare name: every byte is literal and none is the separator. -/
def IsBareName (n : Str) : Prop := ∀ b ∈ n, IsLiteral b ∧ b ≠ Separator

instance (n : Str) : Decidable (IsBareName n) := by unfold IsBareName; infer_instance

/-- The pattern ends with a separator, possibly followed by one `*`. -/
def endsSep : Str → Bool
  | [] => false
  | [c] => c == 47
  | [c, d] => (c == 47 && d == 42) || d == 47
  | _ :: rest => endsSep rest

/-- The bytes of a file whose lines are `ls`, each ended by a newline. -/
def unlines (ls : List Str) : Str := (ls.map fun l => l ++ [10]).flatten

/-! ## The tree listing with the path of every line -/

/-- A line of the tree listing together with the entry it lists: the path of the
entry relative to the root directory, as a string and as its list of names, and
whether the entry is a directory. -/
structure TreeEntry where
  line : Str
  relPath : Str
  path : List Str
  isDir : Bool
  deriving DecidableEq, Repr

/-- The loop `treeFiles`, each line with its entry. -/
def treeFilesE (pre rel : Str) (path : List Str) (n : Nat) : Nat → List Str → List TreeEntry
  | _, [] => []
  | i, f :: fs =>
    let pointer := if i == n - 1 then lastConnector else teeConnector
    { line := pre ++ pointer ++ f, relPath := relJoin rel f, path := path ++ [f],
      isDir := false } :: treeFilesE pre rel path n (i + 1) fs

/-- The loop `treeDirs`, each line with its entry. -/
def treeDirsE (sub : Str → Str → List TreeEntry) (pre rel : Str) (path : List Str)
    (nd nf : Nat) : Nat → List Str → List TreeEntry
  | _, [] => []
  | i, d :: ds =>
    let isLast := i == nd - 1 && nf == 0
    let pointer := if isLast then lastConnector else teeConnector
    let extension := if isLast then blankExtension else barExtension
    let subLines := sub d (pre ++ extension)
    { line := pre ++ pointer ++ d, relPath := relJoin rel d, path := path ++ [d],
      isDir := true } :: subLines ++ treeDirsE sub pre rel path nd nf (i + 1) ds

/-- The function `treeSub`, each line with its entry. -/
def treeSubE (recur : Str → Str → List Str → Node → Str → List TreeEntry)
    (files : List (Str × Node)) (rel : Str) (path : List Str) : Str → Str → List TreeEntry :=
  fun d pre =>
    match lookupEntry d files with
    | some child => recur d (relJoin rel d) (path ++ [d]) child pre
    | none => []

/-- The function `GenerateTreeLoop`, each line with its entry; `path` is the list
of names that leads from the root directory to `currentDir`. -/
def GenerateTreeEntriesLoop :
    Nat → Str → Str → List Str → Node → List Str → Str → List TreeEntry
  | 0, _, _, _, _, _, _ => []
  | fuel + 1, base, rel, path, node, ignorePatterns, pre =>
    if base == str ".git" then []
    else
      let lines : List TreeEntry :=
        if pre.isEmpty then [{ line := base, relPath := rel, path := path, isDir := node.isDir }]
        else []
      match node with
      | .file _ => lines
      | .dir files =>
        let contents := treeContents rel ignorePatterns files
        let split := treeSplit files contents
        let dirs := sortStrings split.1
        let filesList := sortStrings split.2
        let sub := treeSubE
          (fun d r p child pre2 => GenerateTreeEntriesLoop fuel d r p child ignorePatterns pre2)
          files rel path
        lines ++ treeDirsE sub pre rel path dirs.length filesList.length 0 dirs
          ++ treeFilesE pre rel path filesList.length 0 filesList
      | .link target => GenerateTreeEntriesLoop fuel base rel path target ignorePatterns pre
      | .dangling => lines

/-- The lines of `GenerateTree(currentDir, ignorePatterns, prefix, rootDir)`,
each with its entry. -/
def GenerateTreeEntries (base rel : Str) (path : List Str) (node : Node)
    (ignorePatterns : List Str) (pre : Str) : List TreeEntry :=
  GenerateTreeEntriesLoop (node.height + 1) base rel path node ignorePatterns pre

mutual
/-- The names in every directory are pairwise distinct, as in any file system. -/
def Node.distinctNames : Node → Bool
  | .file _ => true
  | .dir es => decide ((es.map fun e => e.1).Nodup) && distinctNamesList es
  | .link target => target.distinctNames
  | .dangling => true
/-- The names in every directory below the entries are pairwise distinct. -/
def distinctNamesList : List (Str × Node) → Bool
  | [] => true
  | e :: es => e.2.distinctNames && distinctNamesList es
end

mutual
/-- No symbolic link below the object leads to a directory: every link leads to
a regular file or to nothing. -/
def Node.noDirLinks : Node → Bool
  | .file _ => true
  | .dir es => noDirLinksList es
  | .link target =>
    match target.stat with
    | some st => !st.isDir
    | none => true
  | .dangling => true
/-- No symbolic link among or below the entries leads to a directory. -/
def noDirLinksList : List (Str × Node) → Bool
  | [] => true
  | e :: es => e.2.noDirLinks && noDirLinksList es
end

/-- Strictly ascending byte-wise order of two Go strings. -/
def strLt (a b : Str) : Prop := strLe a b = true ∧ a ≠ b

/-- A directory with a `.git` subdirectory, used as an example. -/
def repoWithGit : Node :=
  .dir [(str ".git", .dir [(str "config", .file (some (str "x")))]),
    (str "a.txt", .file (some (str "y")))]

/-- One level of the listing as the specification words it: every entry line
uses `├── `, except the final entry of the level, which uses `└── `; the lines
beneath a subdirectory get the prefix extended by `│   `, or by four blanks
beneath the final entry.  An entry is a name and whether it is a directory;
`sub d p` are the lines beneath the subdirectory `d` for the prefix `p`. -/
def renderLevel (sub : Str → Str → List Str) (pre : Str) : List (Str × Bool) → List Str
  | [] => []
  | [x] =>
    (pre ++ lastConnector ++ x.1) :: (if x.2 then sub x.1 (pre ++ blankExtension) else [])
  | x :: y :: rest =>
    ((pre ++ teeConnector ++ x.1) :: (if x.2 then sub x.1 (pre ++ barExtension) else []))
      ++ renderLevel sub pre (y :: rest)

/-- The entries of the directory of the test `TestGenerateTree`. -/
def testDirEntries : List (Str × Node) :=
  [(str "file1.txt", .file (some (str "content"))),
    (str "subdir", .dir [(str "file2.txt", .file (some (str "content")))])]

/-- The ignore patterns of a run of `ProcessDirectory`: those loaded from
`.gitignore` followed by `config.Omit`. -/
def runPatterns (root : Option Node) (config : Config) : List Str :=
  match LoadGitignore (gitignoreState root) with
  | .ok loaded => loaded ++ config.Omit
  | .error _ => config.Omit

/-- The files that get a block in the output: the collected paths that can be
read and are not binary, each with its bytes. -/
def fileBlocks (root : Node) : List Str → List (Str × Str)
  | [] => []
  | relPath :: rest =>
    match readRel root relPath with
    | some content =>
      if IsBinaryFile (some content) then fileBlocks root rest
      else (relPath, content) :: fileBlocks root rest
    | none => fileBlocks root rest

/-- The three slices written for a file block. -/
def blockSlices (b : Str × Str) : List Str := [fileHeader b.1, b.2, str "\n\n"]

/-- The number of bytes that the sink reports written over a sequence of
writes, `log` being the slices written before. -/
def bytesAccepted (writer : Writer) (log : List Str) : List Str → Nat
  | [] => 0
  | p :: ps => (writer log p).1 + bytesAccepted writer (log ++ [p]) ps

/-- Every write of a sequence of writes returns no error, `log` being the slices
written before. -/
def writesSucceed (writer : Writer) (log : List Str) : List Str → Bool
  | [] => true
  | p :: ps => !(writer log p).2 && writesSucceed writer (log ++ [p]) ps

/-- The contract of `io.Writer`: a write that returns no error has written the
whole slice. -/
def WriterContract (writer : Writer) : Prop :=
  ∀ (log : List Str) (p : Str), (writer log p).2 = false → (writer log p).1 = p.length

/-- The entries of the directory of the test `TestProcessDirectory`. -/
def testRunEntries : List (Str × Node) :=
  [(str "file1.txt", .file (some (str "content1"))), (str "file2.bin", .file (some [0, 1]))]

/-- The directory of the test `TestProcessDirectory`. -/
def testRunDir : Node := .dir testRunEntries

/-- The configuration of the test `TestProcessDirectory`. -/
def testRunConfig : Config :=
  { Directory := str "/tmp/TestProcessDirectory/001", TokenLimit := 128000,
    Output := str "output.txt", Omit := [str "*.bin"], Preprompt := str "Preprompt\n",
    Request := [] }

/-- A configuration with no extra ignore pattern, for the directory `repo`. -/
def plainConfig : Config :=
  { Directory := str "repo", TokenLimit := 128000, Output := str "out.txt", Omit := [],
    Preprompt := [], Request := [] }

/-- The tail of a string starts at a rune boundary: it is empty or its first
byte is not a continuation byte. -/
def startsAtRune (tail : Str) : Prop :=
  ∀ t ∈ tail.head?, inRange 0x80 0xBF t = false

instance (tail : Str) : Decidable (startsAtRune tail) := by
  unfold startsAtRune; infer_instance

/-! ## `LoadConfigFromFlags` -/

/-- The constant `DefaultTokenLimit`. -/
def DefaultTokenLimit : Int := 128000

/-- The constant `DefaultPreprompt`. -/
def DefaultPreprompt : Str :=
  str "I have dumped the entire context of my code base, and I have a specific "
    ++ str "request. Please come up with a proposal to address my request - including "
    ++ str "the code and general approach.\n\nEnsure that you leave no details out, "
    ++ str "and specifically follow my requirements. I know what I am doing, and you "
    ++ str "can assume that there is a reason for my arbitrary requirements.\n\nWhen "
    ++ str "generating the full instructions with all of the details, keep in mind "
    ++ str "that I require very specific, step-by-step instructions. Come up with "
    ++ str "discrete steps such that I can build incrementally and verify success "
    ++ str "at each step, keeping your response concise.\n\nRequest:\n\n<request>\n\nThe "
    ++ str "entire codebase is pasted below as context:\n\n"

/-- Go `strings.Index(s, substr)`: the index of the first instance of `substr`
in `s`; `none` is `-1`. -/
def Index : Str → Str → Option Nat
  | [], substr => if substr.isEmpty then some 0 else none
  | c :: t, substr =>
    if substr.isPrefixOf (c :: t) then some 0 else (Index t substr).map (· + 1)

/-- Go `strings.Contains`. -/
def Contains (s substr : Str) : Bool := (Index s substr).isSome

/-- Go `strings.Replace(s, old, new, 1)`: a copy of `s` with the first instance
of `old` replaced by `new`; `s` itself when `old` and `new` are equal or there
is no instance. -/
def Replace (s old new : Str) : Str :=
  if old == new then s
  else
    match Index s old with
    | none => s
    | some j => s.take j ++ new ++ s.drop (j + old.length)

/-- What the config file named by `configFlag` yields: `ioutil.ReadFile` fails,
or `yaml.Unmarshal` into the zero `Config` fails, each with the text of its
error, or the `Config` that the file fills in, a key that the file does not set
keeping the zero value. -/
inductive ConfigFile where
  | unreadable : Str → ConfigFile
  | malformed : Str → ConfigFile
  | parsed : Config → ConfigFile

/-- The first part of `LoadConfigFromFlags`, up to the handling of the request:
the settings read from the config file, or taken from the flags and defaulted.
An error is the message of `fmt.Errorf`. -/
def loadSettings (configFile : ConfigFile)
    (configFlag directoryFlag outputFlag prepromptFlag requestFlag : Str)
    (tokenLimitFlag : Int) (skipFlags : List Str) : Except Str Config :=
  if configFlag != [] then
    match configFile with
    | .unreadable err => .error (str "error reading config file: " ++ err)
    | .malformed err => .error (str "error parsing config file: " ++ err)
    | .parsed config =>
      if config.Output == [] then .error (str "output path is required in the config file")
      else .ok config
  else
    if outputFlag == [] then
      .error (str "output path is required; use -o or --output to specify")
    else
      let config : Config :=
        { Directory := directoryFlag, TokenLimit := tokenLimitFlag, Output := outputFlag,
          Omit := skipFlags, Preprompt := prepromptFlag, Request := requestFlag }
      let config := if config.Directory == [] then { config with Directory := str "." }
        else config
      let config := if config.TokenLimit == 0 then { config with TokenLimit := DefaultTokenLimit }
        else config
      let config := if config.Preprompt == [] then { config with Preprompt := DefaultPreprompt }
        else config
      .ok config

/-- The last part of `LoadConfigFromFlags`: the request is put into the
preprompt. -/
def applyRequest (config : Config) : Config :=
  if config.Request != [] then
    if Contains config.Preprompt (str "<request>") then
      { config with Preprompt := Replace config.Preprompt (str "<request>") config.Request }
    else
      { config with Preprompt := config.Preprompt ++ (str "\n\nRequest:\n\n" ++ config.Request) }
  else config

/-- Go `LoadConfigFromFlags`: constructs a `Config` from flag values or a YAML
file.  `configFile` is what reading and parsing the file named by `configFlag`
yields. -/
def LoadConfigFromFlags (configFile : ConfigFile)
    (configFlag directoryFlag outputFlag prepromptFlag requestFlag : Str)
    (tokenLimitFlag : Int) (skipFlags : List Str) : Except Str Config :=
  match loadSettings configFile configFlag directoryFlag outputFlag prepromptFlag requestFlag
      tokenLimitFlag skipFlags with
  | .error err => .error err
  | .ok config => .ok (applyRequest config)

/-- The settings that the test `TestLoadConfigFromFlags` expects from the flags
`dir`, `output.txt`, `preprompt`, `request`, `1000` and `omit`. -/
def testFlagsConfig : Config :=
  { Directory := str "dir", TokenLimit := 1000, Output := str "output.txt",
    Omit := [str "omit"], Preprompt := str "preprompt\n\nRequest:\n\nrequest",
    Request := str "request" }

/-- The settings returned for the output flag `out.txt` and no other flag. -/
def outputOnlyConfigDefaulted : Config :=
  { Directory := str ".", TokenLimit := DefaultTokenLimit, Output := str "out.txt", Omit := [],
    Preprompt := DefaultPreprompt, Request := [] }

/-- A config file that sets the output path only. -/
def outputOnlyConfig : Config :=
  { Directory := [], TokenLimit := 0, Output := str "out.txt", Omit := [], Preprompt := [],
    Request := [] }

/-- A pattern built only from `*`, `?` and literal bytes other than the
separator: no separator, no `[` and no `\\`. -/
def IsSegmentPattern (p : Str) : Prop := ∀ b ∈ p, b ≠ Separator ∧ b ≠ 91 ∧ b ≠ 92

instance (p : Str) : Decidable (IsSegmentPattern p) := by
  unfold IsSegmentPattern; infer_instance

/-- The part of `ProcessDirectory` that follows the loading of the patterns
(from `// Collect all files` on), for the pattern list `ignorePatterns` that the
first part computed. -/
def ProcessDirectoryFrom (ignorePatterns : List Str) (root : Option Node) (config : Config)
    (writer : Writer) : Run :=
  let cw : countingWriter := { log := [], count := 0 }
  -- collect all files
  match root, Walk root ignorePatterns with
  | some node, some allFiles =>
    let w1 := cw.Write writer [0xEF, 0xBB, 0xBF]
    if w1.2 then { result := .error .writingBOM, written := w1.1.log }
    else
      let w2 := w1.1.Write writer config.Preprompt
      if w2.2 then { result := .error .writingPreprompt, written := w2.1.log }
      else
        let w3 := w2.1.Write writer (str "Directory structure:\n")
        if w3.2 then { result := .error .writingDirectoryHeader, written := w3.1.log }
        else
          let treeLines := GenerateTree (Base config.Directory) (str ".") node ignorePatterns []
          let treeStr := joinLines treeLines ++ str "\n\n"
          let w4 := w3.1.Write writer treeStr
          if w4.2 then { result := .error .writingDirectoryTree, written := w4.1.log }
          else
            let w5 := w4.1.Write writer (str "File contents:\n\n")
            if w5.2 then { result := .error .writingContentsHeader, written := w5.1.log }
            else
              match filesLoop writer node w5.1 allFiles with
              | (cw2, some e) => { result := .error e, written := cw2.log }
              | (cw2, none) => { result := .ok cw2.count, written := cw2.log }
  | _, _ => { result := .error .walkingDirectory, written := cw.log }

/-- The integer that `ProcessDirectory` returns: the count of the counting
writer, or the literal `0` of every `return 0, fmt.Errorf(...)`. -/
def Run.count (r : Run) : Nat :=
  match r.result with
  | .ok n => n
  | .error _ => 0

/-- The three writes of a file block, each with the error that
`ProcessDirectory` returns when the write fails. -/
def blockWrites (b : Str × Str) : List (Str × RunError) :=
  [(fileHeader b.1, .writingFileHeader b.1), (b.2, .writingFileContent b.1),
    (str "\n\n", .writingFileFooter b.1)]

/-- The writes of a run in order, each with the error that `ProcessDirectory`
returns when the write fails: the five writes that open the document, then the
writes of the file blocks. -/
def runWrites (config : Config) (treeStr : Str) (blocks : List (Str × Str)) :
    List (Str × RunError) :=
  [([0xEF, 0xBB, 0xBF], .writingBOM), (config.Preprompt, .writingPreprompt),
    (str "Directory structure:\n", .writingDirectoryHeader), (treeStr, .writingDirectoryTree),
    (str "File contents:\n\n", .writingContentsHeader)] ++ (blocks.map blockWrites).flatten

/-- Writing a sequence of slices through the counting writer, stopping at the
first write that returns an error: the final state and the error attached to
the failed write. -/
def writeAll (writer : Writer) : countingWriter → List (Str × RunError) →
    countingWriter × Option RunError
  | cw, [] => (cw, none)
  | cw, w :: rest =>
    let r := cw.Write writer w.1
    if r.2 then (r.1, some w.2) else writeAll writer r.1 rest

/-- A writer that accepts the first `k` writes and fails on every later one. -/
def failingAfter (k : Nat) : Writer := fun log p =>
  if log.length < k then (p.length, false) else (0, true)

/-- The relative path of the entry that the names `path` lead to from the root
directory: `filepath.Rel(rootDir, ...)` of the joined path. -/
def relPathOf (path : List Str) : Str := path.foldl relJoin (str ".")

/-- The loop `walkNames`, each collected path with the names that lead to the
file. -/
def walkNamesE (visit : Str → List (Str × List Str)) : List Str → List (Str × List Str)
  | [] => []
  | name :: names => visit name ++ walkNamesE visit names

/-- The function `walkEntry`, each collected path with the names that lead to
the file. -/
def walkEntryE (recur : Str → List Str → Node → List (Str × List Str))
    (files : List (Str × Node)) (rel : Str) (path : List Str) :
    Str → List (Str × List Str) := fun name =>
  match lookupEntry name files with
  | some child => recur (relJoin rel name) (path ++ [name]) child
  | none => []

/-- The function `walkLoop`, each collected path with the names that lead to the
file; `path` is the list of names that leads from the root directory to the
object walked. -/
def walkEntriesLoop : Nat → Str → List Str → Node → List Str → List (Str × List Str)
  | 0, _, _, _, _ => []
  | fuel + 1, rel, path, node, ignorePatterns =>
    match node with
    | .file _ => if !IsIgnored rel false ignorePatterns then [(rel, path)] else []
    | .dir files =>
      if IsIgnored rel true ignorePatterns then []
      else
        let names := sortStrings (files.map fun e => e.1)
        walkNamesE
          (walkEntryE (fun r p child => walkEntriesLoop fuel r p child ignorePatterns)
            files rel path)
          names
    | .link _ => if !IsIgnored rel false ignorePatterns then [(rel, path)] else []
    | .dangling => if !IsIgnored rel false ignorePatterns then [(rel, path)] else []

/-- The files that the walk of `ProcessDirectory` collects below the root
directory `node`, each relative path with the names that lead to the file. -/
def walkEntries (node : Node) (ignorePatterns : List Str) : List (Str × List Str) :=
  walkEntriesLoop (node.height + 1) (str ".") [] node ignorePatterns

/-- A configuration whose only extra pattern is `*/`, for the directory `repo`. -/
def allDirsOmitted : Config :=
  { Directory := str "repo", TokenLimit := 128000, Output := str "out.txt",
    Omit := [str "*/"], Preprompt := [], Request := [] }

/-! ## The patterns that `main` adds -/

/-- Go `strings.HasPrefix`. -/
def HasPrefix (s pre : Str) : Bool := pre.isPrefixOf s

/-- Go `filepath.IsAbs` (Unix): the path starts with the separator. -/
def IsAbs (path : Str) : Bool := HasPrefix path [Separator]

/-- The pattern that `main` appends for one of its own files, given the result of
`filepath.Rel(config.Directory, ...)` (`none` when there is an error): the
relative path, unless it starts with `..` or is absolute. -/
def selfPattern (rel : Option Str) : List Str :=
  match rel with
  | some relPath => if !HasPrefix relPath (str "..") && !IsAbs relPath then [relPath] else []
  | none => []

/-- The part of `main` under `// Add additional ignore patterns`: the relative
paths of the executable, of the config file when one is given, and of the output
file are appended to `config.Omit`.  The three arguments are the results of
`filepath.Rel`, `none` when it or `os.Executable` returns an error. -/
def addSelfPatterns (config : Config) (configFlag : Str)
    (relScriptPath relConfigPath relOutputPath : Option Str) : Config :=
  let ignorePatterns := selfPattern relScriptPath
  let ignorePatterns :=
    if configFlag != [] then ignorePatterns ++ selfPattern relConfigPath else ignorePatterns
  let ignorePatterns := ignorePatterns ++ selfPattern relOutputPath
  { config with Omit := config.Omit ++ ignorePatterns }

/-- A directory whose only entry is the output file `out[1].txt`. -/
def bracketOutputDir : Node := .dir [(str "out[1].txt", .file (some (str "x")))]

/-- A directory whose entry `link` is a symbolic link to a directory that holds
`sub/f.txt`, used as an example. -/
def repoWithLink : Node :=
  .dir [(str "link", .link (.dir [(str "sub", .dir [(str "f.txt", .file (some (str "x")))])]))]

/-- A configuration whose only extra pattern is `link/`, for the directory
`repo`. -/
def linkOmitted : Config :=
  { Directory := str "repo", TokenLimit := 128000, Output := str "out.txt",
    Omit := [str "link/"], Preprompt := [], Request := [] }

/-- A directory with a file and a symbolic link whose target does not exist,
used as an example. -/
def repoWithDanglingLink : Node :=
  .dir [(str "a.txt", .file (some (str "y"))), (str "gone", .dangling)]

/-- The entries of a directory with a symbolic link to a file, a symbolic link
whose target does not exist and a subdirectory, used as an example. -/
def fileLinkEntries : List (Str × Node) :=
  [(str "gone", .dangling), (str "notes", .link (.file (some (str "n")))),
    (str "sub", .dir [(str "f.txt", .file (some (str "x")))])]

/-- The entry at the location `below` under a directory whose relative path is
`rel` is one that the listing shows: it exists, `os.Stat` can examine it (it is
not a symbolic link without target) and its relative path is not ignored, and
every directory on the way to it (every proper non-empty prefix of `below`) is
not ignored and not named `.git`. -/
def ListedFrom (rel : Str) (node : Node) (pats : List Str) (below : List Str) : Prop :=
  below ≠ [] ∧
    (∃ n ∈ resolve node below, n.stat.isSome = true ∧
      IsIgnored (below.foldl relJoin rel) n.isDir pats = false) ∧
    ∀ pd ∈ below.inits, pd ≠ [] → pd ≠ below →
      IsIgnored (pd.foldl relJoin rel) true pats = false ∧ pd.getLast? ≠ some (str ".git")

instance (rel : Str) (node : Node) (pats : List Str) (below : List Str) :
    Decidable (ListedFrom rel node pats below) := by
  unfold ListedFrom; infer_instance

/-- The entry at the location `path` below the root directory is one that the
listing shows: `os.Stat` can examine it, its relative path is not ignored, and
every ancestor directory strictly below the root is not ignored and not named
`.git`. -/
def Listed (node : Node) (pats : List Str) (path : List Str) : Prop :=
  ListedFrom (str ".") node pats path

instance (node : Node) (pats : List Str) (path : List Str) :
    Decidable (Listed node pats path) := by
  unfold Listed; infer_instance

/-! # Verification -/

/-! ## Pattern matching: literal patterns -/

theorem matchChunkLoop_nil (fuel : Nat) (s : Str) (failed : Bool) :
    matchChunkLoop fuel [] s failed = if failed then .fail else .rest s := by
  cases fuel <;> simp [matchChunkLoop]

theorem matchChunkLoop_lit_failed (lit : Str) (h : ∀ b ∈ lit, IsLiteral b) :
    ∀ (fuel : Nat) (s : Str), lit.length ≤ fuel → matchChunkLoop fuel lit s true = .fail := by
  induction lit with
  | nil => intro fuel s _; simp [matchChunkLoop_nil]
  | cons c lit ih =>
    intro fuel s hf
    obtain ⟨-, h63, h91, h92⟩ := h c (List.mem_cons_self _ _)
    cases fuel with
    | zero => simp at hf
    | succ f =>
      have hf2 : lit.length ≤ f := by simpa using hf
      simp [matchChunkLoop, h63, h91, h92]
      exact ih (fun b hb => h b (List.mem_cons_of_mem _ hb)) f s hf2

theorem matchChunkLoop_lit_append (lit : Str) (h : ∀ b ∈ lit, IsLiteral b) :
    ∀ (fuel : Nat) (t : Str), lit.length ≤ fuel →
      matchChunkLoop fuel lit (lit ++ t) false = .rest t := by
  induction lit with
  | nil => intro fuel t _; simp [matchChunkLoop_nil]
  | cons c lit ih =>
    intro fuel t hf
    obtain ⟨-, h63, h91, h92⟩ := h c (List.mem_cons_self _ _)
    cases fuel with
    | zero => simp at hf
    | succ f =>
      have hf2 : lit.length ≤ f := by simpa using hf
      simp [matchChunkLoop, h63, h91, h92]
      exact ih (fun b hb => h b (List.mem_cons_of_mem _ hb)) f t hf2

theorem scanLoop_cons (c : Nat) (rest : Str) (inrange : Bool) :
    scanLoop (c :: rest) inrange =
      if c == 92 then
        match rest with
        | [] => ([c], [])
        | d :: rest2 => (c :: d :: (scanLoop rest2 inrange).1, (scanLoop rest2 inrange).2)
      else if c == 91 then (c :: (scanLoop rest true).1, (scanLoop rest true).2)
      else if c == 93 then (c :: (scanLoop rest false).1, (scanLoop rest false).2)
      else if c == 42 && !inrange then ([], c :: rest)
      else (c :: (scanLoop rest inrange).1, (scanLoop rest inrange).2) := by
  rw [scanLoop.eq_def]
  rfl

theorem scanLoop_lit (lit : Str) (h : ∀ b ∈ lit, IsLiteral b) (rest : Str)
    (hr : rest = [] ∨ rest.head? = some 42) : scanLoop (lit ++ rest) false = (lit, rest) := by
  induction lit with
  | nil =>
    rcases hr with rfl | hr
    · simp [scanLoop]
    · cases rest with
      | nil => simp at hr
      | cons c r =>
        simp at hr
        subst hr
        simp [scanLoop_cons]
  | cons c lit ih =>
    obtain ⟨h42, -, h91, h92⟩ := h c (List.mem_cons_self _ _)
    have ih2 := ih (fun b hb => h b (List.mem_cons_of_mem _ hb))
    by_cases h93 : c = 93
    · simp [scanLoop_cons, h93, ih2]
    · simp [scanLoop_cons, h42, h91, h92, h93, ih2]

theorem scanChunk_lit (lit : Str) (h : ∀ b ∈ lit, IsLiteral b) (hne : lit ≠ []) (rest : Str)
    (hr : rest = [] ∨ rest.head? = some 42) : scanChunk (lit ++ rest) = (false, lit, rest) := by
  cases lit with
  | nil => exact absurd rfl hne
  | cons c lit =>
    have h42 : c ≠ 42 := (h c (List.mem_cons_self _ _)).1
    have hs := scanLoop_lit (c :: lit) h rest hr
    simp only [List.cons_append] at hs
    have hd : List.dropWhile (· == 42) (c :: (lit ++ rest)) = c :: (lit ++ rest) := by
      rw [List.dropWhile_cons]; simp [h42]
    simp only [scanChunk, List.cons_append, hd, hs]
    simp [h42]

theorem matchChunk_lit_append (lit t : Str) (h : ∀ b ∈ lit, IsLiteral b) :
    matchChunk lit (lit ++ t) = .rest t :=
  matchChunkLoop_lit_append lit h lit.length t (Nat.le_refl _)

theorem matchLoop_step (fuel : Nat) (c : Nat) (p name : Str) (star : Bool) (chunk rest : Str)
    (hs : scanChunk (c :: p) = (star, chunk, rest)) :
    matchLoop (fuel + 1) (c :: p) name =
      if star && chunk.isEmpty then some (!name.contains Separator)
      else
        let retry : ChunkResult := if star then starLoop chunk rest.isEmpty name else .fail
        let afterRetry : Option Bool :=
          match retry with
          | .rest t => matchLoop fuel rest t
          | .fail => some false
          | .bad => none
        match matchChunk chunk name with
        | .rest t => if t.isEmpty || !rest.isEmpty then matchLoop fuel rest t else afterRetry
        | .fail => afterRetry
        | .bad => none := by
  rw [matchLoop, hs]
  all_goals first
    | rfl
    | (intro h; cases h)

theorem Match_lit_append (lit t : Str) (h : ∀ b ∈ lit, IsLiteral b) (hne : lit ≠ []) :
    Match lit (lit ++ t) = some t.isEmpty := by
  have hs := scanChunk_lit lit h hne [] (Or.inl rfl)
  simp only [List.append_nil] at hs
  cases lit with
  | nil => exact absurd rfl hne
  | cons c lit =>
    have hm := matchChunk_lit_append (c :: lit) t h
    rw [Match, List.length_cons, matchLoop_step _ _ _ _ _ _ _ hs, hm]
    cases t with
    | nil => simp [matchLoop]
    | cons d t => simp

theorem Match_lit_star_append (lit t : Str) (h : ∀ b ∈ lit, IsLiteral b) (hne : lit ≠ []) :
    Match (lit ++ [42]) (lit ++ t) = some (!t.contains Separator) := by
  have hs := scanChunk_lit lit h hne [42] (Or.inr rfl)
  cases lit with
  | nil => exact absurd rfl hne
  | cons c lit =>
    have hm := matchChunk_lit_append (c :: lit) t h
    have h2 : scanChunk [42] = (true, [], []) := by decide
    simp only [List.cons_append] at hs
    rw [Match, List.cons_append, List.length_cons, matchLoop_step _ _ _ _ _ _ _ hs, hm,
      List.length_append, List.length_singleton]
    simp [matchLoop_step _ _ _ _ _ _ _ h2]

/-! ## `filepath.Clean` on bare names -/

theorem cleanLoop_cons (rooted : Bool) (c : Nat) (rest out : Str) (dotdot : Nat)
    (copying : Bool) :
    cleanLoop rooted (c :: rest) out dotdot copying =
      if copying && c != Separator then
        cleanLoop rooted rest (c :: out) dotdot true
      else if c == Separator then
        cleanLoop rooted rest out dotdot false
      else if c == 46 && (rest.isEmpty || rest.head? == some Separator) then
        cleanLoop rooted rest out dotdot false
      else if c == 46 && rest.head? == some 46 &&
          (rest.tail.isEmpty || rest.tail.head? == some Separator) then
        match rest with
        | [] => out
        | _ :: rest2 =>
          if out.length > dotdot then
            cleanLoop rooted rest2 (cleanBacktrack dotdot out) dotdot false
          else if !rooted then
            let out1 := if out.length > 0 then Separator :: out else out
            let out2 := 46 :: 46 :: out1
            cleanLoop rooted rest2 out2 out2.length false
          else
            cleanLoop rooted rest2 out dotdot false
      else
        let out1 :=
          if (rooted && out.length != 1) || (!rooted && out.length != 0) then Separator :: out
          else out
        cleanLoop rooted rest (c :: out1) dotdot true := by
  rw [cleanLoop.eq_def]
  rfl

theorem cleanLoop_copying (rooted : Bool) (rest : Str) (h : ∀ b ∈ rest, b ≠ Separator) :
    ∀ (out : Str) (dotdot : Nat), cleanLoop rooted rest out dotdot true = rest.reverse ++ out := by
  induction rest with
  | nil => intro out dotdot; simp [cleanLoop]
  | cons c rest ih =>
    intro out dotdot
    have hc : c ≠ Separator := h c (List.mem_cons_self _ _)
    rw [cleanLoop_cons]
    simp [hc, ih (fun b hb => h b (List.mem_cons_of_mem _ hb))]

theorem Clean_bare (n : Str) (hne : n ≠ []) (h : ∀ b ∈ n, b ≠ Separator) : Clean n = n := by
  cases n with
  | nil => exact absurd rfl hne
  | cons c rest =>
    have hc : c ≠ Separator := h c (List.mem_cons_self _ _)
    have hrest : ∀ b ∈ rest, b ≠ Separator := fun b hb => h b (List.mem_cons_of_mem _ hb)
    have hcopy := cleanLoop_copying false rest hrest
    cases rest with
    | nil =>
      by_cases h46 : c = 46
      · subst h46; decide
      · simp [Clean, hc, cleanLoop_cons, h46, cleanLoop]
    | cons d rest2 =>
      have hd : d ≠ Separator := hrest d (List.mem_cons_self _ _)
      have hrest2 : ∀ b ∈ rest2, b ≠ Separator := fun b hb => hrest b (List.mem_cons_of_mem _ hb)
      cases rest2 with
      | nil =>
        by_cases h46 : c = 46
        · by_cases h46d : d = 46
          · subst h46; subst h46d; decide
          · subst h46
            simp [Clean, cleanLoop_cons, h46d, hd, cleanLoop, show (46 : Nat) ≠ Separator by decide]
        · simp [Clean, hc, cleanLoop_cons, h46, hd, cleanLoop]
      | cons e rest3 =>
        have he : e ≠ Separator := hrest2 e (List.mem_cons_self _ _)
        have hc3 := cleanLoop_copying false rest3
          (fun b hb => hrest2 b (List.mem_cons_of_mem _ hb))
        simp [Clean, hc, cleanLoop_cons, hd, he, hc3]

/-! ## Patterns that end with the separator -/

theorem endsSep_cons (c : Nat) (chunk : Str) (h : endsSep (c :: chunk) = true) :
    (chunk = [] ∧ c = 47) ∨ (chunk = [42] ∧ c = 47) ∨ endsSep chunk = true := by
  match chunk, h with
  | [], h => left; simpa [endsSep] using h
  | [d], h =>
    simp only [endsSep, Bool.or_eq_true, Bool.and_eq_true, beq_iff_eq] at h
    rcases h with ⟨h1, h2⟩ | h
    · right; left; simp [h1, h2]
    · right; right; simp [endsSep, h]
  | d :: e :: chunk, h =>
    right; right
    simpa [endsSep] using h

theorem endsSep_mem (l : Str) (h : endsSep l = true) : 47 ∈ l := by
  induction l with
  | nil => simp [endsSep] at h
  | cons c l ih =>
    rcases endsSep_cons c l h with ⟨-, h⟩ | ⟨-, h⟩ | h
    · simp [h]
    · simp [h]
    · exact List.mem_cons_of_mem _ (ih h)

theorem endsSep_append (a b : Str) (h : endsSep (a ++ b) = true) :
    endsSep b = true ∨ (b = [] ∧ endsSep a = true) ∨ (b = [42] ∧ a.getLast? = some 47) := by
  induction a with
  | nil => left; simpa using h
  | cons c a ih =>
    rcases endsSep_cons c (a ++ b) h with ⟨h1, h2⟩ | ⟨h1, h2⟩ | h1
    · simp only [List.append_eq_nil] at h1
      right; left
      simp [h1.1, h1.2, h2, endsSep]
    · rcases List.append_eq_cons_iff.1 h1 with ⟨ha, hb⟩ | ⟨a', ha, hb⟩
      · right; right
        simp [ha, hb, h2]
      · have : a' = [] ∧ b = [] := by simpa using hb.symm
        right; left
        simp [ha, this.1, this.2, h2, endsSep]
    · rcases ih h1 with h | ⟨hb, ha⟩ | ⟨hb, ha⟩
      · left; exact h
      · right; left
        refine ⟨hb, ?_⟩
        cases a with
        | nil => simp [endsSep] at ha
        | cons d a =>
          cases a with
          | nil =>
            simp only [endsSep, beq_iff_eq] at ha
            simp [endsSep, ha]
          | cons e a => simpa [endsSep] using ha
      · right; right
        refine ⟨hb, ?_⟩
        cases a with
        | nil => simp at ha
        | cons d a => simpa [List.getLast?_cons_cons] using ha

theorem endsSep_of_getLast (p : Str) (h : p.getLast? = some 47) : endsSep p = true := by
  induction p with
  | nil => simp at h
  | cons c p ih =>
    cases p with
    | nil => simpa [endsSep] using h
    | cons d p =>
      rw [List.getLast?_cons_cons] at h
      have := ih h
      cases p with
      | nil =>
        simp only [endsSep, beq_iff_eq] at this
        simp [endsSep, this]
      | cons e p => simpa [endsSep] using this

theorem endsSep_append_star (p : Str) (h : p.getLast? = some 47) :
    endsSep (p ++ [42]) = true := by
  induction p with
  | nil => simp at h
  | cons c p ih =>
    cases p with
    | nil =>
      have : c = 47 := by simpa using h
      simp [endsSep, this]
    | cons d p =>
      rw [List.getLast?_cons_cons] at h
      have := ih h
      cases p with
      | nil => simpa [endsSep] using this
      | cons e p => simpa [endsSep] using this

theorem getEsc_suffix (chunk : Str) (r : Nat) (nchunk : Str)
    (h : getEsc chunk = some (r, nchunk)) : ∃ pre, chunk = pre ++ nchunk := by
  cases chunk with
  | nil => simp [getEsc] at h
  | cons c rest =>
    by_cases hc : c = 92
    · subst hc
      simp only [getEsc] at h
      simp only [beq_self_eq_true, if_true, Bool.or_eq_true, beq_iff_eq] at h
      refine ⟨92 :: rest.take (decodeRune rest).2, ?_⟩
      split_ifs at h
      simp only [Option.some.injEq, Prod.mk.injEq] at h
      rw [← h.2]
      simp
    · have hc2 : (c == 92) = false := by simpa using hc
      simp only [getEsc, hc2] at h
      refine ⟨(c :: rest).take (decodeRune (c :: rest)).2, ?_⟩
      split_ifs at h
      · contradiction
      · simp only [Option.some.injEq, Prod.mk.injEq] at h
        rw [← h.2]
        simp

theorem classLoop_suffix : ∀ (fuel : Nat) (chunk : Str) (r : Nat) (m : Bool) (nr : Nat)
    (m2 : Bool) (chunk2 : Str), classLoop fuel chunk r m nr = some (m2, chunk2) →
    ∃ pre, chunk = pre ++ 93 :: chunk2 := by
  intro fuel
  induction fuel with
  | zero => intro chunk r m nr m2 chunk2 h; simp [classLoop] at h
  | succ fuel ih =>
    intro chunk r m nr m2 chunk2 h
    simp only [classLoop] at h
    split at h
    · rename_i hclose
      simp only [Option.some.injEq, Prod.mk.injEq] at h
      cases chunk with
      | nil => simp at hclose
      | cons c chunk =>
        simp at hclose
        refine ⟨[], ?_⟩
        simp [hclose.1, ← h.2]
    · split at h
      · cases h
      · rename_i lo chunk1 hesc
        obtain ⟨p1, hp1⟩ := getEsc_suffix _ _ _ hesc
        split at h
        · cases h
        · rename_i hi chunk3 hhi
          obtain ⟨p3, hp3⟩ := ih _ _ _ _ _ _ h
          split at hhi
          · rename_i hdash
            obtain ⟨p2, hp2⟩ := getEsc_suffix _ _ _ hhi
            cases chunk1 with
            | nil => simp at hdash
            | cons d chunk1 =>
              simp at hdash
              simp only [List.tail_cons] at hp2
              refine ⟨p1 ++ 45 :: p2 ++ p3, ?_⟩
              rw [hp1, hdash, hp2, hp3]
              simp
          · simp only [Option.some.injEq, Prod.mk.injEq] at hhi
            refine ⟨p1 ++ p3, ?_⟩
            rw [hp1, hhi.2, hp3]
            simp

theorem endsSep_class (pre chunk2 : Str) (h : endsSep (pre ++ 93 :: chunk2) = true) :
    endsSep chunk2 = true := by
  rcases endsSep_append pre (93 :: chunk2) h with h | ⟨h, -⟩ | ⟨h, -⟩
  · rcases endsSep_cons _ _ h with ⟨-, h⟩ | ⟨-, h⟩ | h
    · cases h
    · cases h
    · exact h
  · cases h
  · cases h

theorem matchChunkLoop_succ (fuel c : Nat) (chunk s : Str) (failed0 : Bool) :
    matchChunkLoop (fuel + 1) (c :: chunk) s failed0 =
      if c == 91 then
        match classLoop fuel (if chunk.head? == some 94 then chunk.tail else chunk)
            (if (failed0 || s.isEmpty) then 0 else (decodeRune s).1) false 0 with
        | none => .bad
        | some (m, chunk2) =>
          matchChunkLoop fuel chunk2
            (if (failed0 || s.isEmpty) then s else s.drop (decodeRune s).2)
            ((failed0 || s.isEmpty) || (m == (chunk.head? == some 94)))
      else if c == 63 then
        if (failed0 || s.isEmpty) then matchChunkLoop fuel chunk s true
        else matchChunkLoop fuel chunk (s.drop (decodeRune s).2) (s.head? == some Separator)
      else if c == 92 then
        match chunk with
        | [] => .bad
        | c2 :: chunk2 =>
          if (failed0 || s.isEmpty) then matchChunkLoop fuel chunk2 s true
          else matchChunkLoop fuel chunk2 s.tail (s.head? != some c2)
      else
        if (failed0 || s.isEmpty) then matchChunkLoop fuel chunk s true
        else matchChunkLoop fuel chunk s.tail (s.head? != some c) := by
  rw [matchChunkLoop.eq_def]
  rfl

theorem matchChunkLoop_rest : ∀ (fuel : Nat) (chunk s : Str) (failed : Bool) (t : Str),
    matchChunkLoop fuel chunk s failed = .rest t →
      failed = false ∧ t <:+ s ∧ (endsSep chunk = true → 47 ∈ s) := by
  intro fuel
  induction fuel with
  | zero =>
    intro chunk s failed t h
    cases chunk with
    | nil =>
      rw [matchChunkLoop_nil] at h
      cases failed with
      | true => simp at h
      | false =>
        simp only [Bool.false_eq_true, if_false, ChunkResult.rest.injEq] at h
        subst h
        exact ⟨rfl, List.suffix_refl _, by simp [endsSep]⟩
    | cons c chunk => simp [matchChunkLoop] at h
  | succ fuel ih =>
    intro chunk s failed t h
    cases chunk with
    | nil =>
      rw [matchChunkLoop_nil] at h
      cases failed with
      | true => simp at h
      | false =>
        simp only [Bool.false_eq_true, if_false, ChunkResult.rest.injEq] at h
        subst h
        exact ⟨rfl, List.suffix_refl _, by simp [endsSep]⟩
    | cons c chunk =>
      rw [matchChunkLoop_succ] at h
      by_cases h91 : c = 91
      · subst h91
        simp only [beq_self_eq_true, if_true] at h
        split at h
        · cases h
        · rename_i m chunk2 hcl
          obtain ⟨hf, hsuf, hsep⟩ := ih _ _ _ _ h
          simp only [Bool.or_eq_false_iff] at hf
          obtain ⟨⟨hf0, hs⟩, -⟩ := hf
          obtain ⟨pre, hpre⟩ := classLoop_suffix _ _ _ _ _ _ _ hcl
          simp only [hf0, hs, Bool.or_self, Bool.false_eq_true, if_false] at hsuf hsep
          refine ⟨hf0, hsuf.trans (List.drop_suffix _ _), fun he => ?_⟩
          have he2 : endsSep chunk2 = true := by
            by_cases hneg : chunk.head? = some 94
            · cases chunk with
              | nil => simp at hneg
              | cons d chunk =>
                simp only [List.head?_cons, Option.some.injEq] at hneg
                subst hneg
                simp only [List.head?_cons, beq_self_eq_true, if_true, List.tail_cons] at hpre
                rw [hpre] at he
                exact endsSep_class ([91, 94] ++ pre) chunk2 (by simpa using he)
            · have : (chunk.head? == some 94) = false := by simpa using hneg
              simp only [this, Bool.false_eq_true, if_false] at hpre
              rw [hpre] at he
              exact endsSep_class ([91] ++ pre) chunk2 (by simpa using he)
          exact (List.drop_suffix _ _).subset (hsep he2)
      · have h91b : (c == 91) = false := by simpa using h91
        simp only [h91b, Bool.false_eq_true, if_false] at h
        by_cases h63 : c = 63
        · subst h63
          simp only [beq_self_eq_true, if_true] at h
          split at h
          · exact absurd (ih _ _ _ _ h).1 (by simp)
          · rename_i hf
            simp only [Bool.not_eq_true, Bool.or_eq_false_iff] at hf
            obtain ⟨-, hsuf, hsep⟩ := ih _ _ _ _ h
            refine ⟨hf.1, hsuf.trans (List.drop_suffix _ _), fun he => ?_⟩
            rcases endsSep_cons _ _ he with ⟨-, h⟩ | ⟨-, h⟩ | h
            · exact absurd h (by decide)
            · exact absurd h (by decide)
            · exact (List.drop_suffix _ _).subset (hsep h)
        · have h63b : (c == 63) = false := by simpa using h63
          simp only [h63b, Bool.false_eq_true, if_false] at h
          by_cases h92 : c = 92
          · subst h92
            simp only [beq_self_eq_true, if_true] at h
            cases chunk with
            | nil => cases h
            | cons c2 chunk2 =>
              simp only at h
              split at h
              · exact absurd (ih _ _ _ _ h).1 (by simp)
              · rename_i hf
                simp only [Bool.not_eq_true, Bool.or_eq_false_iff] at hf
                obtain ⟨hhead, hsuf, hsep⟩ := ih _ _ _ _ h
                have hhead2 : s.head? = some c2 := by simpa using hhead
                refine ⟨hf.1, hsuf.trans (List.tail_suffix _), fun he => ?_⟩
                have hmem : 47 ∈ s ∨ endsSep chunk2 = true := by
                  rcases endsSep_cons _ _ he with ⟨-, h⟩ | ⟨-, h⟩ | h
                  · exact absurd h (by decide)
                  · exact absurd h (by decide)
                  · rcases endsSep_cons _ _ h with ⟨-, h⟩ | ⟨-, h⟩ | h
                    · left; subst h; exact List.mem_of_mem_head? hhead2
                    · left; subst h; exact List.mem_of_mem_head? hhead2
                    · right; exact h
                rcases hmem with h | h
                · exact h
                · exact (List.tail_suffix _).subset (hsep h)
          · have h92b : (c == 92) = false := by simpa using h92
            simp only [h92b, Bool.false_eq_true, if_false] at h
            split at h
            · exact absurd (ih _ _ _ _ h).1 (by simp)
            · rename_i hf
              simp only [Bool.not_eq_true, Bool.or_eq_false_iff] at hf
              obtain ⟨hhead, hsuf, hsep⟩ := ih _ _ _ _ h
              have hhead2 : s.head? = some c := by simpa using hhead
              refine ⟨hf.1, hsuf.trans (List.tail_suffix _), fun he => ?_⟩
              rcases endsSep_cons _ _ he with ⟨-, h⟩ | ⟨-, h⟩ | h
              · subst h; exact List.mem_of_mem_head? hhead2
              · subst h; exact List.mem_of_mem_head? hhead2
              · exact (List.tail_suffix _).subset (hsep h)

theorem scanLoop_spec : ∀ (p : Str) (inrange : Bool),
    p = (scanLoop p inrange).1 ++ (scanLoop p inrange).2 ∧
      ((scanLoop p inrange).2 = [] ∨ (scanLoop p inrange).2.head? = some 42) ∧
      ((scanLoop p inrange).1 = [] → p = [] ∨ p.head? = some 42)
  | [], inrange => by simp [scanLoop]
  | [c], inrange => by
    rw [scanLoop_cons]
    by_cases h92 : c = 92
    · simp [h92]
    · by_cases h91 : c = 91
      · simp [h91, scanLoop]
      · by_cases h93 : c = 93
        · simp [h93, scanLoop]
        · by_cases h42 : (c == 42 && !inrange) = true
          · have hc : c = 42 := by simp at h42; exact h42.1
            have hi : inrange = false := by simp at h42; exact h42.2
            subst hc; subst hi
            simp
          · simp [h92, h91, h93, h42, scanLoop]
  | c :: d :: rest, inrange => by
    have ih1 := scanLoop_spec (d :: rest)
    have ih2 := scanLoop_spec rest inrange
    rw [scanLoop_cons]
    by_cases h92 : c = 92
    · simp only [h92, beq_self_eq_true, if_true]
      obtain ⟨e1, e2, -⟩ := ih2
      refine ⟨?_, e2, by simp⟩
      simp only [List.cons_append]
      rw [← e1]
    · have h92b : (c == 92) = false := by simpa using h92
      simp only [h92b, Bool.false_eq_true, if_false]
      by_cases h91 : c = 91
      · simp only [h91, beq_self_eq_true, if_true]
        obtain ⟨e1, e2, -⟩ := ih1 true
        refine ⟨?_, e2, by simp⟩
        simp only [List.cons_append]
        rw [← e1]
      · have h91b : (c == 91) = false := by simpa using h91
        simp only [h91b, Bool.false_eq_true, if_false]
        by_cases h93 : c = 93
        · simp only [h93, beq_self_eq_true, if_true]
          obtain ⟨e1, e2, -⟩ := ih1 false
          refine ⟨?_, e2, by simp⟩
          simp only [List.cons_append]
          rw [← e1]
        · have h93b : (c == 93) = false := by simpa using h93
          simp only [h93b, Bool.false_eq_true, if_false]
          by_cases h42 : (c == 42 && !inrange) = true
          · have hc : c = 42 := by simp at h42; exact h42.1
            have hi : inrange = false := by simp at h42; exact h42.2
            subst hc; subst hi
            simp
          · have h42b : (c == 42 && !inrange) = false := by simpa using h42
            simp only [h42b, Bool.false_eq_true, if_false]
            obtain ⟨e1, e2, -⟩ := ih1 inrange
            refine ⟨?_, e2, by simp⟩
            simp only [List.cons_append]
            rw [← e1]

theorem scanChunk_spec (p : Str) :
    ∃ stars : Str, (∀ b ∈ stars, b = 42) ∧
      p = stars ++ ((scanChunk p).2.1 ++ (scanChunk p).2.2) ∧
      ((scanChunk p).2.2 = [] ∨ (scanChunk p).2.2.head? = some 42) ∧
      ((scanChunk p).2.1 = [] → (scanChunk p).2.2 = []) := by
  obtain ⟨e1, e2, e3⟩ := scanLoop_spec (p.dropWhile (· == 42)) false
  refine ⟨p.takeWhile (· == 42), ?_, ?_, e2, ?_⟩
  · intro b hb
    simpa using List.mem_takeWhile_imp hb
  · simp only [scanChunk]
    rw [← e1, List.takeWhile_append_dropWhile]
  · intro h
    simp only [scanChunk] at h ⊢
    rcases e3 h with h0 | h0
    · rw [h0]; simp [scanLoop]
    · exfalso
      have hne : p.dropWhile (· == 42) ≠ [] := by
        intro hnil; rw [hnil] at h0; simp at h0
      have := List.head_dropWhile_not (· == 42) p hne
      rw [List.head?_eq_head hne] at h0
      simp only [Option.some.injEq] at h0
      simp [h0] at this

theorem starLoop_spec (chunk : Str) (last : Bool) : ∀ (name t : Str),
    starLoop chunk last name = .rest t → ∃ x, x <:+ name ∧ matchChunk chunk x = .rest t := by
  intro name
  induction name with
  | nil => intro t h; simp [starLoop] at h
  | cons c name ih =>
    intro t h
    simp only [starLoop] at h
    split at h
    · cases h
    · split at h
      · rename_i t2 hm
        split at h
        · obtain ⟨x, hx, hmx⟩ := ih t h
          exact ⟨x, hx.trans (List.suffix_cons _ _), hmx⟩
        · simp only [ChunkResult.rest.injEq] at h
          subst h
          exact ⟨name, List.suffix_cons _ _, hm⟩
      · obtain ⟨x, hx, hmx⟩ := ih t h
        exact ⟨x, hx.trans (List.suffix_cons _ _), hmx⟩
      · cases h

theorem matchChunk_rest (chunk s t : Str) (h : matchChunk chunk s = .rest t) :
    t <:+ s ∧ (endsSep chunk = true → 47 ∈ s) :=
  (matchChunkLoop_rest _ _ _ _ _ h).2

theorem endsSep_stars (stars : Str) (h : ∀ b ∈ stars, b = 42) : endsSep stars = false := by
  cases hE : endsSep stars with
  | false => rfl
  | true => exact absurd (h 47 (endsSep_mem stars hE)) (by decide)

theorem matchLoop_sep : ∀ (fuel : Nat) (pattern name : Str),
    matchLoop fuel pattern name = some true → endsSep pattern = true → 47 ∈ name := by
  intro fuel
  induction fuel with
  | zero =>
    intro pattern name h he
    cases pattern with
    | nil => simp [endsSep] at he
    | cons c p => simp [matchLoop] at h
  | succ fuel ih =>
    intro pattern name h he
    cases pattern with
    | nil => simp [endsSep] at he
    | cons c p =>
      obtain ⟨stars, hstars, hp, hrest, hchunk⟩ := scanChunk_spec (c :: p)
      rcases hsc : scanChunk (c :: p) with ⟨star, chunk, rest⟩
      rw [matchLoop_step _ _ _ _ _ _ _ hsc] at h
      simp only [hsc] at hp hrest hchunk
      -- the pattern after the stars still ends with the separator
      have he1 : endsSep (chunk ++ rest) = true := by
        rw [hp] at he
        rcases endsSep_append _ _ he with h1 | ⟨-, h1⟩ | ⟨-, h1⟩
        · exact h1
        · rw [endsSep_stars stars hstars] at h1; cases h1
        · exfalso
          have hmem : (47 : Nat) ∈ stars := List.mem_of_mem_getLast? h1
          exact absurd (hstars 47 hmem) (by decide)
      have hne : chunk ≠ [] := by
        intro hnil
        rw [hnil, hchunk hnil] at he1
        simp [endsSep] at he1
      have he2 : endsSep rest = true ∨ endsSep chunk = true := by
        rcases endsSep_append _ _ he1 with h1 | ⟨-, h1⟩ | ⟨-, h1⟩
        · exact Or.inl h1
        · exact Or.inr h1
        · exact Or.inr (endsSep_of_getLast _ h1)
      -- every successful path matches the chunk at a suffix of the name
      have key : ∀ x t, x <:+ name → matchChunk chunk x = .rest t →
          matchLoop fuel rest t = some true → 47 ∈ name := by
        intro x t hx hm hl
        obtain ⟨hsuf, hsep⟩ := matchChunk_rest _ _ _ hm
        rcases he2 with h2 | h2
        · exact hx.subset (hsuf.subset (ih _ _ hl h2))
        · exact hx.subset (hsep h2)
      have hcond : (star && chunk.isEmpty) = false := by
        cases chunk with
        | nil => exact absurd rfl hne
        | cons d chunk => simp
      simp only [hcond, Bool.false_eq_true, if_false] at h
      have hretry : (match (if star = true then starLoop chunk rest.isEmpty name
            else ChunkResult.fail) with
          | ChunkResult.rest t => matchLoop fuel rest t
          | ChunkResult.fail => some false
          | ChunkResult.bad => none) = some true → 47 ∈ name := by
        intro h
        split at h
        · rename_i t hst
          split at hst
          · obtain ⟨x, hx, hmx⟩ := starLoop_spec _ _ _ _ hst
            exact key x t hx hmx h
          · cases hst
        · cases h
        · cases h
      split at h
      · rename_i t hm
        split at h
        · exact key name t (List.suffix_refl _) hm h
        · exact hretry h
      · exact hretry h
      · cases h

theorem Match_sep (pattern name : Str) (h : Match pattern name = some true)
    (he : endsSep pattern = true) : 47 ∈ name :=
  matchLoop_sep _ _ _ h he

/-! ## Claims about `IsIgnored` -/

theorem replaceSlash_id (p : Str) : replaceSlash p = p := by
  induction p with
  | nil => rfl
  | cons c p ih =>
    simp only [replaceSlash, List.map_cons] at ih ⊢
    rw [ih]
    by_cases hc : c = 47 <;> simp [hc, Separator]

theorem IsIgnored_singleton (path : Str) (isDir : Bool) (p : Str) :
    IsIgnored path isDir [p] =
      (matched p (if isDir then Clean path ++ [Separator] else Clean path) ||
        matched (p ++ [42]) (if isDir then Clean path ++ [Separator] else Clean path)) := by
  simp only [IsIgnored, isIgnoredLoop, replaceSlash_id]
  cases matched p _ <;> cases matched (p ++ [42]) _ <;> simp

/-- C4 (as stated, refuted): the bare pattern `node_modules` does not ignore the
directory `node_modules`. -/
theorem bare_pattern_misses_directory :
    str "node_modules" ≠ [] ∧ IsBareName (str "node_modules") ∧
      IsIgnored (str "node_modules") true [str "node_modules"] = false := by
  decide

/-- C4 (amended): for a non-empty bare name `n`, the pattern `n` never ignores
the directory `n` (neither attempt matches the appended separator), whereas the
pattern `n/` does. -/
theorem bare_name_directory (n : Str) (hne : n ≠ []) (h : IsBareName n) :
    IsIgnored n true [n] = false ∧ IsIgnored n true [n ++ [Separator]] = true := by
  have hlit : ∀ b ∈ n, IsLiteral b := fun b hb => (h b hb).1
  have hclean : Clean n = n := Clean_bare n hne (fun b hb => (h b hb).2)
  have hlit2 : ∀ b ∈ n ++ [Separator], IsLiteral b := by
    intro b hb
    rcases List.mem_append.1 hb with hb | hb
    · exact hlit b hb
    · simp at hb; subst hb; decide
  constructor
  · rw [IsIgnored_singleton]
    simp [hclean, matched, Match_lit_append n _ hlit hne, Match_lit_star_append n _ hlit hne]
  · rw [IsIgnored_singleton]
    have h1 := Match_lit_append (n ++ [Separator]) [] hlit2 (by simp)
    simp only [List.append_nil] at h1
    simp [hclean, matched, h1]

theorem bare_name_directory_witness :
    IsIgnored (str ".git") true [str ".git"] = false ∧
      IsIgnored (str ".git") true [str ".git" ++ [Separator]] = true :=
  bare_name_directory (str ".git") (by decide) (by decide)

/-- C5 (as stated, refuted): the directory pattern `build/` ignores the file
`build/foo.txt`, whose `isDir` flag is false. -/
theorem directory_pattern_ignores_file :
    (str "build/").getLast? = some Separator ∧
      IsIgnored (str "build/foo.txt") false [str "build/"] = true := by
  decide

/-- C5 (amended): a pattern that ends with the separator never ignores a
non-directory whose cleaned path has no separator. -/
theorem directory_pattern_top_level (pattern path : Str)
    (hp : pattern.getLast? = some Separator) (hpath : Separator ∉ Clean path) :
    IsIgnored path false [pattern] = false := by
  rw [IsIgnored_singleton]
  simp only [Bool.false_eq_true, if_false, Bool.or_eq_false_iff]
  constructor
  · cases hm : Match pattern (Clean path) with
    | none => simp [matched, hm]
    | some b =>
      cases b with
      | false => simp [matched, hm]
      | true => exact absurd (Match_sep _ _ hm (endsSep_of_getLast _ hp)) hpath
  · cases hm : Match (pattern ++ [42]) (Clean path) with
    | none => simp [matched, hm]
    | some b =>
      cases b with
      | false => simp [matched, hm]
      | true => exact absurd (Match_sep _ _ hm (endsSep_append_star _ hp)) hpath

theorem directory_pattern_top_level_witness :
    IsIgnored (str "build") false [str "build/"] = false :=
  directory_pattern_top_level (str "build/") (str "build") (by decide) (by decide)

/-! ## `IsBinaryFile` -/

theorem binaryLoop_iff (l : Str) :
    binaryLoop l = true ↔ ∃ b ∈ l, b < 0x20 ∧ b ∉ [0x07, 0x08, 0x09, 0x0A, 0x0C, 0x0D, 0x1B] := by
  induction l with
  | nil => simp [binaryLoop]
  | cons c l ih =>
    have hc : (c < 32 && c != 7 && c != 8 && c != 9 && c != 10 && c != 12 && c != 13 && c != 27)
        = true ↔ (c < 0x20 ∧ c ∉ [0x07, 0x08, 0x09, 0x0A, 0x0C, 0x0D, 0x1B]) := by
      simp only [Bool.and_eq_true, decide_eq_true_eq, bne_iff_ne, ne_eq, List.mem_cons,
        List.mem_singleton, List.not_mem_nil, or_false, not_or]
      tauto
    rw [List.exists_mem_cons_iff, ← ih, ← hc]
    simp only [binaryLoop]
    split
    · rename_i h; simp [h]
    · rename_i h; simp [h]

theorem IsBinaryFile_some (content : Str) :
    IsBinaryFile (some content) = binaryLoop (content.take 1024) := by
  simp only [IsBinaryFile]
  split
  · rename_i h
    have : content.take 1024 = [] := by simpa using h
    rw [this]; rfl
  · split
    · rename_i h
      symm
      rw [binaryLoop_iff]
      refine ⟨0, by simpa using h, by decide, by decide⟩
    · rfl

/-- C7: for a readable file, `IsBinaryFile` is true exactly when one of the first
`min(1024, length)` bytes is below `0x20` and is not one of the text control
codes `07 08 09 0A 0C 0D 1B`.  Hence an empty file is not binary, a file of
printable ASCII is not binary, and bytes from offset 1024 on do not matter. -/
theorem IsBinaryFile_iff (content : Str) :
    (IsBinaryFile (some content) = true ↔
      ∃ b ∈ content.take (min 1024 content.length),
        b < 0x20 ∧ b ∉ [0x07, 0x08, 0x09, 0x0A, 0x0C, 0x0D, 0x1B]) ∧
    IsBinaryFile (some []) = false ∧
    ((∀ b ∈ content, 0x20 ≤ b ∧ b < 0x7F) → IsBinaryFile (some content) = false) ∧
    (∀ later : Str, 1024 ≤ content.length →
      IsBinaryFile (some (content ++ later)) = IsBinaryFile (some content)) := by
  have htake : content.take (min 1024 content.length) = content.take 1024 := by
    rcases Nat.le_total 1024 content.length with h | h
    · rw [Nat.min_eq_left h]
    · rw [Nat.min_eq_right h, List.take_of_length_le h, List.take_of_length_le (Nat.le_refl _)]
  refine ⟨?_, by decide, ?_, ?_⟩
  · rw [IsBinaryFile_some, binaryLoop_iff, htake]
  · intro h
    cases hb : IsBinaryFile (some content) with
    | false => rfl
    | true =>
      rw [IsBinaryFile_some, binaryLoop_iff] at hb
      obtain ⟨b, hmem, hlt, -⟩ := hb
      have := (h b (List.mem_of_mem_take hmem)).1
      omega
  · intro later h
    rw [IsBinaryFile_some, IsBinaryFile_some, List.take_append_of_le_length h]

theorem IsBinaryFile_iff_witness :
    IsBinaryFile (some (str "hello world")) = false ∧
      IsBinaryFile (some (List.replicate 1024 97 ++ [0])) =
        IsBinaryFile (some (List.replicate 1024 97)) :=
  ⟨(IsBinaryFile_iff (str "hello world")).2.2.1 (by decide),
    (IsBinaryFile_iff (List.replicate 1024 97)).2.2.2 [0] (by rw [List.length_replicate])⟩

/-! ## `LoadGitignore` -/

theorem scanLines_noNewline (l : Str) (h : 10 ∉ l) : ∀ cur : Str,
    scanLines cur l =
      if (l.reverse ++ cur).isEmpty then some []
      else if cur.length + l.length ≥ MaxScanTokenSize then none
      else some [dropCR (l.reverse ++ cur).reverse] := by
  induction l with
  | nil => intro cur; simp [scanLines]
  | cons b l ih =>
    intro cur
    have hb : b ≠ 10 := fun hb => h (by simp [hb])
    have hl : 10 ∉ l := fun hl => h (List.mem_cons_of_mem _ hl)
    simp only [scanLines, beq_iff_eq, hb, if_false]
    rw [ih hl (b :: cur)]
    simp only [List.reverse_cons, List.append_assoc, List.singleton_append, List.length_cons,
      show cur.length + 1 + l.length = cur.length + (l.length + 1) from by omega]

theorem scanLines_line (l : Str) (h : 10 ∉ l) (rest : Str) : ∀ cur : Str,
    scanLines cur (l ++ 10 :: rest) =
      if cur.length + l.length ≥ MaxScanTokenSize then none
      else (scanLines [] rest).map fun ls => dropCR (l.reverse ++ cur).reverse :: ls := by
  induction l with
  | nil => intro cur; simp [scanLines]
  | cons b l ih =>
    intro cur
    have hb : b ≠ 10 := fun hb => h (by simp [hb])
    have hl : 10 ∉ l := fun hl => h (List.mem_cons_of_mem _ hl)
    show scanLines cur (b :: (l ++ 10 :: rest)) = _
    rw [scanLines]
    simp only [beq_iff_eq, hb, if_false]
    rw [ih hl (b :: cur)]
    simp only [List.reverse_cons, List.append_assoc, List.singleton_append, List.length_cons,
      show cur.length + 1 + l.length = cur.length + (l.length + 1) from by omega]

theorem scanLines_unlines (ls : List Str) (last : Str)
    (hls : ∀ l ∈ ls, 10 ∉ l ∧ l.length < MaxScanTokenSize)
    (hlast : 10 ∉ last ∧ last.length < MaxScanTokenSize) :
    scanLines [] (unlines ls ++ last) =
      some ((ls ++ (if last.isEmpty then [] else [last])).map dropCR) := by
  induction ls with
  | nil =>
    simp only [unlines, List.map_nil, List.flatten_nil, List.nil_append]
    rw [scanLines_noNewline last hlast.1]
    have := hlast.2
    cases last with
    | nil => simp
    | cons b last =>
      have h2 : ¬ (0 + (b :: last).length ≥ MaxScanTokenSize) := by
        simp only [Nat.zero_add]; omega
      simp only [List.length_nil, h2, if_false]
      simp
  | cons l ls ih =>
    have hl := hls l (List.mem_cons_self _ _)
    have ih2 := ih (fun x hx => hls x (List.mem_cons_of_mem _ hx))
    simp only [unlines, List.map_cons, List.flatten_cons, List.append_assoc,
      List.singleton_append, List.cons_append, List.nil_append] at ih2 ⊢
    have hstep := scanLines_line l hl.1 ((ls.map fun l => l ++ [10]).flatten ++ last) []
    rw [hstep]
    have h2 : ¬ (([] : Str).length + l.length ≥ MaxScanTokenSize) := by
      simp only [List.length_nil, Nat.zero_add]; omega
    simp only [h2, if_false]
    rw [ih2]
    simp

theorem loadLoop_eq (lines : List Str) :
    loadLoop lines =
      (lines.map TrimSpace).filter fun p => !p.isEmpty && !(p.head? == some 35) := by
  induction lines with
  | nil => rfl
  | cons t lines ih =>
    simp only [loadLoop, List.map_cons, List.filter_cons]
    split <;> simp [ih]

theorem LoadGitignore_too_long (n : Nat) (hn : MaxScanTokenSize ≤ n) :
    LoadGitignore (.content (List.replicate n 97)) = .error .reading := by
  have h : (10 : Nat) ∉ List.replicate n 97 := by
    intro h
    have := List.eq_of_mem_replicate h
    omega
  have hs := scanLines_noNewline _ h []
  have hpos : 0 < n := Nat.lt_of_lt_of_le (by decide) hn
  have hne : ((List.replicate n 97).reverse ++ ([] : Str)).isEmpty = false := by
    rw [List.append_nil, List.reverse_replicate]
    cases n with
    | zero => omega
    | succ m => rfl
  have hlen : ([] : Str).length + (List.replicate n 97).length ≥ MaxScanTokenSize := by
    rw [List.length_replicate, List.length_nil, Nat.zero_add]
    exact hn
  rw [hne, if_neg (by simp), if_pos hlen] at hs
  simp only [LoadGitignore, hs]

/-- C10 (as stated, refuted): a filter file that is one line of 65536 bytes
makes `LoadGitignore` return the error of the scanner, not that line. -/
theorem LoadGitignore_long_line :
    LoadGitignore (.content (List.replicate 65536 97)) = .error .reading :=
  LoadGitignore_too_long 65536 (Nat.le_refl _)

theorem treeFilesE_line (pre rel : Str) (path : List Str) (n : Nat) (fs : List Str) :
    ∀ i, (treeFilesE pre rel path n i fs).map (·.line) = treeFiles pre n i fs := by
  induction fs with
  | nil => intro i; rfl
  | cons f fs ih => intro i; simp [treeFilesE, treeFiles, ih]

theorem treeDirsE_line (subE : Str → Str → List TreeEntry) (sub : Str → Str → List Str)
    (hsub : ∀ d p, (subE d p).map (·.line) = sub d p)
    (pre rel : Str) (path : List Str) (nd nf : Nat) (ds : List Str) :
    ∀ i, (treeDirsE subE pre rel path nd nf i ds).map (·.line) = treeDirs sub pre nd nf i ds := by
  induction ds with
  | nil => intro i; rfl
  | cons d ds ih => intro i; simp [treeDirsE, treeDirs, ih, hsub]

theorem GenerateTreeEntriesLoop_line : ∀ (fuel : Nat) (base rel : Str) (path : List Str)
    (node : Node) (pats : List Str) (pre : Str),
    (GenerateTreeEntriesLoop fuel base rel path node pats pre).map (·.line) =
      GenerateTreeLoop fuel base rel node pats pre := by
  intro fuel
  induction fuel with
  | zero => intros; rfl
  | succ fuel ih =>
    intro base rel path node pats pre
    simp only [GenerateTreeEntriesLoop, GenerateTreeLoop]
    split
    · rfl
    · cases node with
      | file c => by_cases hp : pre.isEmpty <;> simp [hp]
      | dir files =>
        have hsub : ∀ d p,
            (treeSubE (fun d r p child pre2 =>
                GenerateTreeEntriesLoop fuel d r p child pats pre2) files rel path d p).map
              (fun e => e.line) =
            treeSub (fun d r child p => GenerateTreeLoop fuel d r child pats p) files rel d p := by
          intro d p
          simp only [treeSubE, treeSub]
          cases lookupEntry d files with
          | none => rfl
          | some child => exact ih _ _ _ _ _ _
        simp only [List.map_append, treeFilesE_line]
        rw [treeDirsE_line _ _ hsub]
        by_cases hp : pre.isEmpty <;> simp [hp]
      | link target => exact ih _ _ _ _ _ _
      | dangling => by_cases hp : pre.isEmpty <;> simp [hp]

theorem GenerateTreeEntries_line (base rel : Str) (path : List Str) (node : Node)
    (pats : List Str) (pre : Str) :
    (GenerateTreeEntries base rel path node pats pre).map (·.line) =
      GenerateTree base rel node pats pre :=
  GenerateTreeEntriesLoop_line _ _ _ _ _ _ _

/-! ## `sort.Strings` -/

theorem strLe_refl (a : Str) : strLe a a = true := by
  induction a with
  | nil => rfl
  | cons x a ih => simp [strLe, ih]

theorem strLe_total (a b : Str) : strLe a b = true ∨ strLe b a = true := by
  induction a generalizing b with
  | nil => left; cases b <;> rfl
  | cons x a ih =>
    cases b with
    | nil => right; rfl
    | cons y b =>
      simp only [strLe]
      rcases Nat.lt_trichotomy x y with h | h | h
      · left; simp [h]
      · subst h; simpa using ih b
      · right; simp [h]

theorem strLe_trans (a b c : Str) (hab : strLe a b = true) (hbc : strLe b c = true) :
    strLe a c = true := by
  induction a generalizing b c with
  | nil => cases c <;> rfl
  | cons x a ih =>
    cases b with
    | nil => simp [strLe] at hab
    | cons y b =>
      cases c with
      | nil => simp [strLe] at hbc
      | cons z c =>
        simp only [strLe] at hab hbc ⊢
        by_cases hxy : x < y
        · by_cases hyz : y < z
          · simp [Nat.lt_trans hxy hyz]
          · by_cases hzy : z < y
            · simp [hyz, hzy] at hbc
            · have : y = z := by omega
              subst this; simp [hxy]
        · by_cases hyx : y < x
          · simp [hxy, hyx] at hab
          · have hxy2 : x = y := by omega
            subst hxy2
            by_cases hxz : x < z
            · simp [hxz]
            · by_cases hzx : z < x
              · simp [hxz, hzx] at hbc
              · simp only [hxy, hxz, hzx, if_false] at hab hbc ⊢
                exact ih b c hab hbc

theorem strLe_antisymm (a b : Str) (hab : strLe a b = true) (hba : strLe b a = true) :
    a = b := by
  induction a generalizing b with
  | nil =>
    cases b with
    | nil => rfl
    | cons y b => simp [strLe] at hba
  | cons x a ih =>
    cases b with
    | nil => simp [strLe] at hab
    | cons y b =>
      simp only [strLe] at hab hba
      by_cases hxy : x < y
      · have : ¬ y < x := by omega
        simp [hxy, this] at hba
      · by_cases hyx : y < x
        · simp [hxy, hyx] at hab
        · have : x = y := by omega
          subst this
          simp only [hxy, if_false] at hab hba
          rw [ih b hab hba]

theorem sortStrings_perm (l : List Str) : (sortStrings l).Perm l :=
  List.perm_insertionSort _ l

theorem mem_sortStrings (l : List Str) (x : Str) : x ∈ sortStrings l ↔ x ∈ l :=
  (sortStrings_perm l).mem_iff

theorem length_sortStrings (l : List Str) : (sortStrings l).length = l.length :=
  (sortStrings_perm l).length_eq

theorem sortStrings_sorted (l : List Str) :
    (sortStrings l).Pairwise (fun a b => strLe a b = true) :=
  @List.sorted_insertionSort Str (fun a b => strLe a b = true) _ ⟨strLe_total⟩ ⟨strLe_trans⟩ l

theorem sortStrings_strict (l : List Str) (h : l.Nodup) : (sortStrings l).Pairwise strLt := by
  have hs := sortStrings_sorted l
  have hn : (sortStrings l).Nodup := (sortStrings_perm l).nodup_iff.2 h
  exact (hs.and hn).imp (fun h => h)

/-! ## Directory entries -/

theorem lookupEntry_mem (name : Str) (files : List (Str × Node)) (child : Node)
    (h : lookupEntry name files = some child) : (name, child) ∈ files := by
  induction files with
  | nil => simp [lookupEntry] at h
  | cons e files ih =>
    simp only [lookupEntry] at h
    split at h
    · rename_i he
      have h1 : e.1 = name := by simpa using he
      have h2 : e.2 = child := by simpa using h
      rw [← h1, ← h2]
      exact List.mem_cons_self _ _
    · exact List.mem_cons_of_mem _ (ih h)

theorem lookupEntry_of_mem (name : Str) (files : List (Str × Node)) (child : Node)
    (hn : (files.map fun e => e.1).Nodup) (h : (name, child) ∈ files) :
    lookupEntry name files = some child := by
  induction files with
  | nil => simp at h
  | cons e files ih =>
    simp only [List.map_cons, List.nodup_cons] at hn
    simp only [lookupEntry]
    rcases List.mem_cons.1 h with h | h
    · subst h; simp
    · have hne : e.1 ≠ name := by
        intro he
        apply hn.1
        rw [he]
        exact List.mem_map.2 ⟨(name, child), h, rfl⟩
      have : (e.1 == name) = false := by simpa using hne
      simp only [this, Bool.false_eq_true, if_false]
      exact ih hn.2 h

theorem lookupEntry_isSome (name : Str) (files : List (Str × Node))
    (h : name ∈ files.map fun e => e.1) : ∃ child, lookupEntry name files = some child := by
  induction files with
  | nil => simp at h
  | cons e files ih =>
    simp only [lookupEntry]
    by_cases he : e.1 = name
    · exact ⟨e.2, by simp [he]⟩
    · have : (e.1 == name) = false := by simpa using he
      simp only [this, Bool.false_eq_true, if_false]
      apply ih
      simp only [List.map_cons, List.mem_cons] at h
      rcases h with h | h
      · exact absurd h.symm he
      · exact h

theorem height_le_heightList (e : Str × Node) (files : List (Str × Node)) (h : e ∈ files) :
    e.2.height ≤ heightList files := by
  induction files with
  | nil => simp at h
  | cons x files ih =>
    simp only [heightList]
    rcases List.mem_cons.1 h with h | h
    · subst h; exact Nat.le_max_left _ _
    · exact Nat.le_trans (ih h) (Nat.le_max_right _ _)

theorem lookupEntry_height (name : Str) (files : List (Str × Node)) (child : Node)
    (h : lookupEntry name files = some child) : child.height ≤ heightList files :=
  height_le_heightList (name, child) files (lookupEntry_mem _ _ _ h)

theorem height_dir (files : List (Str × Node)) :
    (Node.dir files).height = heightList files + 1 := by
  simp [Node.height]

theorem height_link (target : Node) : (Node.link target).height = target.height + 1 := by
  simp [Node.height]

/-! ## Fuel of the recursions -/

theorem GenerateTreeLoop_fuel : ∀ (fuel : Nat) (node : Node), node.height < fuel →
    ∀ (fuel2 : Nat), fuel ≤ fuel2 → ∀ (base rel : Str) (pats : List Str) (pre : Str),
      GenerateTreeLoop fuel2 base rel node pats pre =
        GenerateTreeLoop fuel base rel node pats pre := by
  intro fuel
  induction fuel with
  | zero => intro node h; omega
  | succ f ih =>
    intro node hnode fuel2 hle base rel pats pre
    obtain ⟨f2, rfl⟩ : ∃ f2, fuel2 = f2 + 1 := ⟨fuel2 - 1, by omega⟩
    cases node with
    | file c => simp only [GenerateTreeLoop]
    | dir files =>
      have hsub : treeSub (fun d r child p => GenerateTreeLoop f2 d r child pats p) files rel =
          treeSub (fun d r child p => GenerateTreeLoop f d r child pats p) files rel := by
        funext d p
        simp only [treeSub]
        cases hl : lookupEntry d files with
        | none => rfl
        | some child =>
          have := lookupEntry_height _ _ _ hl
          rw [height_dir] at hnode
          exact ih child (by omega) f2 (by omega) _ _ _ _
      simp only [GenerateTreeLoop, hsub]
    | link target =>
      rw [height_link] at hnode
      simp only [GenerateTreeLoop]
      rw [ih target (by omega) f2 (by omega)]
    | dangling => simp only [GenerateTreeLoop]

theorem GenerateTreeEntriesLoop_fuel : ∀ (fuel : Nat) (node : Node), node.height < fuel →
    ∀ (fuel2 : Nat), fuel ≤ fuel2 → ∀ (base rel : Str) (path pats : List Str) (pre : Str),
      GenerateTreeEntriesLoop fuel2 base rel path node pats pre =
        GenerateTreeEntriesLoop fuel base rel path node pats pre := by
  intro fuel
  induction fuel with
  | zero => intro node h; omega
  | succ f ih =>
    intro node hnode fuel2 hle base rel path pats pre
    obtain ⟨f2, rfl⟩ : ∃ f2, fuel2 = f2 + 1 := ⟨fuel2 - 1, by omega⟩
    cases node with
    | file c => simp only [GenerateTreeEntriesLoop]
    | dir files =>
      have hsub : treeSubE (fun d r p child pre2 =>
            GenerateTreeEntriesLoop f2 d r p child pats pre2) files rel path =
          treeSubE (fun d r p child pre2 =>
            GenerateTreeEntriesLoop f d r p child pats pre2) files rel path := by
        funext d p
        simp only [treeSubE]
        cases hl : lookupEntry d files with
        | none => rfl
        | some child =>
          have := lookupEntry_height _ _ _ hl
          rw [height_dir] at hnode
          exact ih child (by omega) f2 (by omega) _ _ _ _ _
      simp only [GenerateTreeEntriesLoop, hsub]
    | link target =>
      rw [height_link] at hnode
      simp only [GenerateTreeEntriesLoop]
      rw [ih target (by omega) f2 (by omega)]
    | dangling => simp only [GenerateTreeEntriesLoop]

theorem walkLoop_fuel : ∀ (fuel : Nat) (node : Node), node.height < fuel →
    ∀ (fuel2 : Nat), fuel ≤ fuel2 → ∀ (rel : Str) (pats : List Str),
      walkLoop fuel2 rel node pats = walkLoop fuel rel node pats := by
  intro fuel
  induction fuel with
  | zero => intro node h; omega
  | succ f ih =>
    intro node hnode fuel2 hle rel pats
    obtain ⟨f2, rfl⟩ : ∃ f2, fuel2 = f2 + 1 := ⟨fuel2 - 1, by omega⟩
    cases node with
    | file c => simp only [walkLoop]
    | dir files =>
      have hsub : walkEntry (fun r child => walkLoop f2 r child pats) files rel =
          walkEntry (fun r child => walkLoop f r child pats) files rel := by
        funext d
        simp only [walkEntry]
        cases hl : lookupEntry d files with
        | none => rfl
        | some child =>
          have := lookupEntry_height _ _ _ hl
          rw [height_dir] at hnode
          exact ih child (by omega) f2 (by omega) _ _
      simp only [walkLoop, hsub]
    | link target => simp only [walkLoop]
    | dangling => simp only [walkLoop]

/-! ## One level of the recursions -/

theorem GenerateTreeLoop_succ_dir (f : Nat) (base rel : Str) (files : List (Str × Node))
    (pats : List Str) (pre : Str) :
    GenerateTreeLoop (f + 1) base rel (.dir files) pats pre =
      if base == str ".git" then []
      else
        (if pre.isEmpty then [base] else []) ++
          treeDirs (treeSub (fun d r child p => GenerateTreeLoop f d r child pats p) files rel) pre
            (sortStrings (treeSplit files (treeContents rel pats files)).1).length
            (sortStrings (treeSplit files (treeContents rel pats files)).2).length 0
            (sortStrings (treeSplit files (treeContents rel pats files)).1) ++
          treeFiles pre (sortStrings (treeSplit files (treeContents rel pats files)).2).length 0
            (sortStrings (treeSplit files (treeContents rel pats files)).2) := by
  rw [GenerateTreeLoop]

theorem GenerateTreeEntriesLoop_succ_dir (f : Nat) (base rel : Str) (path : List Str)
    (files : List (Str × Node)) (pats : List Str) (pre : Str) :
    GenerateTreeEntriesLoop (f + 1) base rel path (.dir files) pats pre =
      if base == str ".git" then []
      else
        (if pre.isEmpty then [{ line := base, relPath := rel, path := path, isDir := true }]
          else []) ++
          treeDirsE (treeSubE (fun d r p child pre2 =>
              GenerateTreeEntriesLoop f d r p child pats pre2) files rel path) pre rel path
            (sortStrings (treeSplit files (treeContents rel pats files)).1).length
            (sortStrings (treeSplit files (treeContents rel pats files)).2).length 0
            (sortStrings (treeSplit files (treeContents rel pats files)).1) ++
          treeFilesE pre rel path
            (sortStrings (treeSplit files (treeContents rel pats files)).2).length 0
            (sortStrings (treeSplit files (treeContents rel pats files)).2) := by
  rw [GenerateTreeEntriesLoop]
  rfl

theorem walkLoop_succ_dir (f : Nat) (rel : Str) (files : List (Str × Node))
    (pats : List Str) :
    walkLoop (f + 1) rel (.dir files) pats =
      if IsIgnored rel true pats then []
      else walkNames (walkEntry (fun r child => walkLoop f r child pats) files rel)
        (sortStrings (files.map fun e => e.1)) := by
  rw [walkLoop]

theorem GenerateTree_file (base rel : Str) (c : Option Str) (pats : List Str) (pre : Str) :
    GenerateTree base rel (.file c) pats pre =
      if base == str ".git" then [] else if pre.isEmpty then [base] else [] := by
  simp [GenerateTree, GenerateTreeLoop, Node.height]

theorem GenerateTree_dir (base rel : Str) (files : List (Str × Node)) (pats : List Str)
    (pre : Str) :
    GenerateTree base rel (.dir files) pats pre =
      if base == str ".git" then []
      else
        (if pre.isEmpty then [base] else []) ++
          treeDirs (treeSub (fun d r child p => GenerateTree d r child pats p) files rel) pre
            (sortStrings (treeSplit files (treeContents rel pats files)).1).length
            (sortStrings (treeSplit files (treeContents rel pats files)).2).length 0
            (sortStrings (treeSplit files (treeContents rel pats files)).1) ++
          treeFiles pre (sortStrings (treeSplit files (treeContents rel pats files)).2).length 0
            (sortStrings (treeSplit files (treeContents rel pats files)).2) := by
  have hsub : treeSub (fun d r child p => GenerateTreeLoop (heightList files + 1) d r child pats p)
        files rel =
      treeSub (fun d r child p => GenerateTree d r child pats p) files rel := by
    funext d p
    simp only [treeSub]
    cases hl : lookupEntry d files with
    | none => rfl
    | some child =>
      have := lookupEntry_height _ _ _ hl
      exact GenerateTreeLoop_fuel (child.height + 1) child (by omega) _ (by omega) _ _ _ _
  rw [GenerateTree, height_dir, GenerateTreeLoop_succ_dir, hsub]

theorem GenerateTreeEntries_file (base rel : Str) (path : List Str) (c : Option Str)
    (pats : List Str) (pre : Str) :
    GenerateTreeEntries base rel path (.file c) pats pre =
      if base == str ".git" then []
      else if pre.isEmpty then [{ line := base, relPath := rel, path := path, isDir := false }]
      else [] := by
  simp [GenerateTreeEntries, GenerateTreeEntriesLoop, Node.height, Node.isDir]

theorem GenerateTreeEntries_dir (base rel : Str) (path : List Str) (files : List (Str × Node))
    (pats : List Str) (pre : Str) :
    GenerateTreeEntries base rel path (.dir files) pats pre =
      if base == str ".git" then []
      else
        (if pre.isEmpty then [{ line := base, relPath := rel, path := path, isDir := true }]
          else []) ++
          treeDirsE (treeSubE (fun d r p child pre2 => GenerateTreeEntries d r p child pats pre2)
              files rel path) pre rel path
            (sortStrings (treeSplit files (treeContents rel pats files)).1).length
            (sortStrings (treeSplit files (treeContents rel pats files)).2).length 0
            (sortStrings (treeSplit files (treeContents rel pats files)).1) ++
          treeFilesE pre rel path
            (sortStrings (treeSplit files (treeContents rel pats files)).2).length 0
            (sortStrings (treeSplit files (treeContents rel pats files)).2) := by
  have hsub : treeSubE (fun d r p child pre2 =>
        GenerateTreeEntriesLoop (heightList files + 1) d r p child pats pre2) files rel path =
      treeSubE (fun d r p child pre2 => GenerateTreeEntries d r p child pats pre2)
        files rel path := by
    funext d p
    simp only [treeSubE]
    cases hl : lookupEntry d files with
    | none => rfl
    | some child =>
      have := lookupEntry_height _ _ _ hl
      exact GenerateTreeEntriesLoop_fuel (child.height + 1) child (by omega) _ (by omega)
        _ _ _ _ _
  rw [GenerateTreeEntries, height_dir, GenerateTreeEntriesLoop_succ_dir, hsub]

theorem walkFrom_file (rel : Str) (c : Option Str) (pats : List Str) :
    walkFrom rel (.file c) pats = if !IsIgnored rel false pats then [rel] else [] := by
  simp [walkFrom, walkLoop, Node.height]

theorem walkFrom_dir (rel : Str) (files : List (Str × Node)) (pats : List Str) :
    walkFrom rel (.dir files) pats =
      if IsIgnored rel true pats then []
      else walkNames (walkEntry (fun r child => walkFrom r child pats) files rel)
        (sortStrings (files.map fun e => e.1)) := by
  have hsub : walkEntry (fun r child => walkLoop (heightList files + 1) r child pats) files rel =
      walkEntry (fun r child => walkFrom r child pats) files rel := by
    funext d
    simp only [walkEntry]
    cases hl : lookupEntry d files with
    | none => rfl
    | some child =>
      have := lookupEntry_height _ _ _ hl
      exact walkLoop_fuel (child.height + 1) child (by omega) _ (by omega) _ _
  rw [walkFrom, height_dir, walkLoop_succ_dir, hsub]

/-! ## Entries of one level -/

theorem mem_treeFilesE (pre rel : Str) (path : List Str) (n : Nat) (fs : List Str)
    (e : TreeEntry) : ∀ i, e ∈ treeFilesE pre rel path n i fs →
      ∃ f ∈ fs, e.relPath = relJoin rel f ∧ e.path = path ++ [f] ∧ e.isDir = false := by
  induction fs with
  | nil => intro i h; simp [treeFilesE] at h
  | cons f fs ih =>
    intro i h
    simp only [treeFilesE, List.mem_cons] at h
    rcases h with h | h
    · exact ⟨f, List.mem_cons_self _ _, by simp [h]⟩
    · obtain ⟨g, hg, h2⟩ := ih _ h
      exact ⟨g, List.mem_cons_of_mem _ hg, h2⟩

theorem treeFilesE_of_mem (pre rel : Str) (path : List Str) (n : Nat) (fs : List Str)
    (f : Str) (hf : f ∈ fs) : ∀ i, ∃ e ∈ treeFilesE pre rel path n i fs,
      e.relPath = relJoin rel f ∧ e.path = path ++ [f] ∧ e.isDir = false := by
  induction fs with
  | nil => simp at hf
  | cons g fs ih =>
    intro i
    rcases List.mem_cons.1 hf with h | h
    · subst h
      exact ⟨_, List.mem_cons_self _ _, rfl, rfl, rfl⟩
    · obtain ⟨e, he, h2⟩ := ih h (i + 1)
      exact ⟨e, List.mem_cons_of_mem _ he, h2⟩

theorem mem_treeDirsE (sub : Str → Str → List TreeEntry) (pre rel : Str) (path : List Str)
    (nd nf : Nat) (ds : List Str) (e : TreeEntry) :
    ∀ i, e ∈ treeDirsE sub pre rel path nd nf i ds →
      (∃ d ∈ ds, e.relPath = relJoin rel d ∧ e.path = path ++ [d] ∧ e.isDir = true) ∨
      (∃ d ∈ ds, ∃ p, e ∈ sub d p) := by
  induction ds with
  | nil => intro i h; simp [treeDirsE] at h
  | cons d ds ih =>
    intro i h
    simp only [treeDirsE, List.mem_cons, List.mem_append] at h
    rcases h with (h | h) | h
    · left; exact ⟨d, List.mem_cons_self _ _, by simp [h]⟩
    · right; exact ⟨d, List.mem_cons_self _ _, _, h⟩
    · rcases ih _ h with ⟨g, hg, h2⟩ | ⟨g, hg, h2⟩
      · left; exact ⟨g, List.mem_cons_of_mem _ hg, h2⟩
      · right; exact ⟨g, List.mem_cons_of_mem _ hg, h2⟩

theorem treeDirsE_of_mem (sub : Str → Str → List TreeEntry) (pre rel : Str) (path : List Str)
    (nd nf : Nat) (ds : List Str) (d : Str) (hd : d ∈ ds) :
    ∀ i, (∃ e ∈ treeDirsE sub pre rel path nd nf i ds,
        e.relPath = relJoin rel d ∧ e.path = path ++ [d] ∧ e.isDir = true) ∧
      ∃ p, ∀ e ∈ sub d p, e ∈ treeDirsE sub pre rel path nd nf i ds := by
  induction ds with
  | nil => simp at hd
  | cons g ds ih =>
    intro i
    rcases List.mem_cons.1 hd with h | h
    · subst h
      refine ⟨⟨_, List.mem_append_left _ (List.mem_cons_self _ _), rfl, rfl, rfl⟩,
        pre ++ (if (i == nd - 1 && nf == 0) = true then blankExtension else barExtension),
        fun e he => ?_⟩
      simp only [treeDirsE, List.mem_cons, List.mem_append]
      exact Or.inl (Or.inr he)
    · obtain ⟨⟨e, he, h2⟩, p, hp⟩ := ih h (i + 1)
      refine ⟨⟨e, ?_, h2⟩, p, fun e2 he2 => ?_⟩
      · simp only [treeDirsE, List.mem_cons, List.mem_append]
        exact Or.inr he
      · simp only [treeDirsE, List.mem_cons, List.mem_append]
        exact Or.inr (hp e2 he2)

/-! ## Claim C6: `.git` directories -/

theorem GenerateTreeLoop_git (fuel : Nat) (rel : Str) (node : Node) (pats : List Str)
    (pre : Str) : GenerateTreeLoop fuel (str ".git") rel node pats pre = [] := by
  cases fuel with
  | zero => rfl
  | succ f => simp [GenerateTreeLoop]

theorem GenerateTreeEntriesLoop_git (fuel : Nat) (rel : Str) (path : List Str) (node : Node)
    (pats : List Str) (pre : Str) :
    GenerateTreeEntriesLoop fuel (str ".git") rel path node pats pre = [] := by
  cases fuel with
  | zero => rfl
  | succ f => simp [GenerateTreeEntriesLoop]

theorem entries_not_beneath_git : ∀ (fuel : Nat) (base rel : Str) (path : List Str)
    (node : Node) (pats : List Str) (pre : Str),
    ∀ e ∈ GenerateTreeEntriesLoop fuel base rel path node pats pre,
      ∃ below : List Str, e.path = path ++ below ∧ str ".git" ∉ below.dropLast := by
  intro fuel
  induction fuel with
  | zero => intro base rel path node pats pre e he; simp [GenerateTreeEntriesLoop] at he
  | succ f ih =>
    intro base rel path node pats pre e he
    cases node with
    | file c =>
      simp only [GenerateTreeEntriesLoop] at he
      split at he
      · simp at he
      · split at he
        · simp only [List.mem_singleton] at he
          exact ⟨[], by simp [he], by simp⟩
        · simp at he
    | dir files =>
      rw [GenerateTreeEntriesLoop_succ_dir] at he
      split at he
      · simp at he
      · simp only [List.mem_append] at he
        rcases he with (he | he) | he
        · split at he
          · simp only [List.mem_singleton] at he
            exact ⟨[], by simp [he], by simp⟩
          · simp at he
        · rcases mem_treeDirsE _ _ _ _ _ _ _ _ _ he with ⟨d, -, -, hp, -⟩ | ⟨d, -, p, hsub⟩
          · exact ⟨[d], hp, by simp⟩
          · simp only [treeSubE] at hsub
            split at hsub
            · rename_i child hl
              by_cases hd : d = str ".git"
              · subst hd
                rw [GenerateTreeEntriesLoop_git] at hsub
                simp at hsub
              · obtain ⟨below, hb1, hb2⟩ := ih _ _ _ _ _ _ e hsub
                refine ⟨d :: below, by simp [hb1], ?_⟩
                cases below with
                | nil => simp
                | cons b below =>
                  simp only [List.dropLast_cons₂, List.mem_cons, not_or]
                  exact ⟨fun h => hd h.symm, hb2⟩
            · simp at hsub
        · obtain ⟨g, -, -, hp, -⟩ := mem_treeFilesE _ _ _ _ _ _ _ he
          exact ⟨[g], hp, by simp⟩
    | link target =>
      simp only [GenerateTreeEntriesLoop] at he
      split at he
      · simp at he
      · exact ih _ _ _ _ _ _ e he
    | dangling =>
      simp only [GenerateTreeEntriesLoop] at he
      split at he
      · simp at he
      · split at he
        · simp only [List.mem_singleton] at he
          exact ⟨[], by simp [he], by simp⟩
        · simp at he

/-- C6 (as stated, refuted): with an empty ignore list the listing of a
directory that holds `.git` has the entry line of the directory `.git`. -/
theorem git_entry_line_is_listed :
    GenerateTree (str "root") (str ".") repoWithGit [] [] =
        [str "root", str "├── .git", str "└── a.txt"] ∧
      { line := str "├── .git", relPath := str ".git", path := [str ".git"], isDir := true } ∈
        GenerateTreeEntries (str "root") (str ".") [] repoWithGit [] [] := by
  decide

/-- C6 (amended): `GenerateTree` returns no line for a directory named `.git`,
whatever the ignore list, so that no line of a listing is an entry located
beneath a directory named `.git`: no name but the last of a listed path is
`.git`. -/
theorem git_directory_not_entered (base rel : Str) (node : Node) (pats : List Str)
    (pre : Str) :
    GenerateTree (str ".git") rel node pats pre = [] ∧
      ∀ e ∈ GenerateTreeEntries base rel [] node pats pre, str ".git" ∉ e.path.dropLast := by
  refine ⟨GenerateTreeLoop_git _ _ _ _ _, fun e he => ?_⟩
  obtain ⟨below, hb1, hb2⟩ := entries_not_beneath_git _ _ _ _ _ _ _ e he
  rw [hb1, List.nil_append]
  exact hb2

/-! ## The filtered names of one level -/

theorem treeContents_eq (rel : Str) (pats : List Str) (files : List (Str × Node)) :
    treeContents rel pats files =
      (files.filter fun e => !IsIgnored (relJoin rel e.1) e.2.isDir pats).map fun e => e.1 := by
  induction files with
  | nil => rfl
  | cons x files ih =>
    simp only [treeContents, List.filter_cons]
    cases hd : x.2.isDir
    · cases hi : IsIgnored (relJoin rel x.1) false pats <;> simp [hi, ih]
    · cases hi : IsIgnored (relJoin rel x.1) true pats <;> simp [hi, ih]

theorem mem_treeContents (rel : Str) (pats : List Str) (files : List (Str × Node)) (d : Str) :
    d ∈ treeContents rel pats files ↔
      ∃ child, (d, child) ∈ files ∧ IsIgnored (relJoin rel d) child.isDir pats = false := by
  rw [treeContents_eq]
  simp only [List.mem_map, List.mem_filter, Bool.not_eq_true']
  constructor
  · rintro ⟨e, ⟨he, hi⟩, rfl⟩
    exact ⟨e.2, he, hi⟩
  · rintro ⟨child, he, hi⟩
    exact ⟨(d, child), ⟨he, hi⟩, rfl⟩

theorem treeContents_sublist (rel : Str) (pats : List Str) (files : List (Str × Node)) :
    (treeContents rel pats files).Sublist (files.map fun e => e.1) := by
  rw [treeContents_eq]
  exact (List.filter_sublist _).map _

theorem treeSplit_eq (files : List (Str × Node)) (contents : List Str) :
    treeSplit files contents =
      (contents.filter fun c => ((lookupEntry c files).bind Node.stat).any fun n => n.isDir,
        contents.filter fun c => ((lookupEntry c files).bind Node.stat).any fun n => !n.isDir) := by
  induction contents with
  | nil => rfl
  | cons c contents ih =>
    simp only [treeSplit, List.filter_cons, ih]
    cases hl : (lookupEntry c files).bind Node.stat with
    | none => simp
    | some stat => cases hd : stat.isDir <;> simp [hd]

theorem mem_treeSplit_dirs (files : List (Str × Node)) (contents : List Str) (d : Str) :
    d ∈ (treeSplit files contents).1 ↔
      d ∈ contents ∧ ∃ child, lookupEntry d files = some child ∧
        child.stat.map Node.isDir = some true := by
  rw [treeSplit_eq]
  simp only [List.mem_filter]
  cases lookupEntry d files with
  | none => simp
  | some child => cases hs : child.stat <;> simp [hs]

theorem mem_treeSplit_files (files : List (Str × Node)) (contents : List Str) (d : Str) :
    d ∈ (treeSplit files contents).2 ↔
      d ∈ contents ∧ ∃ child, lookupEntry d files = some child ∧
        child.stat.map Node.isDir = some false := by
  rw [treeSplit_eq]
  simp only [List.mem_filter]
  cases lookupEntry d files with
  | none => simp
  | some child => cases hs : child.stat <;> simp [hs]

theorem treeSplit_sublist (files : List (Str × Node)) (contents : List Str) :
    (treeSplit files contents).1.Sublist contents ∧
      (treeSplit files contents).2.Sublist contents := by
  rw [treeSplit_eq]
  exact ⟨List.filter_sublist _, List.filter_sublist _⟩

/-- The names of the subdirectories that `GenerateTree` lists at a level: the
entries that are not ignored, tested as `ioutil.ReadDir` reports them, and that
`os.Stat` finds to be directories. -/
theorem mem_level_dirs (rel : Str) (pats : List Str) (files : List (Str × Node))
    (hn : (files.map fun e => e.1).Nodup) (d : Str) :
    d ∈ sortStrings (treeSplit files (treeContents rel pats files)).1 ↔
      ∃ child, (d, child) ∈ files ∧ child.stat.map Node.isDir = some true ∧
        IsIgnored (relJoin rel d) child.isDir pats = false := by
  rw [mem_sortStrings, mem_treeSplit_dirs, mem_treeContents]
  constructor
  · rintro ⟨⟨c1, h1, hi⟩, child, hl, hd⟩
    have hc : lookupEntry d files = some c1 := lookupEntry_of_mem _ _ _ hn h1
    have hcc : c1 = child := Option.some.inj (hc.symm.trans hl)
    rw [hcc] at h1 hi
    exact ⟨child, h1, hd, hi⟩
  · rintro ⟨child, h1, hd, hi⟩
    exact ⟨⟨child, h1, hi⟩, child, lookupEntry_of_mem _ _ _ hn h1, hd⟩

/-- The names of the files that `GenerateTree` lists at a level: the entries
that are not ignored, tested as `ioutil.ReadDir` reports them, and that `os.Stat`
finds not to be directories. -/
theorem mem_level_files (rel : Str) (pats : List Str) (files : List (Str × Node))
    (hn : (files.map fun e => e.1).Nodup) (f : Str) :
    f ∈ sortStrings (treeSplit files (treeContents rel pats files)).2 ↔
      ∃ child, (f, child) ∈ files ∧ child.stat.map Node.isDir = some false ∧
        IsIgnored (relJoin rel f) child.isDir pats = false := by
  rw [mem_sortStrings, mem_treeSplit_files, mem_treeContents]
  constructor
  · rintro ⟨⟨c1, h1, hi⟩, child, hl, hd⟩
    have hc : lookupEntry f files = some c1 := lookupEntry_of_mem _ _ _ hn h1
    have hcc : c1 = child := Option.some.inj (hc.symm.trans hl)
    rw [hcc] at h1 hi
    exact ⟨child, h1, hd, hi⟩
  · rintro ⟨child, h1, hd, hi⟩
    exact ⟨⟨child, h1, hi⟩, child, lookupEntry_of_mem _ _ _ hn h1, hd⟩

theorem level_nodup (rel : Str) (pats : List Str) (files : List (Str × Node))
    (hn : (files.map fun e => e.1).Nodup) :
    (treeSplit files (treeContents rel pats files)).1.Nodup ∧
      (treeSplit files (treeContents rel pats files)).2.Nodup := by
  have hc : (treeContents rel pats files).Nodup := (treeContents_sublist rel pats files).nodup hn
  have hs := treeSplit_sublist files (treeContents rel pats files)
  exact ⟨hs.1.nodup hc, hs.2.nodup hc⟩

/-! ## Claim C8: order of the entries of a level -/

theorem forall2_imp_mem {α β : Type} (R S : α → β → Prop) (l1 : List α) (l2 : List β)
    (h : List.Forall₂ R l1 l2) (himp : ∀ a ∈ l1, ∀ b, R a b → S a b) :
    List.Forall₂ S l1 l2 := by
  induction h with
  | nil => exact List.Forall₂.nil
  | cons hab _ ih =>
    exact List.Forall₂.cons (himp _ (List.mem_cons_self _ _) _ hab)
      (ih (fun a ha b hr => himp a (List.mem_cons_of_mem _ ha) b hr))

theorem treeDirs_blocks (sub : Str → Str → List Str) (pre : Str) (nd nf : Nat)
    (ds : List Str) : ∀ i, ∃ blocks : List (List Str),
      treeDirs sub pre nd nf i ds = blocks.flatten ∧
      List.Forall₂ (fun d block => ∃ c ext, (c = teeConnector ∨ c = lastConnector) ∧
        block = (pre ++ c ++ d) :: sub d (pre ++ ext)) ds blocks := by
  induction ds with
  | nil => intro i; exact ⟨[], rfl, List.Forall₂.nil⟩
  | cons d ds ih =>
    intro i
    obtain ⟨blocks, hb, hf⟩ := ih (i + 1)
    refine ⟨((pre ++ (if (i == nd - 1 && nf == 0) = true then lastConnector else teeConnector)
        ++ d) :: sub d (pre ++ (if (i == nd - 1 && nf == 0) = true then blankExtension
          else barExtension))) :: blocks, ?_,
      List.Forall₂.cons ⟨if (i == nd - 1 && nf == 0) = true then lastConnector else teeConnector,
        if (i == nd - 1 && nf == 0) = true then blankExtension else barExtension, ?_, rfl⟩ hf⟩
    · simp only [treeDirs, List.flatten_cons, hb]
    · by_cases h : (i == nd - 1 && nf == 0) = true
      · right; simp [h]
      · left; simp [h]

theorem treeFiles_lines (pre : Str) (n : Nat) (fs : List Str) : ∀ i,
    List.Forall₂ (fun f line => ∃ c, (c = teeConnector ∨ c = lastConnector) ∧
      line = pre ++ c ++ f) fs (treeFiles pre n i fs) := by
  induction fs with
  | nil => intro i; exact List.Forall₂.nil
  | cons f fs ih =>
    intro i
    simp only [treeFiles]
    refine List.Forall₂.cons
      ⟨if (i == n - 1) = true then lastConnector else teeConnector, ?_, rfl⟩ (ih (i + 1))
    by_cases h : (i == n - 1) = true
    · right; simp [h]
    · left; simp [h]

/-- C8: at every level that `GenerateTree` lists, the entries of the
subdirectories come before the entries of the files; the names of each group
are strictly ascending in byte-wise order; they are the names of the entries
that are not ignored and that `os.Stat` finds to be directories, respectively
not to be directories; and the lines of a subdirectory follow its entry line
immediately. -/
theorem GenerateTree_level_order (base rel : Str) (files : List (Str × Node))
    (pats : List Str) (pre : Str) (hbase : base ≠ str ".git")
    (hnames : (files.map fun e => e.1).Nodup) :
    ∃ (dirs filesList : List Str) (blocks : List (List Str)) (fileLines : List Str),
      GenerateTree base rel (.dir files) pats pre =
        (if pre.isEmpty then [base] else []) ++ blocks.flatten ++ fileLines ∧
      dirs.Pairwise strLt ∧ filesList.Pairwise strLt ∧
      (∀ d, d ∈ dirs ↔ ∃ child, (d, child) ∈ files ∧ child.stat.map Node.isDir = some true ∧
        IsIgnored (relJoin rel d) child.isDir pats = false) ∧
      (∀ f, f ∈ filesList ↔ ∃ child, (f, child) ∈ files ∧
        child.stat.map Node.isDir = some false ∧
        IsIgnored (relJoin rel f) child.isDir pats = false) ∧
      List.Forall₂ (fun d block => ∃ child c ext, (d, child) ∈ files ∧
        (c = teeConnector ∨ c = lastConnector) ∧
        block = (pre ++ c ++ d) :: GenerateTree d (relJoin rel d) child pats (pre ++ ext))
        dirs blocks ∧
      List.Forall₂ (fun f line => ∃ c, (c = teeConnector ∨ c = lastConnector) ∧
        line = pre ++ c ++ f) filesList fileLines := by
  have hb : (base == str ".git") = false := by simpa using hbase
  have hnd := level_nodup rel pats files hnames
  obtain ⟨blocks, hblocks, hforall⟩ :=
    treeDirs_blocks (treeSub (fun d r child p => GenerateTree d r child pats p) files rel) pre
      (sortStrings (treeSplit files (treeContents rel pats files)).1).length
      (sortStrings (treeSplit files (treeContents rel pats files)).2).length
      (sortStrings (treeSplit files (treeContents rel pats files)).1) 0
  refine ⟨sortStrings (treeSplit files (treeContents rel pats files)).1,
    sortStrings (treeSplit files (treeContents rel pats files)).2, blocks,
    treeFiles pre (sortStrings (treeSplit files (treeContents rel pats files)).2).length 0
      (sortStrings (treeSplit files (treeContents rel pats files)).2), ?_,
    sortStrings_strict _ hnd.1, sortStrings_strict _ hnd.2,
    mem_level_dirs rel pats files hnames, mem_level_files rel pats files hnames, ?_,
    treeFiles_lines _ _ _ _⟩
  · rw [GenerateTree_dir, hb, hblocks]
    simp
  · refine forall2_imp_mem _ _ _ _ hforall (fun d hd block hblock => ?_)
    obtain ⟨c, ext, hc, hblock⟩ := hblock
    obtain ⟨child, hchild, -⟩ := (mem_level_dirs rel pats files hnames d).1 hd
    refine ⟨child, c, ext, hchild, hc, ?_⟩
    rw [hblock]
    simp only [treeSub, lookupEntry_of_mem _ _ _ hnames hchild]

theorem GenerateTree_level_order_witness :
    ∃ (dirs filesList : List Str) (blocks : List (List Str)) (fileLines : List Str),
      GenerateTree (str "testdir") (str ".") (.dir testDirEntries) [] [] =
        (if ([] : Str).isEmpty then [str "testdir"] else []) ++ blocks.flatten ++ fileLines ∧
      dirs.Pairwise strLt ∧ filesList.Pairwise strLt ∧
      (∀ d, d ∈ dirs ↔ ∃ child, (d, child) ∈ testDirEntries ∧
        child.stat.map Node.isDir = some true ∧
        IsIgnored (relJoin (str ".") d) child.isDir [] = false) ∧
      (∀ f, f ∈ filesList ↔ ∃ child, (f, child) ∈ testDirEntries ∧
        child.stat.map Node.isDir = some false ∧
        IsIgnored (relJoin (str ".") f) child.isDir [] = false) ∧
      List.Forall₂ (fun d block => ∃ child c ext, (d, child) ∈ testDirEntries ∧
        (c = teeConnector ∨ c = lastConnector) ∧
        block = (([] : Str) ++ c ++ d) ::
          GenerateTree d (relJoin (str ".") d) child [] (([] : Str) ++ ext))
        dirs blocks ∧
      List.Forall₂ (fun f line => ∃ c, (c = teeConnector ∨ c = lastConnector) ∧
        line = ([] : Str) ++ c ++ f) filesList fileLines :=
  GenerateTree_level_order (str "testdir") (str ".") testDirEntries [] [] (by decide)
    (by decide)

/-! ## Claim C9: connectors and prefixes -/

theorem forall2_exists_left {α β : Type} (R : α → β → Prop) (l1 : List α) (l2 : List β)
    (h : List.Forall₂ R l1 l2) : ∀ b ∈ l2, ∃ a ∈ l1, R a b := by
  induction h with
  | nil => intro b hb; simp at hb
  | cons hab _ ih =>
    intro b hb
    rcases List.mem_cons.1 hb with h1 | h1
    · subst h1; exact ⟨_, List.mem_cons_self _ _, hab⟩
    · obtain ⟨a, ha, hr⟩ := ih b h1
      exact ⟨a, List.mem_cons_of_mem _ ha, hr⟩

theorem treeFiles_render (sub : Str → Str → List Str) (pre : Str) (n : Nat) (fs : List Str) :
    ∀ j, j + fs.length = n →
      treeFiles pre n j fs = renderLevel sub pre (fs.map fun f => (f, false)) := by
  induction fs with
  | nil => intro j _; rfl
  | cons f fs ih =>
    intro j hj
    simp only [List.length_cons] at hj
    cases fs with
    | nil =>
      simp only [List.length_nil] at hj
      have : j = n - 1 := by omega
      simp [treeFiles, renderLevel, this]
    | cons g fs =>
      simp only [List.length_cons] at hj
      have hne : ¬ j = n - 1 := by omega
      have ih2 := ih (j + 1) (by simp only [List.length_cons]; omega)
      rw [treeFiles, ih2]
      simp [renderLevel, hne]

theorem treeDirs_render (sub : Str → Str → List Str) (pre : Str) (nd : Nat) (fs : List Str)
    (ds : List Str) : ∀ i, i + ds.length = nd →
      treeDirs sub pre nd fs.length i ds ++ treeFiles pre fs.length 0 fs =
        renderLevel sub pre ((ds.map fun d => (d, true)) ++ fs.map fun f => (f, false)) := by
  induction ds with
  | nil =>
    intro i _
    simp only [treeDirs, List.map_nil, List.nil_append]
    exact treeFiles_render sub pre fs.length fs 0 (by omega)
  | cons d ds ih =>
    intro i hi
    simp only [List.length_cons] at hi
    have ih2 := ih (i + 1) (by omega)
    rw [treeDirs, List.append_assoc, ih2]
    cases ds with
    | nil =>
      cases fs with
      | nil =>
        simp only [List.length_nil] at hi
        have : i = nd - 1 := by omega
        simp [renderLevel, this]
      | cons f fs =>
        simp [renderLevel]
    | cons e ds =>
      simp only [List.length_cons] at hi
      have : ¬ i = nd - 1 := by omega
      simp [renderLevel, this]

theorem GenerateTreeLoop_prefix : ∀ (fuel : Nat) (base rel : Str) (node : Node)
    (pats : List Str) (pre : Str), pre ≠ [] →
    ∀ l ∈ GenerateTreeLoop fuel base rel node pats pre, pre <+: l := by
  intro fuel
  induction fuel with
  | zero => intro base rel node pats pre _ l hl; simp [GenerateTreeLoop] at hl
  | succ f ih =>
    intro base rel node pats pre hpre l hl
    have hemp : pre.isEmpty = false := by
      cases pre with
      | nil => exact absurd rfl hpre
      | cons c pre => rfl
    cases node with
    | file c =>
      simp only [GenerateTreeLoop, hemp] at hl
      split at hl <;> simp at hl
    | dir files =>
      rw [GenerateTreeLoop_succ_dir] at hl
      split at hl
      · simp at hl
      · simp only [hemp, Bool.false_eq_true, if_false, List.nil_append, List.mem_append] at hl
        rcases hl with hl | hl
        · obtain ⟨blocks, hb, hf⟩ := treeDirs_blocks _ pre _ _ _ 0
          rw [hb] at hl
          obtain ⟨block, hblock, hlb⟩ := List.mem_flatten.1 hl
          obtain ⟨d, -, c, ext, -, hbe⟩ := forall2_exists_left _ _ _ hf block hblock
          rw [hbe] at hlb
          rcases List.mem_cons.1 hlb with h1 | h1
          · rw [h1, List.append_assoc]
            exact List.prefix_append _ _
          · simp only [treeSub] at h1
            split at h1
            · have := ih _ _ _ _ (pre ++ ext) (by simp [hpre]) l h1
              exact (List.prefix_append pre ext).trans this
            · simp at h1
        · obtain ⟨g, -, c, -, hc⟩ := forall2_exists_left _ _ _ (treeFiles_lines pre _ _ 0) l hl
          rw [hc, List.append_assoc]
          exact List.prefix_append _ _
    | link target =>
      simp only [GenerateTreeLoop] at hl
      split at hl
      · simp at hl
      · exact ih _ _ _ _ pre hpre l hl
    | dangling =>
      simp only [GenerateTreeLoop, hemp] at hl
      split at hl <;> simp at hl

theorem GenerateTree_prefix (base rel : Str) (node : Node) (pats : List Str) (pre : Str)
    (hpre : pre ≠ []) : ∀ l ∈ GenerateTree base rel node pats pre, pre <+: l :=
  GenerateTreeLoop_prefix _ _ _ _ _ _ hpre

theorem connectors_differ (pre x y : Str) :
    pre ++ teeConnector ++ x ≠ pre ++ lastConnector ++ y := by
  intro h
  rw [List.append_assoc, List.append_assoc] at h
  have h2 := List.append_cancel_left h
  have ht : teeConnector = [226, 148, 156, 226, 148, 128, 226, 148, 128, 32] := by decide
  have hl : lastConnector = [226, 148, 148, 226, 148, 128, 226, 148, 128, 32] := by decide
  rw [ht, hl] at h2
  simp at h2

/-- C9: at every level that `GenerateTree` lists, the entries are rendered as
`renderLevel` words it, over the subdirectories followed by the files: the final
entry of the level (the last file, or the last subdirectory when there is no
file) has the connector `└── ` and every other entry has `├── `, which no line
can confuse; the lines beneath a subdirectory are listed with the prefix
extended by four blanks when it is the final entry and by `│   ` otherwise, and
each of them starts with that extended prefix. -/
theorem GenerateTree_connectors (base rel : Str) (files : List (Str × Node))
    (pats : List Str) (pre : Str) :
    let dirs := sortStrings (treeSplit files (treeContents rel pats files)).1
    let filesList := sortStrings (treeSplit files (treeContents rel pats files)).2
    GenerateTree base rel (.dir files) pats pre =
        (if base == str ".git" then []
        else (if pre.isEmpty then [base] else []) ++
          renderLevel (treeSub (fun d r child p => GenerateTree d r child pats p) files rel) pre
            ((dirs.map fun d => (d, true)) ++ filesList.map fun f => (f, false))) ∧
      (∀ x y : Str, pre ++ teeConnector ++ x ≠ pre ++ lastConnector ++ y) ∧
      (∀ (d r : Str) (child : Node) (p : Str), p ≠ [] →
        ∀ l ∈ GenerateTree d r child pats p, p <+: l) := by
  intro dirs filesList
  refine ⟨?_, connectors_differ pre, fun d r child p hp => GenerateTree_prefix d r child pats p hp⟩
  rw [GenerateTree_dir]
  split
  · rfl
  · rw [List.append_assoc]
    congr 1
    have h := treeDirs_render (treeSub (fun d r child p => GenerateTree d r child pats p) files rel)
      pre dirs.length filesList dirs 0 (by omega)
    exact h

/-! ## `ProcessDirectory` -/

theorem bytesAccepted_append (writer : Writer) (ps qs : List Str) : ∀ log : List Str,
    bytesAccepted writer log (ps ++ qs) =
      bytesAccepted writer log ps + bytesAccepted writer (log ++ ps) qs := by
  induction ps with
  | nil => intro log; simp [bytesAccepted]
  | cons p ps ih =>
    intro log
    show (writer log p).1 + bytesAccepted writer (log ++ [p]) (ps ++ qs) =
      (writer log p).1 + bytesAccepted writer (log ++ [p]) ps +
        bytesAccepted writer (log ++ p :: ps) qs
    rw [ih, List.append_assoc, List.singleton_append]
    omega

theorem writesSucceed_append (writer : Writer) (ps qs : List Str) : ∀ log : List Str,
    writesSucceed writer log (ps ++ qs) =
      (writesSucceed writer log ps && writesSucceed writer (log ++ ps) qs) := by
  induction ps with
  | nil => intro log; simp [writesSucceed]
  | cons p ps ih =>
    intro log
    show (!(writer log p).2 && writesSucceed writer (log ++ [p]) (ps ++ qs)) =
      ((!(writer log p).2 && writesSucceed writer (log ++ [p]) ps) &&
        writesSucceed writer (log ++ p :: ps) qs)
    rw [ih, List.append_assoc, List.singleton_append, Bool.and_assoc]

theorem bytesAccepted_eq_length (writer : Writer) (hc : WriterContract writer)
    (ps : List Str) : ∀ log : List Str, writesSucceed writer log ps = true →
      bytesAccepted writer log ps = ps.flatten.length := by
  induction ps with
  | nil => intro log _; rfl
  | cons p ps ih =>
    intro log h
    simp only [writesSucceed, Bool.and_eq_true, Bool.not_eq_true'] at h
    simp only [bytesAccepted, List.flatten_cons, List.length_append, ih _ h.2, hc log p h.1]

theorem filesLoop_ok (writer : Writer) (root : Node) (allFiles : List Str) :
    ∀ (cw cw2 : countingWriter), filesLoop writer root cw allFiles = (cw2, none) →
      cw2.log = cw.log ++ ((fileBlocks root allFiles).map blockSlices).flatten ∧
      cw2.count = cw.count +
        bytesAccepted writer cw.log ((fileBlocks root allFiles).map blockSlices).flatten ∧
      writesSucceed writer cw.log ((fileBlocks root allFiles).map blockSlices).flatten = true := by
  induction allFiles with
  | nil =>
    intro cw cw2 h
    simp only [filesLoop, Prod.mk.injEq, and_true] at h
    subst h
    simp [fileBlocks, bytesAccepted, writesSucceed]
  | cons rel rest ih =>
    intro cw cw2 h
    simp only [filesLoop] at h
    cases hr : readRel root rel with
    | none =>
      have hb : IsBinaryFile none = false := rfl
      simp only [hr, hb, Bool.false_eq_true, if_false] at h
      simpa [fileBlocks, hr] using ih cw cw2 h
    | some content =>
      simp only [hr] at h
      cases hb : IsBinaryFile (some content) with
      | true =>
        simp only [hb, if_true] at h
        simpa [fileBlocks, hr, hb] using ih cw cw2 h
      | false =>
        simp only [hb, Bool.false_eq_true, if_false] at h
        split at h
        · cases h
        · split at h
          · cases h
          · split at h
            · cases h
            · rename_i e1 e2 e3
              obtain ⟨h1, h2, h3⟩ := ih _ _ h
              simp only [countingWriter.Write, List.append_assoc, List.singleton_append,
                Bool.not_eq_true] at h1 h2 h3 e1 e2 e3
              refine ⟨?_, ?_, ?_⟩
              · rw [h1]
                simp [fileBlocks, hr, hb, blockSlices]
              · rw [h2]
                simp only [fileBlocks, hr, hb, Bool.false_eq_true, if_false, List.map_cons,
                  List.flatten_cons, blockSlices, List.cons_append, List.nil_append,
                  bytesAccepted, List.append_assoc, List.singleton_append]
                omega
              · simp only [fileBlocks, hr, hb, Bool.false_eq_true, if_false, List.map_cons,
                  List.flatten_cons, blockSlices, List.cons_append, List.nil_append,
                  writesSucceed, List.append_assoc, List.singleton_append, e1, e2, e3,
                  Bool.not_false, Bool.true_and]
                simpa using h3

theorem ProcessDirectory_ok (root : Option Node) (config : Config) (writer : Writer) (n : Nat)
    (h : (ProcessDirectory root config writer).result = .ok n) :
    ∃ node, root = some node ∧
      (∃ loaded, LoadGitignore (gitignoreState root) = .ok loaded) ∧
      (ProcessDirectory root config writer).written =
        [[0xEF, 0xBB, 0xBF], config.Preprompt, str "Directory structure:\n",
          joinLines (GenerateTree (Base config.Directory) (str ".") node
            (runPatterns root config) []) ++ str "\n\n",
          str "File contents:\n\n"] ++
        ((fileBlocks node (walkFrom (str ".") node (runPatterns root config))).map
          blockSlices).flatten ∧
      n = bytesAccepted writer [] (ProcessDirectory root config writer).written ∧
      writesSucceed writer [] (ProcessDirectory root config writer).written = true := by
  cases hload : LoadGitignore (gitignoreState root) with
  | error e =>
    simp only [ProcessDirectory, hload] at h
    cases h
  | ok loaded =>
    cases root with
    | none =>
      simp only [ProcessDirectory, hload, Walk] at h
      cases h
    | some node =>
      refine ⟨node, rfl, ⟨loaded, rfl⟩, ?_⟩
      have hpat : runPatterns (some node) config = loaded ++ config.Omit := by
        simp only [runPatterns, hload]
      rw [hpat]
      simp only [ProcessDirectory, hload, Walk] at h ⊢
      split at h
      · cases h
      · split at h
        · cases h
        · split at h
          · cases h
          · split at h
            · cases h
            · split at h
              · cases h
              · rename_i h1 h2 h3 h4 h5
                simp only [h1, h2, h3, h4, h5, Bool.false_eq_true, if_false]
                split at h
                · cases h
                · rename_i cw2 hloop
                  simp only [hloop]
                  obtain ⟨hl, hc, hs⟩ := filesLoop_ok _ _ _ _ _ hloop
                  simp only [countingWriter.Write, List.nil_append, List.append_assoc,
                    List.singleton_append, List.cons_append, Nat.zero_add,
                    Bool.not_eq_true] at hl hc hs h1 h2 h3 h4 h5
                  simp only [Except.ok.injEq] at h
                  refine ⟨hl, ?_, ?_⟩
                  · rw [← h, hc, hl]
                    simp only [bytesAccepted, List.nil_append, List.cons_append,
                      List.append_assoc, List.singleton_append]
                    omega
                  · rw [hl]
                    simp only [writesSucceed, List.nil_append, List.cons_append,
                      List.append_assoc, List.singleton_append, h1, h2, h3, h4, h5,
                      Bool.not_false, Bool.true_and]
                    simpa using hs

theorem fileBlocks_flatten (node : Node) (l : List Str) :
    ((fileBlocks node l).map blockSlices).flatten.flatten =
      ((l.filter fun rel => (readRel node rel).isSome && !IsBinaryFile (readRel node rel)).map
        fun rel => str "=== File: " ++ rel ++ str " ===\n" ++ (readRel node rel).getD [] ++
          str "\n\n").flatten := by
  induction l with
  | nil => rfl
  | cons rel rest ih =>
    cases hr : readRel node rel with
    | none => simpa [fileBlocks, List.filter_cons, hr] using ih
    | some content =>
      cases hb : IsBinaryFile (some content) with
      | true => simpa [fileBlocks, List.filter_cons, hr, hb] using ih
      | false =>
        simp only [fileBlocks, List.filter_cons, hr, hb, Bool.false_eq_true, if_false,
          List.map_cons, List.flatten_cons, Option.isSome_some, Bool.not_false, Bool.and_self,
          if_true, ih, blockSlices, fileHeader, Option.getD_some, List.cons_append,
          List.nil_append, List.append_assoc, List.flatten_nil, List.append_nil]

/-- C1: when `ProcessDirectory` returns no error (the ignore file was loaded,
the walk succeeded and no write to the sink failed), the bytes it wrote are
exactly the byte-order mark `EF BB BF`, the preprompt, `"Directory
structure:\n"`, the lines of `GenerateTree(dir, patterns, "", dir)` joined by
`"\n"` and followed by `"\n\n"`, `"File contents:\n\n"`, and then, for each
collected file in walk order that is readable and not binary, the delimiter line
with its relative path, its bytes and `"\n\n"`. -/
theorem ProcessDirectory_document (root : Option Node) (config : Config) (writer : Writer)
    (n : Nat) (h : (ProcessDirectory root config writer).result = .ok n) :
    ∃ node, root = some node ∧
      (ProcessDirectory root config writer).written.flatten =
        [0xEF, 0xBB, 0xBF] ++ config.Preprompt ++ str "Directory structure:\n" ++
          joinLines (GenerateTree (Base config.Directory) (str ".") node
            (runPatterns root config) []) ++ str "\n\n" ++
          str "File contents:\n\n" ++
          (((walkFrom (str ".") node (runPatterns root config)).filter fun rel =>
              (readRel node rel).isSome && !IsBinaryFile (readRel node rel)).map
            fun rel => str "=== File: " ++ rel ++ str " ===\n" ++ (readRel node rel).getD [] ++
              str "\n\n").flatten := by
  obtain ⟨node, hroot, -, hw, -, -⟩ := ProcessDirectory_ok root config writer n h
  refine ⟨node, hroot, ?_⟩
  rw [hw, List.flatten_append, fileBlocks_flatten]
  simp only [List.flatten_cons, List.flatten_nil, List.append_nil, List.append_assoc]

theorem ProcessDirectory_document_witness :
    ∃ node, some testRunDir = some node ∧
      (ProcessDirectory (some testRunDir) testRunConfig bufferWriter).written.flatten =
        [0xEF, 0xBB, 0xBF] ++ testRunConfig.Preprompt ++ str "Directory structure:\n" ++
          joinLines (GenerateTree (Base testRunConfig.Directory) (str ".") node
            (runPatterns (some testRunDir) testRunConfig) []) ++ str "\n\n" ++
          str "File contents:\n\n" ++
          (((walkFrom (str ".") node (runPatterns (some testRunDir) testRunConfig)).filter
              fun rel => (readRel node rel).isSome && !IsBinaryFile (readRel node rel)).map
            fun rel => str "=== File: " ++ rel ++ str " ===\n" ++ (readRel node rel).getD [] ++
              str "\n\n").flatten :=
  ProcessDirectory_document (some testRunDir) testRunConfig bufferWriter 109 rfl

/-- C2: when `ProcessDirectory` returns no error, the integer it returns is the
total of the byte counts that the sink reported for the writes of the run; for
a sink that keeps the contract of `io.Writer` this is the byte length of
everything written, the whole output document. -/
theorem ProcessDirectory_count (root : Option Node) (config : Config) (writer : Writer)
    (n : Nat) (h : (ProcessDirectory root config writer).result = .ok n) :
    n = bytesAccepted writer [] (ProcessDirectory root config writer).written ∧
      (WriterContract writer →
        n = (ProcessDirectory root config writer).written.flatten.length ∧
        ∃ node, root = some node ∧
          n = 3 + config.Preprompt.length + (str "Directory structure:\n").length +
            (joinLines (GenerateTree (Base config.Directory) (str ".") node
              (runPatterns root config) []) ++ str "\n\n").length +
            (str "File contents:\n\n").length +
            ((fileBlocks node (walkFrom (str ".") node (runPatterns root config))).map
              (fun b => (fileHeader b.1).length + b.2.length + 2)).sum) := by
  obtain ⟨node, hroot, -, hw, hn, hs⟩ := ProcessDirectory_ok root config writer n h
  refine ⟨hn, fun hc => ?_⟩
  have hlen := bytesAccepted_eq_length writer hc _ [] hs
  rw [hlen] at hn
  refine ⟨hn, node, hroot, ?_⟩
  rw [hn, hw]
  simp only [List.flatten_append, List.flatten_cons, List.flatten_nil, List.append_nil,
    List.length_append, List.length_cons, List.length_nil]
  have hb : ∀ l : List (Str × Str),
      ((l.map blockSlices).flatten.flatten).length =
        (l.map fun b => (fileHeader b.1).length + b.2.length + 2).sum := by
    intro l
    induction l with
    | nil => rfl
    | cons b l ih =>
      simp only [List.map_cons, List.flatten_cons, List.flatten_append, List.length_append,
        ih, List.sum_cons, blockSlices, List.flatten_nil, List.append_nil]
      have : (str "\n\n").length = 2 := by decide
      omega
  rw [hb]
  omega

theorem ProcessDirectory_count_witness :
    109 = bytesAccepted bufferWriter []
        (ProcessDirectory (some testRunDir) testRunConfig bufferWriter).written :=
  (ProcessDirectory_count (some testRunDir) testRunConfig bufferWriter 109 rfl).1

/-! ## Directories with pairwise distinct names -/

theorem distinctNamesList_iff (es : List (Str × Node)) :
    distinctNamesList es = true ↔ ∀ e ∈ es, e.2.distinctNames = true := by
  induction es with
  | nil => simp [distinctNamesList]
  | cons x es ih => simp [distinctNamesList, ih]

theorem distinctNames_dir (es : List (Str × Node)) :
    (Node.dir es).distinctNames = true ↔
      (es.map fun e => e.1).Nodup ∧ ∀ e ∈ es, e.2.distinctNames = true := by
  simp [Node.distinctNames, distinctNamesList_iff]

/-! ## Claim C3: blocks and listed files -/

theorem mem_fileBlocks (node : Node) (l : List Str) (p : Str) :
    p ∈ (fileBlocks node l).map (fun b => b.1) ↔
      p ∈ l ∧ (readRel node p).isSome = true ∧ IsBinaryFile (readRel node p) = false := by
  induction l with
  | nil => simp [fileBlocks]
  | cons rel rest ih =>
    cases hr : readRel node rel with
    | none =>
      simp only [fileBlocks, hr, ih, List.mem_cons]
      constructor
      · rintro ⟨h1, h2⟩; exact ⟨Or.inr h1, h2⟩
      · rintro ⟨h1 | h1, h2, h3⟩
        · subst h1; rw [hr] at h2; cases h2
        · exact ⟨h1, h2, h3⟩
    | some content =>
      cases hb : IsBinaryFile (some content) with
      | true =>
        simp only [fileBlocks, hr, hb, if_true, ih, List.mem_cons]
        constructor
        · rintro ⟨h1, h2⟩; exact ⟨Or.inr h1, h2⟩
        · rintro ⟨h1 | h1, h2, h3⟩
          · subst h1; rw [hr, hb] at h3; cases h3
          · exact ⟨h1, h2, h3⟩
      | false =>
        simp only [fileBlocks, hr, hb, Bool.false_eq_true, if_false, List.map_cons,
          List.mem_cons, ih]
        constructor
        · rintro (h1 | ⟨h1, h2⟩)
          · subst h1; exact ⟨Or.inl rfl, by simp [hr], by rw [hr, hb]⟩
          · exact ⟨Or.inr h1, h2⟩
        · rintro ⟨h1 | h1, h2, h3⟩
          · exact Or.inl h1
          · exact Or.inr ⟨h1, h2, h3⟩

/-- C3: the walk of `ProcessDirectory` has no counterpart of the `.git` guard of
`GenerateTree`.  With no ignore pattern the file `.git/config` gets a block in the
output although no line of the tree section lists it. -/
theorem git_file_has_block_but_no_line :
    (ProcessDirectory (some repoWithGit) plainConfig bufferWriter).written =
        [[0xEF, 0xBB, 0xBF], [], str "Directory structure:\n",
          str "repo\n├── .git\n└── a.txt\n\n", str "File contents:\n\n",
          str "=== File: .git/config ===\n", str "x", str "\n\n",
          str "=== File: a.txt ===\n", str "y", str "\n\n"] ∧
      (GenerateTreeEntries (str "repo") (str ".") [] repoWithGit [] []).all
        (fun e => e.relPath != str ".git/config") = true := by
  decide

/-! ## `strings.TrimSpace` and the lines of `LoadGitignore` -/

theorem isSpace_RuneError : isSpace RuneError = false := by decide

theorem isSpace_ascii (b : Nat) (h : b < 0x80) : isSpace b = asciiSpace b := by
  simp only [isSpace, asciiSpace, inRange]
  have h1 : (b == 0x85) = false := by simp; omega
  have h2 : (b == 0xA0) = false := by simp; omega
  have h3 : (b == 0x1680) = false := by simp; omega
  have h4 : (decide (0x2000 ≤ b) && decide (b ≤ 0x200A)) = false := by simp; omega
  have h5 : (b == 0x2028) = false := by simp; omega
  have h6 : (b == 0x2029) = false := by simp; omega
  have h7 : (b == 0x202F) = false := by simp; omega
  have h8 : (b == 0x205F) = false := by simp; omega
  have h9 : (b == 0x3000) = false := by simp; omega
  simp only [h1, h2, h3, h4, h5, h6, h7, h8, h9, Bool.or_false]

theorem decodeRune_ascii (b : Nat) (rest : Str) (h : b < 0x80) :
    decodeRune (b :: rest) = (b, 1) := by
  simp [decodeRune, h]

theorem inRange_sub (lo hi b : Nat) (hlo : 0x80 ≤ lo) (hhi : hi ≤ 0xBF)
    (h : inRange 0x80 0xBF b = false) : inRange lo hi b = false := by
  simp only [inRange, Bool.and_eq_false_iff, decide_eq_false_iff_not] at h ⊢
  omega

theorem decodeRune_width_one (b : Nat) (tail : Str) (hb : 0x80 ≤ b) (ht : startsAtRune tail) :
    (decodeRune (b :: tail)).2 = 1 := by
  have hb2 : ¬ b < 0x80 := by omega
  rcases tail with _ | ⟨t, _ | ⟨t2, _ | ⟨t3, r⟩⟩⟩
  · simp only [decodeRune, hb2, if_false]
    split_ifs <;> rfl
  all_goals
    have h1 : inRange 0x80 0xBF t = false := ht t (by simp)
    have h2 : inRange (if b = 0xE0 then 0xA0 else 0x80) (if b = 0xED then 0x9F else 0xBF) t
        = false := by
      apply inRange_sub _ _ _ _ _ h1 <;> split <;> omega
    have h3 : inRange (if b = 0xF0 then 0x90 else 0x80) (if b = 0xF4 then 0x8F else 0xBF) t
        = false := by
      apply inRange_sub _ _ _ _ _ h1 <;> split <;> omega
    simp only [decodeRune, hb2, if_false, h1, h2, h3, Bool.false_and, Bool.false_eq_true]
    split_ifs <;> rfl

theorem decodeRune_width_pos (s : Str) (h : s ≠ []) : 1 ≤ (decodeRune s).2 := by
  rcases s with _ | ⟨b, _ | ⟨t, _ | ⟨t2, _ | ⟨t3, r⟩⟩⟩⟩
  · exact absurd rfl h
  all_goals
    simp only [decodeRune]
    split_ifs <;> simp

theorem decodeRune_width_le (s : Str) : (decodeRune s).2 ≤ s.length := by
  rcases s with _ | ⟨b, _ | ⟨t, _ | ⟨t2, _ | ⟨t3, r⟩⟩⟩⟩
  · simp [decodeRune]
  all_goals
    simp only [decodeRune]
    split_ifs <;> simp

/-- A rune of width two or more starts with a lead byte, which is not a
continuation byte. -/
theorem decodeRune_lead (b : Nat) (rest : Str) (h : 2 ≤ (decodeRune (b :: rest)).2) :
    0x80 ≤ b ∧ inRange 0x80 0xBF b = false := by
  rcases rest with _ | ⟨t, _ | ⟨t2, _ | ⟨t3, r⟩⟩⟩
  all_goals
    simp only [decodeRune] at h
    split_ifs at h
    all_goals first
      | (simp at h; done)
      | (simp only [inRange, Bool.and_eq_true, decide_eq_true_eq, Bool.and_eq_false_iff,
          decide_eq_false_iff_not] at *; omega)

/-- Decoding looks only at the bytes of the rune. -/
theorem decodeRune_append (seg tail : Str) (h2 : 2 ≤ seg.length)
    (h : (decodeRune seg).2 = seg.length) : decodeRune (seg ++ tail) = decodeRune seg := by
  rcases seg with _ | ⟨b, _ | ⟨t, _ | ⟨t2, _ | ⟨t3, _ | ⟨t4, r⟩⟩⟩⟩⟩
  · simp at h2
  · simp at h2
  · simp only [decodeRune, List.cons_append, List.nil_append, List.length_cons,
      List.length_nil] at h ⊢
    split_ifs at h ⊢ <;> first
      | rfl
      | simp at h
  · simp only [decodeRune, List.cons_append, List.nil_append, List.length_cons,
      List.length_nil] at h ⊢
    split_ifs at h ⊢ <;> first
      | rfl
      | simp at h
  · simp only [decodeRune, List.cons_append, List.nil_append, List.length_cons,
      List.length_nil] at h ⊢
  · exfalso
    have := decodeRune_width_le (b :: t :: t2 :: t3 :: t4 :: r)
    have h4 : (decodeRune (b :: t :: t2 :: t3 :: t4 :: r)).2 ≤ 4 := by
      simp only [decodeRune]
      split_ifs <;> simp
    simp only [List.length_cons] at h
    omega

/-- A prefix of a string starts with the same rune, or with no valid rune. -/
theorem decodeRune_take (u : Str) (k : Nat) :
    decodeRune (u.take k) = decodeRune u ∨ (decodeRune (u.take k)).1 = RuneError := by
  rcases k with _ | _ | _ | _ | k
  · right; simp [decodeRune]
  all_goals
    rcases u with _ | ⟨b, _ | ⟨t, _ | ⟨t2, _ | ⟨t3, r⟩⟩⟩⟩
    all_goals
      simp only [List.take_succ_cons, List.take_zero, List.take_nil, decodeRune]
      first
        | (left; trivial)
        | (split_ifs <;> first
            | (left; rfl)
            | (right; rfl))

/-- The three outcomes of decoding the last rune of a non-empty string: an
ASCII byte, an invalid byte, or a rune of two bytes or more that decodes whole. -/
theorem decodeLastRune_cases (b : Nat) (rest : Str) :
    (b < 0x80 ∧ decodeLastRune (b :: rest) = (b, 1)) ∨
    (0x80 ≤ b ∧ decodeLastRune (b :: rest) = (RuneError, 1)) ∨
    (0x80 ≤ b ∧ ∃ cand, 2 ≤ cand ∧ cand ≤ (b :: rest).length ∧
      decodeLastRune (b :: rest) = decodeRune ((b :: rest).take cand).reverse ∧
      (decodeRune ((b :: rest).take cand).reverse).2 = cand) := by
  by_cases hb : b < 0x80
  · left
    exact ⟨hb, by simp [decodeLastRune, hb]⟩
  · right
    have hb2 : 0x80 ≤ b := by omega
    obtain ⟨cand, hcand, hc1, hc2⟩ : ∃ cand, decodeLastRune (b :: rest) =
        (if (decodeRune ((b :: rest).take cand).reverse).2 != cand then (RuneError, 1)
          else decodeRune ((b :: rest).take cand).reverse) ∧ cand ≤ (b :: rest).length ∧
        (cand ≤ 1 → rest = []) := by
      refine ⟨_, by simp only [decodeLastRune, hb, if_false]; rfl, ?_, ?_⟩
      · split_ifs with h1 h2 h3
        · simp only [Bool.and_eq_true, decide_eq_true_eq] at h1; omega
        · simp only [Bool.and_eq_true, decide_eq_true_eq] at h2; omega
        · simp only [Bool.and_eq_true, decide_eq_true_eq] at h3; omega
        · exact Nat.min_le_left _ _
      · split_ifs with h1 h2 h3
        · intro h; omega
        · intro h; omega
        · intro h; omega
        · intro h
          have : (b :: rest).length ≤ 1 := by
            rcases Nat.le_total (b :: rest).length 5 with h5 | h5
            · rwa [Nat.min_eq_left h5] at h
            · rw [Nat.min_eq_right h5] at h; omega
          simp only [List.length_cons] at this
          exact List.length_eq_zero.mp (by omega)
    by_cases hw : (decodeRune ((b :: rest).take cand).reverse).2 = cand
    · by_cases h2 : 2 ≤ cand
      · right
        refine ⟨hb2, cand, h2, hc1, ?_, hw⟩
        rw [hcand]; simp [hw]
      · left
        have hr := hc2 (by omega)
        subst hr
        refine ⟨hb2, ?_⟩
        simp [decodeLastRune, hb, decodeRune, RuneStart]
    · left
      refine ⟨hb2, ?_⟩
      rw [hcand]; simp [hw]

/-- The bytes of the last rune, read forwards with whatever follows them, decode
with the width found backwards, provided what follows starts at a rune boundary;
and a last rune that is a space starts with a byte that is not a continuation
byte. -/
theorem decodeLastRune_step (b : Nat) (rest tail : Str) (ht : startsAtRune tail) :
    ∃ c seg, ((b :: rest).take (decodeLastRune (b :: rest)).2).reverse = c :: seg ∧
      (decodeLastRune (b :: rest)).2 ≤ (b :: rest).length ∧
      (if 0x80 ≤ c then (decodeRune (c :: seg ++ tail)).2 else 1)
        = (decodeLastRune (b :: rest)).2 ∧
      (isSpace (decodeLastRune (b :: rest)).1 = true → inRange 0x80 0xBF c = false) := by
  rcases decodeLastRune_cases b rest with ⟨hb, h⟩ | ⟨hb, h⟩ | ⟨hb, cand, h2, hle, h, hw⟩
  · refine ⟨b, [], by simp [h], by simp [h], ?_, ?_⟩
    · have : ¬ 0x80 ≤ b := by omega
      simp [h, this]
    · intro _
      simp only [inRange, Bool.and_eq_false_iff, decide_eq_false_iff_not]
      omega
  · refine ⟨b, [], by simp [h], by simp [h], ?_, ?_⟩
    · simp only [h, hb, if_true, List.nil_append]
      exact decodeRune_width_one b tail hb ht
    · intro hs
      rw [h] at hs
      exact absurd hs (by decide)
  · have hlen : ((b :: rest).take cand).reverse.length = cand := by
      simp only [List.length_reverse, List.length_take]
      exact Nat.min_eq_left hle
    obtain ⟨c, seg, hseg⟩ : ∃ c seg, ((b :: rest).take cand).reverse = c :: seg := by
      cases hx : ((b :: rest).take cand).reverse with
      | nil => rw [hx] at hlen; simp at hlen; omega
      | cons c seg => exact ⟨c, seg, rfl⟩
    have hw2 : (decodeRune (c :: seg)).2 = cand := by rw [← hseg]; exact hw
    have hlead := decodeRune_lead c seg (by omega)
    have happ := decodeRune_append (c :: seg) tail (by rw [← hseg, hlen]; exact h2)
      (by rw [hw2, ← hseg, hlen])
    refine ⟨c, seg, by rw [h, hw, hseg], by rw [h, hw]; exact hle, ?_, fun _ => hlead.2⟩
    rw [h, hw, if_pos hlead.1]
    have : c :: seg ++ tail = (c :: seg) ++ tail := rfl
    rw [this, happ, hw2]

/-- Where `lastIndexFunc` stops: at the last rune that is not a space, with only
whole runes decoded behind it. -/
theorem lastIndexFunc_some (fuel : Nat) : ∀ (rs tail before : Str), startsAtRune tail →
    lastIndexFunc fuel rs = some before →
    ∃ kept rem, rs.reverse ++ tail = kept.reverse ++ rem ∧ startsAtRune rem ∧ kept ≠ [] ∧
      before = kept.drop (decodeLastRune kept).2 ∧ isSpace (decodeLastRune kept).1 = false := by
  induction fuel with
  | zero => intro rs tail before _ h; simp [lastIndexFunc] at h
  | succ fuel ih =>
    intro rs tail before ht h
    rcases rs with _ | ⟨b, rest⟩
    · simp [lastIndexFunc] at h
    · simp only [lastIndexFunc, List.isEmpty_cons, Bool.false_eq_true, if_false] at h
      by_cases hs : isSpace (decodeLastRune (b :: rest)).1 = true
      · simp only [hs, Bool.not_true, Bool.false_eq_true, if_false] at h
        obtain ⟨c, seg, hseg, hle, _, hlead⟩ := decodeLastRune_step b rest tail ht
        have ht2 : startsAtRune (c :: seg ++ tail) := by
          intro t htm
          simp only [List.cons_append, List.head?_cons, Option.mem_def, Option.some.injEq] at htm
          subst htm
          exact hlead hs
        obtain ⟨kept, rem, he, hr, hk, hb, hsp⟩ := ih _ _ before ht2 h
        refine ⟨kept, rem, ?_, hr, hk, hb, hsp⟩
        rw [← he, ← hseg, ← List.append_assoc, ← List.reverse_append, List.take_append_drop]
      · simp only [Bool.not_eq_true] at hs
        simp only [hs, Bool.not_false, if_true, Option.some.injEq] at h
        exact ⟨b :: rest, tail, rfl, ht, by simp, h.symm, hs⟩

/-- The result of `TrimRightFunc` for the space runes: empty, or a non-empty
prefix of the string whose last rune is not a space. -/
theorem trimRightFunc_spec (s : Str) :
    trimRightFunc s = [] ∨
      ((∃ rem, s = trimRightFunc s ++ rem) ∧ trimRightFunc s ≠ [] ∧
        isSpace (decodeLastRune (trimRightFunc s).reverse).1 = false) := by
  cases hl : lastIndexFunc s.length s.reverse with
  | none => left; simp [trimRightFunc, hl]
  | some before =>
    right
    obtain ⟨kept, rem, he, hr, hk, hb, hsp⟩ :=
      lastIndexFunc_some s.length s.reverse [] before (by intro t h; simp at h) hl
    simp only [List.reverse_reverse, List.append_nil] at he
    rcases kept with _ | ⟨b, rest⟩
    · exact absurd rfl hk
    obtain ⟨c, seg, hseg, hle, hw, _⟩ := decodeLastRune_step b rest rem hr
    have hsplit : (b :: rest).reverse = before.reverse ++ (c :: seg) := by
      rw [hb, ← hseg, ← List.reverse_append, List.take_append_drop]
    have hs : s = before.reverse ++ (c :: seg ++ rem) := by
      rw [he, hsplit, List.append_assoc]
    have hseglen : (c :: seg).length = (decodeLastRune (b :: rest)).2 := by
      rw [← hseg, List.length_reverse, List.length_take]
      exact Nat.min_eq_left hle
    have hget : s.getD before.length 0 = c := by
      rw [hs, List.getD_eq_getElem?_getD, List.getElem?_append_right (by simp)]
      simp
    have hdrop : s.drop before.length = c :: seg ++ rem := by
      rw [hs]
      have : before.length = before.reverse.length := by simp
      rw [this, List.drop_left]
    have hres : trimRightFunc s = (b :: rest).reverse := by
      have htake : s.take (before.length + (decodeLastRune (b :: rest)).2)
          = (b :: rest).reverse := by
        rw [hs, hsplit]
        have h1 : before.length + (decodeLastRune (b :: rest)).2
            = (before.reverse ++ (c :: seg)).length := by
          rw [List.length_append, List.length_reverse, hseglen]
        rw [h1, ← List.append_assoc]
        have : before.reverse ++ c :: seg ++ rem = (before.reverse ++ (c :: seg)) ++ rem := by
          simp
        rw [List.take_left]
      simp only [trimRightFunc, hl, hget, hdrop]
      by_cases hc : 0x80 ≤ c
      · rw [if_pos hc] at hw
        rw [if_pos hc, hw, htake]
      · rw [if_neg hc] at hw
        rw [if_neg hc, hw, htake]
    rw [hres, List.reverse_reverse]
    exact ⟨⟨rem, he⟩, by simp, hsp⟩

/-- The result of `TrimLeftFunc` for the space runes: empty, or starting with a
rune that is not a space. -/
theorem trimLeftFunc_spec (fuel : Nat) : ∀ s : Str,
    trimLeftFunc fuel s = [] ∨ isSpace (decodeRune (trimLeftFunc fuel s)).1 = false := by
  induction fuel with
  | zero => intro s; left; rfl
  | succ fuel ih =>
    intro s
    rw [trimLeftFunc]
    split_ifs with h1 h2
    · left; rfl
    · exact ih _
    · right; simpa using h2

theorem dropWhile_head (p : Nat → Bool) (l : Str) (c : Nat) (r : Str)
    (h : l.dropWhile p = c :: r) : p c = false := by
  induction l with
  | nil => simp at h
  | cons a l ih =>
    rw [List.dropWhile_cons] at h
    split_ifs at h with ha
    · exact ih h
    · simp only [List.cons.injEq] at h
      rw [← h.1]; simpa using ha

theorem ascii_not_space (c : Nat) (hc : c < 0x80)
    (h : (decide (c < 0x80) && asciiSpace c) = false) : isSpace c = false := by
  rw [isSpace_ascii c hc]
  simpa [hc] using h

/-- A non-empty prefix of a string that starts with a rune that is not a space
starts with such a rune. -/
theorem first_of_prefix (t p rem : Str) (hp : t = p ++ rem) (hne : p ≠ [])
    (ht : t = [] ∨ isSpace (decodeRune t).1 = false) : isSpace (decodeRune p).1 = false := by
  subst hp
  rcases ht with ht | ht
  · exact absurd (List.append_eq_nil.mp ht).1 hne
  · have htake : p = (p ++ rem).take p.length := by rw [List.take_left]
    rcases decodeRune_take (p ++ rem) p.length with hd | hd
    · rw [htake, hd]; exact ht
    · rw [htake, hd]; exact isSpace_RuneError

/-- The result of `TrimSpace` is empty, or its first rune and its last rune are
not spaces. -/
theorem TrimSpace_spec (s : Str) :
    TrimSpace s = [] ∨
      (isSpace (decodeRune (TrimSpace s)).1 = false ∧
        isSpace (decodeLastRune (TrimSpace s).reverse).1 = false) := by
  unfold TrimSpace
  cases h1 : s.dropWhile (fun c => decide (c < 0x80) && asciiSpace c) with
  | nil => left; rfl
  | cons c s1 =>
    have hc := dropWhile_head _ s c s1 h1
    simp only
    by_cases hc8 : c ≥ 0x80
    · rw [if_pos hc8]
      rcases trimRightFunc_spec (trimLeftFunc (c :: s1).length (c :: s1)) with h | ⟨⟨rem, hp⟩, hne, hl⟩
      · left; exact h
      · right
        refine ⟨?_, hl⟩
        exact first_of_prefix _ _ rem hp hne (trimLeftFunc_spec _ _)
    · rw [if_neg hc8]
      have hc7 : c < 0x80 := by omega
      have hcs : isSpace c = false := ascii_not_space c hc7 hc
      cases h2 : (c :: s1).reverse.dropWhile (fun c => decide (c < 0x80) && asciiSpace c) with
      | nil => left; rfl
      | cons d r1 =>
        have hd := dropWhile_head _ _ d r1 h2
        simp only
        -- what is kept is a prefix of the string, so it starts with `c`
        obtain ⟨x, hx⟩ : ∃ x, (d :: r1).reverse = c :: x := by
          have hsuf : (d :: r1) <:+ (c :: s1).reverse := by
            rw [← h2]; exact List.dropWhile_suffix _
          have hpre : (d :: r1).reverse <+: c :: s1 := by
            have := List.reverse_prefix.mpr hsuf
            rwa [List.reverse_reverse] at this
          obtain ⟨t, ht⟩ := hpre
          cases hr : (d :: r1).reverse with
          | nil => simp at hr
          | cons a x =>
            rw [hr] at ht
            simp only [List.cons_append, List.cons.injEq] at ht
            exact ⟨x, by rw [ht.1]⟩
        by_cases hd8 : d ≥ 0x80
        · rw [if_pos hd8]
          rcases trimRightFunc_spec (d :: r1).reverse with h | ⟨⟨rem, hp⟩, hne, hl⟩
          · left; exact h
          · right
            refine ⟨?_, hl⟩
            cases hr : trimRightFunc (d :: r1).reverse with
            | nil => exact absurd hr hne
            | cons a y =>
              rw [hr, hx] at hp
              simp only [List.cons_append, List.cons.injEq] at hp
              rw [← hp.1, decodeRune_ascii c y hc7]
              exact hcs
        · rw [if_neg hd8]
          right
          have hd7 : d < 0x80 := by omega
          refine ⟨?_, ?_⟩
          · rw [hx, decodeRune_ascii c x hc7]; exact hcs
          · rw [List.reverse_reverse]
            have : decodeLastRune (d :: r1) = (d, 1) := by simp [decodeLastRune, hd7]
            rw [this]
            exact ascii_not_space d hd7 hd

/-- C10 (amended): for a filter file whose lines are each shorter than 65536
bytes (`ls` the lines that end in a newline, `last` what follows the last
newline), `LoadGitignore` returns, in the order of the lines, exactly the lines
trimmed by `strings.TrimSpace` that are then non-empty and do not begin with
`#`; no returned pattern is empty or begins with `#`, and the first and the last
rune of each are not spaces. -/
theorem LoadGitignore_lines (ls : List Str) (last : Str)
    (hls : ∀ l ∈ ls, 10 ∉ l ∧ l.length < MaxScanTokenSize)
    (hlast : 10 ∉ last ∧ last.length < MaxScanTokenSize) :
    ∃ patterns, LoadGitignore (.content (unlines ls ++ last)) = .ok patterns ∧
      patterns = ((ls ++ (if last.isEmpty then [] else [last])).map
          fun l => TrimSpace (dropCR l)).filter
        (fun p => !p.isEmpty && !(p.head? == some 35)) ∧
      ∀ p ∈ patterns, p ≠ [] ∧ p.head? ≠ some 35 ∧
        isSpace (decodeRune p).1 = false ∧ isSpace (decodeLastRune p.reverse).1 = false := by
  refine ⟨_, ?_, rfl, ?_⟩
  · simp only [LoadGitignore, scanLines_unlines ls last hls hlast, loadLoop_eq, List.map_map]
    rfl
  · intro p hp
    simp only [List.mem_filter, List.mem_map, Bool.and_eq_true, Bool.not_eq_true'] at hp
    obtain ⟨⟨l, _, hl⟩, hne, hhash⟩ := hp
    have hne2 : p ≠ [] := by
      intro h; rw [h] at hne; simp at hne
    refine ⟨hne2, ?_, ?_⟩
    · intro h; rw [h] at hhash; simp at hhash
    · rcases TrimSpace_spec (dropCR l) with h | h
      · rw [hl] at h; exact absurd h hne2
      · rw [hl] at h; exact h

theorem LoadGitignore_lines_witness :
    LoadGitignore (.content (str "*.log\r\n  # logs\n\n\t build/ \n!keep.log")) =
      .ok [str "*.log", str "build/", str "!keep.log"] := by
  obtain ⟨patterns, h, hp, _⟩ := LoadGitignore_lines
    [str "*.log\r", str "  # logs", str "", str "\t build/ "] (str "!keep.log")
    (by decide) (by decide)
  rw [hp] at h
  exact h

/-! ## `IsIgnored` as a disjunction over the patterns -/

theorem matched_iff (a b : Str) : matched a b = true ↔ Match a b = some true := by
  unfold matched
  cases Match a b with
  | none => simp
  | some v => simp

theorem isIgnoredLoop_iff (normalizedPath : Str) (ignorePatterns : List Str) :
    isIgnoredLoop normalizedPath ignorePatterns = true ↔
      ∃ p ∈ ignorePatterns, Match (replaceSlash p) normalizedPath = some true ∨
        Match (replaceSlash p ++ [42]) normalizedPath = some true := by
  induction ignorePatterns with
  | nil => simp [isIgnoredLoop]
  | cons p ps ih =>
    simp only [isIgnoredLoop, List.mem_cons, exists_eq_or_imp, ← ih]
    rw [← matched_iff, ← matched_iff]
    by_cases h1 : matched (replaceSlash p) normalizedPath = true
    · simp [h1]
    · by_cases h2 : matched (replaceSlash p ++ [42]) normalizedPath = true
      · simp [h1, h2]
      · simp [h1, h2]

/-- C15: `IsIgnored` returns true exactly when some listed pattern, with `/`
replaced by the separator, matches the normalized path (the cleaned path, plus a
trailing separator for a directory) either verbatim or with `*` appended; so a
path matched verbatim by a listed pattern is ignored, the empty list ignores
nothing, and two lists with the same members give the same result. -/
theorem IsIgnored_iff (path : Str) (isDir : Bool) (ignorePatterns : List Str) :
    (IsIgnored path isDir ignorePatterns = true ↔
      ∃ p ∈ ignorePatterns,
        Match (replaceSlash p) (if isDir then Clean path ++ [Separator] else Clean path)
            = some true ∨
          Match (replaceSlash p ++ [42])
            (if isDir then Clean path ++ [Separator] else Clean path) = some true) ∧
      (∀ p ∈ ignorePatterns,
        Match (replaceSlash p) (if isDir then Clean path ++ [Separator] else Clean path)
            = some true → IsIgnored path isDir ignorePatterns = true) ∧
      IsIgnored path isDir [] = false ∧
      ∀ other : List Str, (∀ p, p ∈ other ↔ p ∈ ignorePatterns) →
        IsIgnored path isDir other = IsIgnored path isDir ignorePatterns := by
  have key : ∀ l : List Str, IsIgnored path isDir l = true ↔
      ∃ p ∈ l,
        Match (replaceSlash p) (if isDir then Clean path ++ [Separator] else Clean path)
            = some true ∨
          Match (replaceSlash p ++ [42])
            (if isDir then Clean path ++ [Separator] else Clean path) = some true := by
    intro l
    unfold IsIgnored
    exact isIgnoredLoop_iff _ l
  refine ⟨key _, ?_, rfl, ?_⟩
  · intro p hp hm
    exact (key _).mpr ⟨p, hp, Or.inl hm⟩
  · intro other hmem
    rw [Bool.eq_iff_iff, key, key]
    constructor
    · rintro ⟨p, hp, h⟩
      exact ⟨p, (hmem p).mp hp, h⟩
    · rintro ⟨p, hp, h⟩
      exact ⟨p, (hmem p).mpr hp, h⟩

/-- C16: a non-empty pattern `P` of literal characters ignores every file path
`P ++ s` where `s` has no separator; the attempt with `*` appended matches, and
for a non-empty `s` the verbatim attempt does not. -/
theorem suffix_wildcard (P s : Str) (hne : P ≠ []) (hP : IsBareName P)
    (hs : ∀ b ∈ s, b ≠ Separator) :
    IsIgnored (P ++ s) false [P] = true ∧
      Match (replaceSlash P ++ [42]) (Clean (P ++ s)) = some true ∧
      (s ≠ [] → Match (replaceSlash P) (Clean (P ++ s)) = some false) := by
  have hlit : ∀ b ∈ P, IsLiteral b := fun b hb => (hP b hb).1
  have hclean : Clean (P ++ s) = P ++ s := by
    apply Clean_bare
    · intro h
      exact hne (List.append_eq_nil.mp h).1
    · intro b hb
      rcases List.mem_append.mp hb with h | h
      · exact (hP b h).2
      · exact hs b h
  have hstar : Match (P ++ [42]) (P ++ s) = some true := by
    rw [Match_lit_star_append P s hlit hne]
    have : s.contains Separator = false := by
      cases hc : s.contains Separator with
      | false => rfl
      | true =>
        have hmem : Separator ∈ s := by simpa using hc
        exact absurd rfl (hs _ hmem)
    rw [this]; rfl
  refine ⟨?_, ?_, ?_⟩
  · rw [IsIgnored_singleton]
    simp only [Bool.false_eq_true, if_false, hclean, matched, hstar, Option.getD_some,
      Bool.or_true]
  · rw [replaceSlash_id, hclean]; exact hstar
  · intro hs2
    rw [replaceSlash_id, hclean, Match_lit_append P s hlit hne]
    cases s with
    | nil => exact absurd rfl hs2
    | cons c s => rfl

theorem suffix_wildcard_witness :
    IsIgnored (str "notes.txt") false [str "notes"] = true ∧
      Match (replaceSlash (str "notes") ++ [42]) (Clean (str "notes.txt")) = some true ∧
      (str ".txt" ≠ [] → Match (replaceSlash (str "notes")) (Clean (str "notes.txt"))
        = some false) :=
  suffix_wildcard (str "notes") (str ".txt") (by decide) (by decide) (by decide)

/-! ## `LoadConfigFromFlags` -/

theorem Index_some : ∀ (s substr : Str) (j : Nat), Index s substr = some j →
    ∃ pre post, s = pre ++ substr ++ post ∧ pre.length = j ∧
      ∀ pre2 post2 : Str, s = pre2 ++ substr ++ post2 → j ≤ pre2.length := by
  intro s
  induction s with
  | nil =>
    intro substr j h
    simp only [Index] at h
    split_ifs at h with he
    simp only [Option.some.injEq] at h
    subst h
    have : substr = [] := by simpa using he
    subst this
    exact ⟨[], [], rfl, rfl, fun _ _ _ => Nat.zero_le _⟩
  | cons c t ih =>
    intro substr j h
    simp only [Index] at h
    split_ifs at h with hp
    · simp only [Option.some.injEq] at h
      subst h
      obtain ⟨post, hpost⟩ := List.isPrefixOf_iff_prefix.mp hp
      exact ⟨[], post, by simp [hpost], rfl, fun _ _ _ => Nat.zero_le _⟩
    · cases hi : Index t substr with
      | none => rw [hi] at h; simp at h
      | some k =>
        rw [hi] at h
        simp only [Option.map_some', Option.some.injEq] at h
        subst h
        obtain ⟨pre, post, hpost, hlen, hmin⟩ := ih substr k hi
        refine ⟨c :: pre, post, by simp [hpost], by simp [hlen], ?_⟩
        intro pre2 post2 he
        cases pre2 with
        | nil =>
          exfalso
          apply hp
          exact List.isPrefixOf_iff_prefix.mpr ⟨post2, by simpa using he.symm⟩
        | cons d pre2 =>
          simp only [List.cons_append, List.cons.injEq] at he
          have := hmin pre2 post2 (by simpa using he.2)
          simp only [List.length_cons]
          omega

theorem Index_none : ∀ (s substr : Str), Index s substr = none →
    ∀ pre post : Str, s ≠ pre ++ substr ++ post := by
  intro s
  induction s with
  | nil =>
    intro substr h pre post he
    simp only [Index] at h
    split_ifs at h with hs
    have h2 := List.append_eq_nil.mp he.symm
    have h3 := (List.append_eq_nil.mp h2.1).2
    exact hs (by simp [h3])
  | cons c t ih =>
    intro substr h pre post he
    simp only [Index] at h
    split_ifs at h with hp
    cases hi : Index t substr with
    | some k => rw [hi] at h; simp at h
    | none =>
      cases pre with
      | nil =>
        apply hp
        exact List.isPrefixOf_iff_prefix.mpr ⟨post, by simpa using he.symm⟩
      | cons d pre =>
        simp only [List.cons_append, List.cons.injEq] at he
        exact ih substr hi pre post (by simpa using he.2)

theorem LoadConfigFromFlags_ok (configFile : ConfigFile)
    (configFlag directoryFlag outputFlag prepromptFlag requestFlag : Str)
    (tokenLimitFlag : Int) (skipFlags : List Str) (cfg : Config)
    (h : LoadConfigFromFlags configFile configFlag directoryFlag outputFlag prepromptFlag
      requestFlag tokenLimitFlag skipFlags = .ok cfg) :
    ∃ base, loadSettings configFile configFlag directoryFlag outputFlag prepromptFlag
      requestFlag tokenLimitFlag skipFlags = .ok base ∧ cfg = applyRequest base := by
  unfold LoadConfigFromFlags at h
  split at h
  · cases h
  · rename_i config hc
    simp only [Except.ok.injEq] at h
    exact ⟨config, hc, h.symm⟩

/-- C17: in a successful call of `LoadConfigFromFlags`, let `base` be the
settings before the request is handled (read from the config file, or taken from
the flags and defaulted).  With a non-empty request: if the preprompt of `base`
contains `<request>`, the returned preprompt is that preprompt with the first
instance of `<request>` replaced by the request; if not, it is that preprompt
followed by `\n\nRequest:\n\n` and the request.  With an empty request the
preprompt is returned unchanged. -/
theorem LoadConfigFromFlags_request (configFile : ConfigFile)
    (configFlag directoryFlag outputFlag prepromptFlag requestFlag : Str)
    (tokenLimitFlag : Int) (skipFlags : List Str) (cfg : Config)
    (h : LoadConfigFromFlags configFile configFlag directoryFlag outputFlag prepromptFlag
      requestFlag tokenLimitFlag skipFlags = .ok cfg) :
    ∃ base, loadSettings configFile configFlag directoryFlag outputFlag prepromptFlag
        requestFlag tokenLimitFlag skipFlags = .ok base ∧
      cfg.Request = base.Request ∧
      (base.Request = [] → cfg.Preprompt = base.Preprompt) ∧
      (base.Request ≠ [] →
        ((∃ pre post, base.Preprompt = pre ++ str "<request>" ++ post) →
          ∃ pre post, base.Preprompt = pre ++ str "<request>" ++ post ∧
            (∀ pre2 post2, base.Preprompt = pre2 ++ str "<request>" ++ post2 →
              pre.length ≤ pre2.length) ∧
            cfg.Preprompt = pre ++ base.Request ++ post) ∧
        ((¬ ∃ pre post, base.Preprompt = pre ++ str "<request>" ++ post) →
          cfg.Preprompt = base.Preprompt ++ (str "\n\nRequest:\n\n" ++ base.Request))) := by
  obtain ⟨base, hb, hc⟩ := LoadConfigFromFlags_ok _ _ _ _ _ _ _ _ _ h
  refine ⟨base, hb, ?_, ?_, ?_⟩
  · rw [hc]; unfold applyRequest; split_ifs <;> rfl
  · intro hr
    rw [hc]; unfold applyRequest
    simp [hr]
  · intro hr
    have hr2 : (base.Request != []) = true := by simpa using hr
    cases hi : Index base.Preprompt (str "<request>") with
    | none =>
      have hcont : Contains base.Preprompt (str "<request>") = false := by
        simp [Contains, hi]
      refine ⟨fun ⟨pre, post, he⟩ => absurd he (Index_none _ _ hi pre post), fun _ => ?_⟩
      rw [hc]; unfold applyRequest
      simp only [hr2, if_true, hcont, Bool.false_eq_true, if_false]
    | some j =>
      have hcont : Contains base.Preprompt (str "<request>") = true := by
        simp [Contains, hi]
      obtain ⟨pre, post, hpost, hlen, hmin⟩ := Index_some _ _ _ hi
      have htake : base.Preprompt.take j = pre := by
        rw [hpost, List.append_assoc, ← hlen, List.take_left]
      have hdrop : base.Preprompt.drop (j + (str "<request>").length) = post := by
        rw [hpost, ← hlen, ← List.length_append, List.drop_left]
      refine ⟨fun _ => ⟨pre, post, hpost, ?_, ?_⟩, fun hno => ?_⟩
      · intro pre2 post2 he
        rw [hlen]
        exact hmin pre2 post2 he
      · rw [hc]; unfold applyRequest
        simp only [hr2, if_true, hcont]
        unfold Replace
        by_cases heq : str "<request>" = base.Request
        · have hb2 : (str "<request>" == base.Request) = true := by simpa using heq
          simp only [hb2, if_true]
          rw [← heq]; exact hpost
        · have hb2 : (str "<request>" == base.Request) = false := by simpa using heq
          simp only [hb2, Bool.false_eq_true, if_false, hi, hdrop, htake]
      · exact absurd ⟨pre, post, hpost⟩ hno

theorem LoadConfigFromFlags_request_witness :
    ∃ base, loadSettings (.unreadable []) [] (str "dir") (str "output.txt") (str "preprompt")
        (str "request") 1000 [str "omit"] = .ok base ∧
      testFlagsConfig.Request = base.Request ∧
      (base.Request = [] → testFlagsConfig.Preprompt = base.Preprompt) ∧
      (base.Request ≠ [] →
        ((∃ pre post, base.Preprompt = pre ++ str "<request>" ++ post) →
          ∃ pre post, base.Preprompt = pre ++ str "<request>" ++ post ∧
            (∀ pre2 post2, base.Preprompt = pre2 ++ str "<request>" ++ post2 →
              pre.length ≤ pre2.length) ∧
            testFlagsConfig.Preprompt = pre ++ base.Request ++ post) ∧
        ((¬ ∃ pre post, base.Preprompt = pre ++ str "<request>" ++ post) →
          testFlagsConfig.Preprompt =
            base.Preprompt ++ (str "\n\nRequest:\n\n" ++ base.Request))) :=
  LoadConfigFromFlags_request (.unreadable []) [] (str "dir") (str "output.txt")
    (str "preprompt") (str "request") 1000 [str "omit"] testFlagsConfig rfl

theorem applyRequest_Output (config : Config) : (applyRequest config).Output = config.Output := by
  unfold applyRequest
  split_ifs <;> rfl

theorem applyRequest_Directory (config : Config) :
    (applyRequest config).Directory = config.Directory := by
  unfold applyRequest
  split_ifs <;> rfl

theorem applyRequest_TokenLimit (config : Config) :
    (applyRequest config).TokenLimit = config.TokenLimit := by
  unfold applyRequest
  split_ifs <;> rfl

theorem applyRequest_Preprompt (config : Config) (h : config.Request = []) :
    (applyRequest config).Preprompt = config.Preprompt := by
  unfold applyRequest
  simp [h]

theorem loadSettings_flags (configFile : ConfigFile)
    (directoryFlag outputFlag prepromptFlag requestFlag : Str)
    (tokenLimitFlag : Int) (skipFlags : List Str) (base : Config)
    (h : loadSettings configFile [] directoryFlag outputFlag prepromptFlag requestFlag
      tokenLimitFlag skipFlags = .ok base) :
    outputFlag ≠ [] ∧
      base = { Directory := if directoryFlag = [] then str "." else directoryFlag,
               TokenLimit := if tokenLimitFlag = 0 then DefaultTokenLimit else tokenLimitFlag,
               Output := outputFlag, Omit := skipFlags,
               Preprompt := if prepromptFlag = [] then DefaultPreprompt else prepromptFlag,
               Request := requestFlag } := by
  by_cases ho : outputFlag = []
  · subst ho
    simp [loadSettings] at h
  · refine ⟨ho, ?_⟩
    have ho2 : (outputFlag == []) = false := by simpa using ho
    simp only [loadSettings, bne_self_eq_false, Bool.false_eq_true, if_false, ho2,
      Except.ok.injEq, beq_iff_eq] at h
    rw [← h]
    by_cases h1 : directoryFlag = [] <;> by_cases h2 : tokenLimitFlag = 0 <;>
      by_cases h3 : prepromptFlag = [] <;> simp [h1, h2, h3]

theorem loadSettings_file (configFile : ConfigFile)
    (configFlag directoryFlag outputFlag prepromptFlag requestFlag : Str)
    (tokenLimitFlag : Int) (skipFlags : List Str) (base : Config) (hf : configFlag ≠ [])
    (h : loadSettings configFile configFlag directoryFlag outputFlag prepromptFlag requestFlag
      tokenLimitFlag skipFlags = .ok base) :
    configFile = .parsed base ∧ base.Output ≠ [] := by
  unfold loadSettings at h
  have hf2 : (configFlag != []) = true := by simpa using hf
  simp only [hf2, if_true] at h
  split at h
  · cases h
  · cases h
  · split_ifs at h with ho
    simp only [Except.ok.injEq] at h
    subst h
    exact ⟨rfl, by simpa using ho⟩

/-- C18: a missing output path is an error.  With no config file and an empty
output flag `LoadConfigFromFlags` returns the error `output path is required;
use -o or --output to specify`; with a config file that sets no output it
returns the error `output path is required in the config file`; so a `Config`
that it returns has a non-empty `Output`. -/
theorem LoadConfigFromFlags_output (configFile : ConfigFile)
    (configFlag directoryFlag outputFlag prepromptFlag requestFlag : Str)
    (tokenLimitFlag : Int) (skipFlags : List Str) :
    (configFlag = [] → outputFlag = [] →
      LoadConfigFromFlags configFile configFlag directoryFlag outputFlag prepromptFlag
        requestFlag tokenLimitFlag skipFlags
        = .error (str "output path is required; use -o or --output to specify")) ∧
      (configFlag ≠ [] → ∀ c, configFile = .parsed c → c.Output = [] →
        LoadConfigFromFlags configFile configFlag directoryFlag outputFlag prepromptFlag
          requestFlag tokenLimitFlag skipFlags
          = .error (str "output path is required in the config file")) ∧
      ∀ cfg, LoadConfigFromFlags configFile configFlag directoryFlag outputFlag prepromptFlag
          requestFlag tokenLimitFlag skipFlags = .ok cfg → cfg.Output ≠ [] := by
  refine ⟨?_, ?_, ?_⟩
  · intro hc ho
    subst hc; subst ho
    rfl
  · intro hc c hp ho
    have hc2 : (configFlag != []) = true := by simpa using hc
    subst hp
    simp [LoadConfigFromFlags, loadSettings, hc2, ho]
  · intro cfg h
    obtain ⟨base, hb, hcfg⟩ := LoadConfigFromFlags_ok _ _ _ _ _ _ _ _ _ h
    rw [hcfg, applyRequest_Output]
    by_cases hc : configFlag = []
    · subst hc
      obtain ⟨ho, hbase⟩ := loadSettings_flags _ _ _ _ _ _ _ _ hb
      rw [hbase]; exact ho
    · exact (loadSettings_file _ _ _ _ _ _ _ _ _ hc hb).2

/-- C19: the branch of `LoadConfigFromFlags` that reads a config file has no
counterpart of the three defaulting statements of the branch that reads the
flags.  From a config file that sets the output path only, `LoadConfigFromFlags`
succeeds and returns an empty `Directory`, an empty `Preprompt` and a zero
`TokenLimit`; from the flags, with the same settings left unset, it returns `.`,
`DefaultPreprompt` and `DefaultTokenLimit`. -/
theorem config_file_gets_no_defaults :
    LoadConfigFromFlags (.parsed outputOnlyConfig) (str "config.yaml") [] [] [] [] 0 []
        = .ok outputOnlyConfig ∧
      outputOnlyConfig.Directory = [] ∧ outputOnlyConfig.Request = [] ∧
      outputOnlyConfig.Preprompt = [] ∧ outputOnlyConfig.TokenLimit = 0 ∧
      LoadConfigFromFlags (.unreadable []) [] [] (str "out.txt") [] [] 0 []
        = .ok outputOnlyConfigDefaulted ∧
      outputOnlyConfigDefaulted.Directory = str "." ∧
      outputOnlyConfigDefaulted.Preprompt = DefaultPreprompt ∧
      outputOnlyConfigDefaulted.TokenLimit = 128000 :=
  ⟨rfl, rfl, rfl, rfl, rfl, rfl, rfl, rfl, rfl⟩

/-- The branch of `LoadConfigFromFlags` that takes the settings from the flags
applies the three defaults: an empty directory flag gives `.`, a zero token limit
flag gives `DefaultTokenLimit` and, no request being given, an empty preprompt
flag gives `DefaultPreprompt`. -/
theorem LoadConfigFromFlags_defaults (configFile : ConfigFile)
    (directoryFlag outputFlag prepromptFlag requestFlag : Str)
    (tokenLimitFlag : Int) (skipFlags : List Str) (cfg : Config)
    (h : LoadConfigFromFlags configFile [] directoryFlag outputFlag prepromptFlag
      requestFlag tokenLimitFlag skipFlags = .ok cfg) :
    cfg.Directory = (if directoryFlag = [] then str "." else directoryFlag) ∧
      cfg.TokenLimit = (if tokenLimitFlag = 0 then DefaultTokenLimit else tokenLimitFlag) ∧
      (requestFlag = [] →
        cfg.Preprompt = (if prepromptFlag = [] then DefaultPreprompt else prepromptFlag)) ∧
      cfg.Directory ≠ [] ∧ cfg.TokenLimit ≠ 0 ∧ (requestFlag = [] → cfg.Preprompt ≠ []) := by
  obtain ⟨base, hb, hcfg⟩ := LoadConfigFromFlags_ok _ _ _ _ _ _ _ _ _ h
  obtain ⟨-, hbase⟩ := loadSettings_flags _ _ _ _ _ _ _ _ hb
  have hdir : cfg.Directory = (if directoryFlag = [] then str "." else directoryFlag) := by
    rw [hcfg, applyRequest_Directory, hbase]
  have htok : cfg.TokenLimit
      = (if tokenLimitFlag = 0 then DefaultTokenLimit else tokenLimitFlag) := by
    rw [hcfg, applyRequest_TokenLimit, hbase]
  have hpre : requestFlag = [] →
      cfg.Preprompt = (if prepromptFlag = [] then DefaultPreprompt else prepromptFlag) := by
    intro hr
    rw [hcfg, applyRequest_Preprompt _ (by rw [hbase]; exact hr), hbase]
  refine ⟨hdir, htok, hpre, ?_, ?_, ?_⟩
  · rw [hdir]
    split_ifs with hd
    · decide
    · exact hd
  · rw [htok]
    split_ifs with ht
    · decide
    · exact ht
  · intro hr
    rw [hpre hr]
    split_ifs with hp
    · decide
    · exact hp

/-! ## Patterns without a separator match within one path segment -/

/-- The bytes of the first rune of a string that does not start with the
separator are not the separator. -/
theorem decodeRune_noSep (b : Nat) (rest : Str) (hb : b ≠ 47) :
    47 ∉ (b :: rest).take (decodeRune (b :: rest)).2 := by
  rcases rest with _ | ⟨t, _ | ⟨t2, _ | ⟨t3, r⟩⟩⟩
  all_goals
    simp only [decodeRune]
    split_ifs
    all_goals
      simp only [List.take_succ_cons, List.take_zero, List.take_nil, List.mem_cons,
        List.mem_nil_iff, or_false, not_or, Bool.and_eq_true, inRange,
        decide_eq_true_eq] at *
      omega

theorem matchChunkLoop_noSep : ∀ (fuel : Nat) (chunk s : Str) (failed : Bool) (t : Str),
    IsSegmentPattern chunk → matchChunkLoop fuel chunk s failed = .rest t →
      ∃ consumed, s = consumed ++ t ∧ 47 ∉ consumed := by
  intro fuel
  induction fuel with
  | zero =>
    intro chunk s failed t _ h
    cases chunk with
    | nil =>
      rw [matchChunkLoop_nil] at h
      split_ifs at h
      simp only [ChunkResult.rest.injEq] at h
      exact ⟨[], by simp [h], by simp⟩
    | cons c chunk => simp [matchChunkLoop] at h
  | succ fuel ih =>
    intro chunk s failed t hseg h
    cases chunk with
    | nil =>
      rw [matchChunkLoop_nil] at h
      split_ifs at h
      simp only [ChunkResult.rest.injEq] at h
      exact ⟨[], by simp [h], by simp⟩
    | cons c chunk =>
      have hc := hseg c (List.mem_cons_self _ _)
      have hseg2 : IsSegmentPattern chunk := fun b hb => hseg b (List.mem_cons_of_mem _ hb)
      have h91 : (c == 91) = false := by simpa using hc.2.1
      have h92 : (c == 92) = false := by simpa using hc.2.2
      rw [matchChunkLoop_succ] at h
      simp only [h91, Bool.false_eq_true, if_false] at h
      by_cases h63 : c = 63
      · subst h63
        simp only [beq_self_eq_true, if_true] at h
        split at h
        · exact absurd (matchChunkLoop_rest _ _ _ _ _ h).1 (by simp)
        · rename_i hf
          simp only [Bool.not_eq_true, Bool.or_eq_false_iff] at hf
          have hhead := (matchChunkLoop_rest _ _ _ _ _ h).1
          obtain ⟨consumed, hcons, hno⟩ := ih _ _ _ _ hseg2 h
          cases s with
          | nil => simp at hf
          | cons b rest =>
            have hb : b ≠ 47 := by
              intro hb; subst hb
              simp [Separator] at hhead
            refine ⟨(b :: rest).take (decodeRune (b :: rest)).2 ++ consumed, ?_, ?_⟩
            · rw [List.append_assoc, ← hcons, List.take_append_drop]
            · intro hmem
              rcases List.mem_append.mp hmem with hm | hm
              · exact decodeRune_noSep b rest hb hm
              · exact hno hm
      · have h63b : (c == 63) = false := by simpa using h63
        simp only [h63b, h92, Bool.false_eq_true, if_false] at h
        split at h
        · exact absurd (matchChunkLoop_rest _ _ _ _ _ h).1 (by simp)
        · have hhead := (matchChunkLoop_rest _ _ _ _ _ h).1
          have hhead2 : s.head? = some c := by simpa using hhead
          obtain ⟨consumed, hcons, hno⟩ := ih _ _ _ _ hseg2 h
          cases s with
          | nil => simp at hhead2
          | cons b rest =>
            simp only [List.head?_cons, Option.some.injEq] at hhead2
            subst hhead2
            simp only [List.tail_cons] at hcons
            refine ⟨b :: consumed, by simp [hcons], ?_⟩
            simp only [List.mem_cons, not_or]
            exact ⟨fun h => hc.1 (by rw [← h]; rfl), hno⟩

theorem starLoop_noSep (chunk : Str) (last : Bool) : ∀ (name t : Str),
    starLoop chunk last name = .rest t →
      ∃ skipped x, name = skipped ++ x ∧ 47 ∉ skipped ∧ matchChunk chunk x = .rest t := by
  intro name
  induction name with
  | nil => intro t h; simp [starLoop] at h
  | cons c name ih =>
    intro t h
    simp only [starLoop] at h
    split at h
    · cases h
    · rename_i hc
      have hc2 : c ≠ 47 := by simpa [Separator] using hc
      have step : ∀ skipped x, name = skipped ++ x → 47 ∉ skipped →
          matchChunk chunk x = .rest t →
          ∃ skipped x, c :: name = skipped ++ x ∧ 47 ∉ skipped ∧
            matchChunk chunk x = .rest t := by
        intro skipped x hx hno hm
        refine ⟨c :: skipped, x, by simp [hx], ?_, hm⟩
        simp only [List.mem_cons, not_or]
        exact ⟨fun h => hc2 h.symm, hno⟩
      split at h
      · rename_i t2 hm
        split at h
        · obtain ⟨skipped, x, hx, hno, hmx⟩ := ih t h
          exact step skipped x hx hno hmx
        · simp only [ChunkResult.rest.injEq] at h
          subst h
          exact step [] name rfl (by simp) hm
      · obtain ⟨skipped, x, hx, hno, hmx⟩ := ih t h
        exact step skipped x hx hno hmx
      · cases h

theorem matchLoop_noSep : ∀ (fuel : Nat) (pattern name : Str), IsSegmentPattern pattern →
    matchLoop fuel pattern name = some true → 47 ∉ name := by
  intro fuel
  induction fuel with
  | zero =>
    intro pattern name _ h
    cases pattern with
    | nil =>
      simp only [matchLoop, Option.some.injEq, List.isEmpty_iff] at h
      simp [h]
    | cons c p => simp [matchLoop] at h
  | succ fuel ih =>
    intro pattern name hseg h
    cases pattern with
    | nil =>
      simp only [matchLoop, Option.some.injEq, List.isEmpty_iff] at h
      simp [h]
    | cons c p =>
      obtain ⟨stars, -, hp, -, -⟩ := scanChunk_spec (c :: p)
      rcases hsc : scanChunk (c :: p) with ⟨star, chunk, rest⟩
      rw [matchLoop_step _ _ _ _ _ _ _ hsc] at h
      simp only [hsc] at hp
      have hchunk : IsSegmentPattern chunk := by
        intro b hb
        exact hseg b (by rw [hp]; simp [hb])
      have hrest : IsSegmentPattern rest := by
        intro b hb
        exact hseg b (by rw [hp]; simp [hb])
      have key : ∀ skipped x t, name = skipped ++ x → 47 ∉ skipped →
          matchChunk chunk x = .rest t → matchLoop fuel rest t = some true → 47 ∉ name := by
        intro skipped x t hx hno hm hl
        obtain ⟨consumed, hcons, hno2⟩ := matchChunkLoop_noSep _ _ _ _ _ hchunk hm
        have hno3 := ih _ _ hrest hl
        rw [hx, hcons]
        simp only [List.mem_append, not_or]
        exact ⟨hno, hno2, hno3⟩
      by_cases hcond : (star && chunk.isEmpty) = true
      · simp only [hcond, if_true, Option.some.injEq, Bool.not_eq_true',
          List.contains_eq_any_beq, List.any_eq_false, beq_iff_eq] at h
        intro hmem
        exact h 47 hmem rfl
      · simp only [hcond, Bool.false_eq_true, if_false] at h
        have hretry : (match (if star = true then starLoop chunk rest.isEmpty name
              else ChunkResult.fail) with
            | ChunkResult.rest t => matchLoop fuel rest t
            | ChunkResult.fail => some false
            | ChunkResult.bad => none) = some true → 47 ∉ name := by
          intro h
          split at h
          · rename_i t hst
            split at hst
            · obtain ⟨skipped, x, hx, hno, hmx⟩ := starLoop_noSep _ _ _ _ hst
              exact key skipped x t hx hno hmx h
            · cases hst
          · cases h
          · cases h
        split at h
        · rename_i t hm
          split at h
          · exact key [] name t rfl (by simp) hm h
          · exact hretry h
        · exact hretry h
        · cases h

/-- C20: a pattern built only from `*`, `?` and literal bytes other than the
separator (no separator, no `[`, no `\`) does not ignore a file path whose
cleaned form contains a separator. -/
theorem no_recursive_matching (pattern path : Str) (hp : IsSegmentPattern pattern)
    (hsep : Separator ∈ Clean path) : IsIgnored path false [pattern] = false := by
  have hstar : IsSegmentPattern (pattern ++ [42]) := by
    intro b hb
    rcases List.mem_append.mp hb with h | h
    · exact hp b h
    · simp only [List.mem_singleton] at h
      subst h
      decide
  have hno : ∀ p, IsSegmentPattern p → matched p (Clean path) = false := by
    intro p hseg
    cases hm : matched p (Clean path) with
    | false => rfl
    | true =>
      exact absurd hsep (matchLoop_noSep _ _ _ hseg ((matched_iff _ _).mp hm))
  rw [IsIgnored_singleton]
  simp only [Bool.false_eq_true, if_false, hno pattern hp, hno _ hstar, Bool.or_self]

theorem no_recursive_matching_witness :
    IsIgnored (str "sub/file.log") false [str "*.log"] = false :=
  no_recursive_matching (str "*.log") (str "sub/file.log") (by decide) (by decide)

/-! ## A run without `.gitignore`, and write errors -/

theorem ProcessDirectory_from (root : Option Node) (config : Config) (writer : Writer) :
    ProcessDirectory root config writer =
      match LoadGitignore (gitignoreState root) with
      | .error _ => { result := .error .loadingGitignore, written := [] }
      | .ok loaded => ProcessDirectoryFrom (loaded ++ config.Omit) root config writer := by
  unfold ProcessDirectory ProcessDirectoryFrom
  cases LoadGitignore (gitignoreState root) <;> rfl

/-- C11: `LoadGitignore` at a path where no file exists returns no pattern and
no error; when the file cannot be opened for another reason it returns an error.
So for a directory with no entry named `.gitignore`, `ProcessDirectory` runs the
rest of its body with exactly the patterns `config.Omit`. -/
theorem LoadGitignore_missing (files : List (Str × Node)) (config : Config) (writer : Writer) :
    LoadGitignore .notExist = .ok [] ∧ LoadGitignore .openError = .error .opening ∧
      (lookupEntry (str ".gitignore") files = none →
        gitignoreState (some (.dir files)) = .notExist ∧
        runPatterns (some (.dir files)) config = config.Omit ∧
        ProcessDirectory (some (.dir files)) config writer =
          ProcessDirectoryFrom config.Omit (some (.dir files)) config writer) := by
  refine ⟨rfl, rfl, fun h => ?_⟩
  have hs : gitignoreState (some (.dir files)) = .notExist := by
    simp only [gitignoreState, Option.some_bind, Node.stat, h, Option.none_bind]
  refine ⟨hs, ?_, ?_⟩
  · simp only [runPatterns, hs, LoadGitignore, List.nil_append]
  · rw [ProcessDirectory_from, hs]
    simp only [LoadGitignore, List.nil_append]

theorem filesLoop_writeAll (writer : Writer) (root : Node) (allFiles : List Str) :
    ∀ cw : countingWriter, filesLoop writer root cw allFiles =
      writeAll writer cw ((fileBlocks root allFiles).map blockWrites).flatten := by
  induction allFiles with
  | nil => intro cw; rfl
  | cons rel rest ih =>
    intro cw
    simp only [filesLoop]
    cases hr : readRel root rel with
    | none =>
      have hb : IsBinaryFile none = false := rfl
      simp only [hb, Bool.false_eq_true, if_false, fileBlocks, hr]
      exact ih cw
    | some content =>
      cases hb : IsBinaryFile (some content) with
      | true =>
        simp only [if_true, fileBlocks, hr, hb]
        exact ih cw
      | false =>
        simp only [Bool.false_eq_true, if_false, fileBlocks, hr, hb, List.map_cons,
          List.flatten_cons, blockWrites, List.cons_append, List.nil_append, writeAll]
        split_ifs <;> first
          | rfl
          | exact ih _

theorem ProcessDirectoryFrom_writeAll (ignorePatterns : List Str) (node : Node)
    (config : Config) (writer : Writer) :
    (ProcessDirectoryFrom ignorePatterns (some node) config writer).written =
        (writeAll writer { log := [], count := 0 }
          (runWrites config
            (joinLines (GenerateTree (Base config.Directory) (str ".") node ignorePatterns [])
              ++ str "\n\n")
            (fileBlocks node (walkFrom (str ".") node ignorePatterns)))).1.log ∧
      (ProcessDirectoryFrom ignorePatterns (some node) config writer).result =
        match (writeAll writer { log := [], count := 0 }
          (runWrites config
            (joinLines (GenerateTree (Base config.Directory) (str ".") node ignorePatterns [])
              ++ str "\n\n")
            (fileBlocks node (walkFrom (str ".") node ignorePatterns)))).2 with
        | some e => .error e
        | none => .ok (writeAll writer { log := [], count := 0 }
          (runWrites config
            (joinLines (GenerateTree (Base config.Directory) (str ".") node ignorePatterns [])
              ++ str "\n\n")
            (fileBlocks node (walkFrom (str ".") node ignorePatterns)))).1.count := by
  simp only [ProcessDirectoryFrom, Walk, runWrites, List.cons_append, List.nil_append, writeAll,
    filesLoop_writeAll]
  split_ifs <;> first
    | exact ⟨rfl, rfl⟩
    | (constructor <;> split <;> simp_all)

/-- The writes of `writeAll`, as far as they go: a write that returns an error
is the last one, and its error is the result. -/
theorem writeAll_spec (writer : Writer) : ∀ (ws : List (Str × RunError)) (cw : countingWriter),
    ∃ m, m ≤ ws.length ∧
      (writeAll writer cw ws).1.log = cw.log ++ (ws.map (·.1)).take m ∧
      ∀ j, j < m →
        (writer (cw.log ++ (ws.map (·.1)).take j) ((ws.map (·.1)).getD j [])).2 = true →
        j + 1 = m ∧ ∃ e, (writeAll writer cw ws).2 = some e ∧ (ws.map (·.2))[j]? = some e := by
  intro ws
  induction ws with
  | nil =>
    intro cw
    exact ⟨0, Nat.le_refl _, by simp [writeAll], fun j hj => absurd hj (Nat.not_lt_zero _)⟩
  | cons w rest ih =>
    intro cw
    simp only [writeAll]
    cases hf : (cw.Write writer w.1).2 with
    | true =>
      simp only [if_true]
      refine ⟨1, by simp, by simp [countingWriter.Write], ?_⟩
      intro j hj _
      have hj0 : j = 0 := by omega
      subst hj0
      exact ⟨rfl, w.2, rfl, by simp⟩
    | false =>
      simp only [Bool.false_eq_true, if_false]
      obtain ⟨m, hm, hlog, hfail⟩ := ih (cw.Write writer w.1).1
      refine ⟨m + 1, by simp [hm], ?_, ?_⟩
      · rw [hlog]
        simp [countingWriter.Write]
      · intro j hj hj2
        cases j with
        | zero =>
          exfalso
          simp only [countingWriter.Write] at hf
          simp [hf] at hj2
        | succ j =>
          have := hfail j (by omega) (by simpa [countingWriter.Write] using hj2)
          obtain ⟨h1, e, h2, h3⟩ := this
          exact ⟨by omega, e, h2, by simpa using h3⟩

/-- The entries of the writes of the file blocks, by their position. -/
theorem blockWrites_getElem (blocks : List (Str × Str)) : ∀ (n : Nat) (x : Str × RunError),
    ((blocks.map blockWrites).flatten)[n]? = some x →
      ∃ k relPath, ((blocks.map blockWrites).flatten)[3 * k]?
          = some (fileHeader relPath, .writingFileHeader relPath) ∧
        ((n = 3 * k ∧ x.2 = .writingFileHeader relPath) ∨
          (n = 3 * k + 1 ∧ x.2 = .writingFileContent relPath) ∨
          (n = 3 * k + 2 ∧ x.2 = .writingFileFooter relPath)) := by
  induction blocks with
  | nil => intro n x h; simp at h
  | cons b blocks ih =>
    intro n x h
    simp only [List.map_cons, List.flatten_cons, blockWrites, List.cons_append,
      List.nil_append] at h ⊢
    rcases n with _ | _ | _ | n
    · simp only [List.getElem?_cons_zero, Option.some.injEq] at h
      exact ⟨0, b.1, rfl, Or.inl ⟨rfl, by rw [← h]⟩⟩
    · simp only [List.getElem?_cons_succ, List.getElem?_cons_zero, Option.some.injEq] at h
      exact ⟨0, b.1, rfl, Or.inr (Or.inl ⟨rfl, by rw [← h]⟩)⟩
    · simp only [List.getElem?_cons_succ, List.getElem?_cons_zero, Option.some.injEq] at h
      exact ⟨0, b.1, rfl, Or.inr (Or.inr ⟨rfl, by rw [← h]⟩)⟩
    · simp only [List.getElem?_cons_succ] at h
      obtain ⟨k, relPath, hk, hcase⟩ := ih n x h
      refine ⟨k + 1, relPath, ?_, ?_⟩
      · have : 3 * (k + 1) = 3 * k + 1 + 1 + 1 := by omega
        rw [this]
        simpa using hk
      · rcases hcase with ⟨h1, h2⟩ | ⟨h1, h2⟩ | ⟨h1, h2⟩
        · exact Or.inl ⟨by omega, h2⟩
        · exact Or.inr (Or.inl ⟨by omega, h2⟩)
        · exact Or.inr (Or.inr ⟨by omega, h2⟩)

theorem writeAll_error (writer : Writer) (ws : List (Str × RunError)) (i : Nat)
    (hi : i < (writeAll writer { log := [], count := 0 } ws).1.log.length)
    (hfail : (writer ((writeAll writer { log := [], count := 0 } ws).1.log.take i)
      ((writeAll writer { log := [], count := 0 } ws).1.log.getD i [])).2 = true) :
    i + 1 = (writeAll writer { log := [], count := 0 } ws).1.log.length ∧
      ∃ e, (writeAll writer { log := [], count := 0 } ws).2 = some e ∧
        (ws.map (·.2))[i]? = some e ∧
        ∀ j, j ≤ i → (writeAll writer { log := [], count := 0 } ws).1.log[j]?
          = (ws.map (·.1))[j]? := by
  obtain ⟨m, hm, hlog, hf⟩ := writeAll_spec writer ws { log := [], count := 0 }
  simp only [List.nil_append] at hlog hf
  have hlen : ((ws.map (·.1)).take m).length = m := by
    rw [List.length_take, List.length_map]
    exact Nat.min_eq_left hm
  rw [hlog] at hi hfail ⊢
  rw [hlen] at hi ⊢
  have htake : ((ws.map (·.1)).take m).take i = (ws.map (·.1)).take i := by
    rw [List.take_take, Nat.min_eq_left (Nat.le_of_lt hi)]
  have hget : ∀ j, j < m → ((ws.map (·.1)).take m)[j]? = (ws.map (·.1))[j]? := by
    intro j hj
    rw [List.getElem?_take, if_pos hj]
  have hgetD : ((ws.map (·.1)).take m).getD i [] = (ws.map (·.1)).getD i [] := by
    rw [List.getD_eq_getElem?_getD, List.getD_eq_getElem?_getD, hget i hi]
  rw [htake, hgetD] at hfail
  obtain ⟨h1, e, h2, h3⟩ := hf i hi hfail
  exact ⟨h1, e, h2, h3, fun j hj => hget j (by omega)⟩

/-- C12: when a write that `ProcessDirectory` issues returns an error (the write
number `i` of the writes that the sink received), that write is the last one,
`ProcessDirectory` returns an error with the count 0, and the error is the one
of the stage of the failed write: the BOM, the preprompt, the directory header,
the directory tree, the contents header, or the header, the content or the
footer of the file whose header opens the block of the failed write. -/
theorem ProcessDirectory_write_error (root : Option Node) (config : Config) (writer : Writer)
    (i : Nat) (hi : i < (ProcessDirectory root config writer).written.length)
    (hfail : (writer ((ProcessDirectory root config writer).written.take i)
      ((ProcessDirectory root config writer).written.getD i [])).2 = true) :
    i + 1 = (ProcessDirectory root config writer).written.length ∧
      (ProcessDirectory root config writer).count = 0 ∧
      ∃ e, (ProcessDirectory root config writer).result = .error e ∧
        ((i = 0 ∧ e = .writingBOM) ∨ (i = 1 ∧ e = .writingPreprompt) ∨
          (i = 2 ∧ e = .writingDirectoryHeader) ∨ (i = 3 ∧ e = .writingDirectoryTree) ∨
          (i = 4 ∧ e = .writingContentsHeader) ∨
          ∃ k relPath,
            (ProcessDirectory root config writer).written[5 + 3 * k]?
              = some (fileHeader relPath) ∧
            ((i = 5 + 3 * k ∧ e = .writingFileHeader relPath) ∨
              (i = 5 + 3 * k + 1 ∧ e = .writingFileContent relPath) ∨
              (i = 5 + 3 * k + 2 ∧ e = .writingFileFooter relPath))) := by
  cases hload : LoadGitignore (gitignoreState root) with
  | error err =>
    have heq : ProcessDirectory root config writer
        = { result := .error .loadingGitignore, written := [] } := by
      rw [ProcessDirectory_from, hload]
    rw [heq] at hi
    simp at hi
  | ok loaded =>
    have heq : ProcessDirectory root config writer
        = ProcessDirectoryFrom (loaded ++ config.Omit) root config writer := by
      rw [ProcessDirectory_from, hload]
    rw [heq] at hi hfail ⊢
    cases root with
    | none => simp [ProcessDirectoryFrom, Walk] at hi
    | some node =>
      obtain ⟨hw, hr⟩ := ProcessDirectoryFrom_writeAll (loaded ++ config.Omit) node config writer
      rw [hw] at hi hfail ⊢
      obtain ⟨h1, e, h2, h3, h4⟩ := writeAll_error writer _ i hi hfail
      rw [h2] at hr
      refine ⟨h1, by simp [Run.count, hr], e, hr, ?_⟩
      simp only [runWrites, List.map_append, List.map_cons, List.map_nil] at h3
      rcases i with _ | _ | _ | _ | _ | i
      · simp only [List.cons_append, List.getElem?_cons_zero, Option.some.injEq] at h3
        exact Or.inl ⟨rfl, h3.symm⟩
      · simp only [List.cons_append, List.getElem?_cons_succ, List.getElem?_cons_zero,
          Option.some.injEq] at h3
        exact Or.inr (Or.inl ⟨rfl, h3.symm⟩)
      · simp only [List.cons_append, List.getElem?_cons_succ, List.getElem?_cons_zero,
          Option.some.injEq] at h3
        exact Or.inr (Or.inr (Or.inl ⟨rfl, h3.symm⟩))
      · simp only [List.cons_append, List.getElem?_cons_succ, List.getElem?_cons_zero,
          Option.some.injEq] at h3
        exact Or.inr (Or.inr (Or.inr (Or.inl ⟨rfl, h3.symm⟩)))
      · simp only [List.cons_append, List.getElem?_cons_succ, List.getElem?_cons_zero,
          Option.some.injEq] at h3
        exact Or.inr (Or.inr (Or.inr (Or.inr (Or.inl ⟨rfl, h3.symm⟩))))
      · right; right; right; right; right
        simp only [List.cons_append, List.nil_append, List.getElem?_cons_succ] at h3
        rw [List.getElem?_map] at h3
        cases hx : ((List.map blockWrites
            (fileBlocks node (walkFrom (str ".") node (loaded ++ config.Omit)))).flatten)[i]? with
        | none => rw [hx] at h3; simp at h3
        | some x =>
          rw [hx] at h3
          simp only [Option.map_some', Option.some.injEq] at h3
          obtain ⟨k, relPath, hk, hcase⟩ := blockWrites_getElem _ i x hx
          have hki : 3 * k ≤ i := by
            rcases hcase with ⟨h, -⟩ | ⟨h, -⟩ | ⟨h, -⟩ <;> omega
          refine ⟨k, relPath, ?_, ?_⟩
          · rw [h4 (5 + 3 * k) (by omega)]
            have : 5 + 3 * k = 3 * k + 1 + 1 + 1 + 1 + 1 := by omega
            rw [this]
            simp only [runWrites, List.map_append, List.map_cons, List.map_nil,
              List.cons_append, List.nil_append, List.getElem?_cons_succ]
            rw [List.getElem?_map, hk]
            rfl
          · rw [← h3]
            rcases hcase with ⟨h, he⟩ | ⟨h, he⟩ | ⟨h, he⟩
            · exact Or.inl ⟨by omega, he⟩
            · exact Or.inr (Or.inl ⟨by omega, he⟩)
            · exact Or.inr (Or.inr ⟨by omega, he⟩)

theorem ProcessDirectory_write_error_witness :
    6 + 1 = (ProcessDirectory (some testRunDir) testRunConfig (failingAfter 6)).written.length ∧
      (ProcessDirectory (some testRunDir) testRunConfig (failingAfter 6)).count = 0 ∧
      ∃ e, (ProcessDirectory (some testRunDir) testRunConfig (failingAfter 6)).result
          = .error e ∧
        ((6 = 0 ∧ e = .writingBOM) ∨ (6 = 1 ∧ e = .writingPreprompt) ∨
          (6 = 2 ∧ e = .writingDirectoryHeader) ∨ (6 = 3 ∧ e = .writingDirectoryTree) ∨
          (6 = 4 ∧ e = .writingContentsHeader) ∨
          ∃ k relPath,
            (ProcessDirectory (some testRunDir) testRunConfig (failingAfter 6)).written[5 + 3 * k]?
              = some (fileHeader relPath) ∧
            ((6 = 5 + 3 * k ∧ e = .writingFileHeader relPath) ∨
              (6 = 5 + 3 * k + 1 ∧ e = .writingFileContent relPath) ∨
              (6 = 5 + 3 * k + 2 ∧ e = .writingFileFooter relPath))) :=
  ProcessDirectory_write_error (some testRunDir) testRunConfig (failingAfter 6) 6
    (by decide) (by decide)

/-! ## The walk and the listing below ignored directories -/

theorem walkEntriesLoop_succ_dir (f : Nat) (rel : Str) (path : List Str)
    (files : List (Str × Node)) (pats : List Str) :
    walkEntriesLoop (f + 1) rel path (.dir files) pats =
      if IsIgnored rel true pats then []
      else walkNamesE
        (walkEntryE (fun r p child => walkEntriesLoop f r p child pats) files rel path)
        (sortStrings (files.map fun e => e.1)) := rfl

theorem walkEntriesLoop_succ_file (f : Nat) (rel : Str) (path : List Str)
    (c : Option Str) (pats : List Str) :
    walkEntriesLoop (f + 1) rel path (.file c) pats =
      if !IsIgnored rel false pats then [(rel, path)] else [] := rfl

theorem mem_walkNamesE (visit : Str → List (Str × List Str)) (names : List Str)
    (e : Str × List Str) :
    e ∈ walkNamesE visit names ↔ ∃ name ∈ names, e ∈ visit name := by
  induction names with
  | nil => simp [walkNamesE]
  | cons x names ih => simp [walkNamesE, ih]

theorem walkNamesE_fst (visitE : Str → List (Str × List Str)) (visit : Str → List Str)
    (h : ∀ name, (visitE name).map (·.1) = visit name) (names : List Str) :
    (walkNamesE visitE names).map (·.1) = walkNames visit names := by
  induction names with
  | nil => rfl
  | cons x names ih => simp [walkNamesE, walkNames, ih, h]

/-- Forgetting the locations gives the paths that the walk collects. -/
theorem walkEntriesLoop_fst : ∀ (fuel : Nat) (rel : Str) (path : List Str) (node : Node)
    (pats : List Str),
    (walkEntriesLoop fuel rel path node pats).map (·.1) = walkLoop fuel rel node pats := by
  intro fuel
  induction fuel with
  | zero => intro rel path node pats; rfl
  | succ f ih =>
    intro rel path node pats
    cases node with
    | file c =>
      rw [walkEntriesLoop_succ_file]
      simp only [walkLoop]
      split_ifs <;> rfl
    | dir files =>
      rw [walkEntriesLoop_succ_dir, walkLoop_succ_dir]
      split_ifs
      · rfl
      · apply walkNamesE_fst
        intro name
        simp only [walkEntryE, walkEntry]
        cases lookupEntry name files with
        | none => rfl
        | some child => exact ih _ _ _ _
    | link target =>
      simp only [walkEntriesLoop, walkLoop]
      split_ifs <;> rfl
    | dangling =>
      simp only [walkEntriesLoop, walkLoop]
      split_ifs <;> rfl

theorem walkEntries_fst (node : Node) (pats : List Str) :
    (walkEntries node pats).map (·.1) = walkFrom (str ".") node pats :=
  walkEntriesLoop_fst _ _ _ _ _

theorem foldl_relJoin_cons (rel name : Str) (below : List Str) :
    (name :: below).foldl relJoin rel = below.foldl relJoin (relJoin rel name) := rfl

theorem resolve_dir_cons (files : List (Str × Node)) (name : Str) (below : List Str)
    (child : Node) (h : lookupEntry name files = some child) :
    resolve (.dir files) (name :: below) = resolve child below := by
  simp only [resolve, h]

/-- Every path that the walk collects is that of an entry which is not a
directory, lies at the end of a chain of directories none of which is ignored,
and is not ignored itself. -/
theorem mem_walkEntriesLoop : ∀ (fuel : Nat) (rel : Str) (path : List Str) (node : Node)
    (pats : List Str) (e : Str × List Str), e ∈ walkEntriesLoop fuel rel path node pats →
    ∃ below, e.2 = path ++ below ∧ e.1 = below.foldl relJoin rel ∧
      (∃ n, resolve node below = some n ∧ n.isDir = false) ∧
      IsIgnored e.1 false pats = false ∧
      ∀ pd, pd <+: below → pd ≠ below → IsIgnored (pd.foldl relJoin rel) true pats = false := by
  intro fuel
  induction fuel with
  | zero => intro rel path node pats e he; simp [walkEntriesLoop] at he
  | succ f ih =>
    intro rel path node pats e he
    cases node with
    | file c =>
      rw [walkEntriesLoop_succ_file] at he
      split_ifs at he with hi
      · simp only [List.mem_singleton] at he
        subst he
        refine ⟨[], by simp, rfl, ⟨_, rfl, rfl⟩, by simpa using hi, ?_⟩
        intro pd hpd hne
        exact absurd (List.prefix_nil.mp hpd) hne
      · simp at he
    | dir files =>
      rw [walkEntriesLoop_succ_dir] at he
      split_ifs at he with hi
      · simp at he
      · obtain ⟨name, -, hn⟩ := (mem_walkNamesE _ _ _).1 he
        simp only [walkEntryE] at hn
        cases hl : lookupEntry name files with
        | none => rw [hl] at hn; simp at hn
        | some child =>
          rw [hl] at hn
          obtain ⟨below, h1, h2, ⟨c, h3, h3d⟩, h4, h5⟩ := ih _ _ _ _ _ hn
          refine ⟨name :: below, by simp [h1], by rw [h2]; rfl,
            ⟨c, by rw [resolve_dir_cons _ _ _ _ hl]; exact h3, h3d⟩, h4, ?_⟩
          intro pd hpd hne
          cases pd with
          | nil => simpa using hi
          | cons x pd =>
            have hx := List.cons_prefix_cons.mp hpd
            rw [hx.1, foldl_relJoin_cons]
            exact h5 pd hx.2 (fun h => hne (by rw [hx.1, h]))
    | link target =>
      simp only [walkEntriesLoop] at he
      split_ifs at he with hi
      · simp only [List.mem_singleton] at he
        subst he
        refine ⟨[], by simp, rfl, ⟨_, rfl, rfl⟩, by simpa using hi, ?_⟩
        intro pd hpd hne
        exact absurd (List.prefix_nil.mp hpd) hne
      · simp at he
    | dangling =>
      simp only [walkEntriesLoop] at he
      split_ifs at he with hi
      · simp only [List.mem_singleton] at he
        subst he
        refine ⟨[], by simp, rfl, ⟨_, rfl, rfl⟩, by simpa using hi, ?_⟩
        intro pd hpd hne
        exact absurd (List.prefix_nil.mp hpd) hne
      · simp at he

/-- Every entry that is not a directory, is not ignored and lies at the end of a
chain of directories none of which is ignored is collected by the walk. -/
theorem walkEntriesLoop_of_chain : ∀ (fuel : Nat) (node : Node), node.height < fuel →
    ∀ (rel : Str) (path : List Str) (pats : List Str) (below : List Str) (c : Node),
    resolve node below = some c → c.isDir = false →
    IsIgnored (below.foldl relJoin rel) false pats = false →
    (∀ pd, pd <+: below → pd ≠ below → IsIgnored (pd.foldl relJoin rel) true pats = false) →
    (below.foldl relJoin rel, path ++ below) ∈ walkEntriesLoop fuel rel path node pats := by
  intro fuel
  induction fuel with
  | zero => intro node h; omega
  | succ f ih =>
    intro node hh rel path pats below c hres hcd hfile hdirs
    cases node with
    | file c2 =>
      cases below with
      | nil =>
        rw [walkEntriesLoop_succ_file]
        simp only [List.foldl_nil] at hfile ⊢
        simp [hfile]
      | cons x below => simp [resolve] at hres
    | link target =>
      cases below with
      | nil =>
        simp only [walkEntriesLoop, List.foldl_nil] at hfile ⊢
        simp [hfile]
      | cons x below => simp [resolve] at hres
    | dangling =>
      cases below with
      | nil =>
        simp only [walkEntriesLoop, List.foldl_nil] at hfile ⊢
        simp [hfile]
      | cons x below => simp [resolve] at hres
    | dir files =>
      cases below with
      | nil =>
        simp only [resolve, Option.some.injEq] at hres
        subst hres
        cases hcd
      | cons name below =>
        have hroot : IsIgnored rel true pats = false := by
          have := hdirs [] (List.nil_prefix) (by simp)
          simpa using this
        rw [walkEntriesLoop_succ_dir, hroot]
        simp only [Bool.false_eq_true, if_false]
        cases hl : lookupEntry name files with
        | none => simp [resolve, hl] at hres
        | some child =>
          rw [resolve_dir_cons _ _ _ _ hl] at hres
          have hmem := lookupEntry_mem _ _ _ hl
          have hheight : child.height < f := by
            have := height_le_heightList _ _ hmem
            simp only [height_dir] at hh
            simp only at this
            omega
          refine (mem_walkNamesE _ _ _).2 ⟨name, ?_, ?_⟩
          · rw [mem_sortStrings]
            exact List.mem_map.2 ⟨(name, child), hmem, rfl⟩
          · simp only [walkEntryE, hl]
            have := ih child hheight (relJoin rel name) (path ++ [name]) pats below c hres hcd
              (by rw [← foldl_relJoin_cons]; exact hfile)
              (fun pd hpd hne => by
                rw [← foldl_relJoin_cons]
                exact hdirs (name :: pd) (List.cons_prefix_cons.mpr ⟨rfl, hpd⟩)
                  (fun h => hne (List.cons.inj h).2))
            simpa [foldl_relJoin_cons] using this

/-- When the relative path of a location `pd` below the root is ignored as a
directory, the walk of `ProcessDirectory` collects nothing located beneath `pd`,
and every file block is for a collected path. -/
theorem walk_prunes_ignored_directory (node : Node) (pats : List Str) (pd : List Str)
    (hign : IsIgnored (relPathOf pd) true pats = true) :
    (walkEntries node pats).map (·.1) = walkFrom (str ".") node pats ∧
      (∀ e ∈ walkEntries node pats, ∀ below, below ≠ [] → e.2 ≠ pd ++ below) ∧
      ∀ b ∈ fileBlocks node (walkFrom (str ".") node pats),
        ∃ e ∈ walkEntries node pats, e.1 = b.1 := by
  refine ⟨walkEntries_fst node pats, ?_, ?_⟩
  · intro e he below hbelow heq
    obtain ⟨whole, h1, -, -, -, h5⟩ := mem_walkEntriesLoop _ _ _ _ _ e he
    rw [List.nil_append] at h1
    have := h5 pd (by rw [← h1, heq]; exact List.prefix_append _ _)
      (by
        intro h
        rw [← h1, heq] at h
        exact hbelow (List.append_right_eq_self.mp h.symm))
    rw [relPathOf] at hign
    rw [hign] at this
    cases this
  · intro b hb
    have hmem : b.1 ∈ (fileBlocks node (walkFrom (str ".") node pats)).map (fun b => b.1) :=
      List.mem_map.2 ⟨b, hb, rfl⟩
    have := ((mem_fileBlocks _ _ _).1 hmem).1
    rw [← walkEntries_fst] at this
    obtain ⟨e, he, h⟩ := List.mem_map.1 this
    exact ⟨e, he, h⟩

/-- C13: `GenerateTree` tests an entry against the patterns as `ioutil.ReadDir`
reports it, where a symbolic link is not a directory, but lists and enters it as
`os.Stat` reports it.  With the pattern `link/` the entry `link`, a symbolic link
to a directory, is ignored as a directory and not as a file: the listing shows
`link`, `link/sub` and `link/sub/f.txt`, while the walk of `ProcessDirectory`
does not enter `link`. -/
theorem ignored_link_directory_listed :
    IsIgnored (str "link") true [str "link/"] = true ∧
      IsIgnored (str "link") false [str "link/"] = false ∧
      GenerateTree (str "repo") (str ".") repoWithLink [str "link/"] [] =
        [str "repo", str "└── link", str "    └── sub", str "        └── f.txt"] ∧
      (GenerateTreeEntries (str "repo") (str ".") [] repoWithLink [str "link/"] []).map
          (·.path) = [[], [str "link"], [str "link", str "sub"],
            [str "link", str "sub", str "f.txt"]] ∧
      walkFrom (str ".") repoWithLink [str "link/"] = [str "link"] ∧
      (ProcessDirectory (some repoWithLink) linkOmitted bufferWriter).written =
        [[0xEF, 0xBB, 0xBF], [], str "Directory structure:\n",
          str "repo\n└── link\n    └── sub\n        └── f.txt\n\n",
          str "File contents:\n\n"] := by
  decide

/-- C14: the callback of the walk tests the root directory against the patterns,
which `GenerateTree` never does.  With the pattern `*/` the root directory itself
is skipped, so the file `file1.txt` directly inside the root, which no pattern
matches, is not collected and gets no block, while the tree section of the same
document lists it. -/
theorem ignored_root_collects_nothing :
    walkFrom (str ".") testRunDir [str "*/"] = [] ∧
      (resolve testRunDir [str "file1.txt"]).isSome = true ∧
      IsIgnored (str "file1.txt") false [str "*/"] = false ∧
      (ProcessDirectory (some testRunDir) allDirsOmitted bufferWriter).written =
        [[0xEF, 0xBB, 0xBF], [], str "Directory structure:\n",
          str "repo\n├── file1.txt\n└── file2.bin\n\n", str "File contents:\n\n"] := by
  decide

/-- When the walk does not skip the root directory, it collects every entry that
is not a directory, whose relative path is not ignored and none of whose ancestor
directories below the root is ignored; `path` is the list of names that leads
from the root directory to the entry. -/
theorem unmatched_file_collected (node : Node) (pats : List Str) (path : List Str)
    (c : Node) (hroot : IsIgnored (str ".") true pats = false)
    (hres : resolve node path = some c) (hcd : c.isDir = false)
    (hfile : IsIgnored (relPathOf path) false pats = false)
    (hdirs : ∀ pd, pd ≠ [] → pd <+: path → pd ≠ path →
      IsIgnored (relPathOf pd) true pats = false) :
    (relPathOf path, path) ∈ walkEntries node pats ∧
      relPathOf path ∈ walkFrom (str ".") node pats := by
  have h : (relPathOf path, path) ∈ walkEntries node pats := by
    have := walkEntriesLoop_of_chain (node.height + 1) node (Nat.lt_succ_self _) (str ".") []
      pats path c hres hcd hfile (by
        intro pd h1 h2
        cases pd with
        | nil => exact hroot
        | cons x pd => exact hdirs (x :: pd) (by simp) h1 h2)
    simpa [walkEntries, relPathOf] using this
  refine ⟨h, ?_⟩
  rw [← walkEntries_fst]
  exact List.mem_map.2 ⟨_, h, rfl⟩

/-! ## Self-exclusion -/

/-- C21: `main` appends the relative path of the output file to the patterns
unescaped, and `filepath.Match` reads it as a pattern.  For the output file
`out[1].txt` inside the directory, `main` appends the clean relative path
`out[1].txt`, but the path is not ignored by itself, and the walk collects the
file. -/
theorem bracket_path_not_self_ignored :
    (addSelfPatterns plainConfig [] none none (some (str "out[1].txt"))).Omit
        = [str "out[1].txt"] ∧
      Clean (str "out[1].txt") = str "out[1].txt" ∧
      HasPrefix (str "out[1].txt") (str "..") = false ∧
      IsIgnored (str "out[1].txt") false [str "out[1].txt"] = false ∧
      walkFrom (str ".") bracketOutputDir [str "out[1].txt"] = [str "out[1].txt"] := by
  decide

theorem Clean_ne_nil (p : Str) (h : Clean p = p) : p ≠ [] := by
  intro hp
  subst hp
  exact absurd h (by decide)

theorem IsIgnored_of_mem (path : Str) (isDir : Bool) (pats : List Str) (p : Str)
    (hp : p ∈ pats)
    (hm : Match (replaceSlash p) (if isDir then Clean path ++ [Separator] else Clean path)
      = some true) : IsIgnored path isDir pats = true := by
  unfold IsIgnored
  exact (isIgnoredLoop_iff _ _).2 ⟨p, hp, Or.inl hm⟩

/-- A clean path `p` with none of `*`, `?`, `[`, `\\` is ignored, as a file, by
every pattern list that contains `p`, and the walk of `ProcessDirectory` does not
collect that path. -/
theorem literal_path_self_ignored (p : Str) (pats : List Str) (node : Node)
    (hclean : Clean p = p) (hlit : ∀ b ∈ p, IsLiteral b) (hmem : p ∈ pats) :
    selfPattern (some p) = (if HasPrefix p (str "..") || IsAbs p then [] else [p]) ∧
      IsIgnored p false [p] = true ∧ IsIgnored p false pats = true ∧
      p ∉ walkFrom (str ".") node pats := by
  have hne := Clean_ne_nil p hclean
  have hm : Match (replaceSlash p) (Clean p) = some true := by
    have := Match_lit_append p [] hlit hne
    rw [List.append_nil] at this
    rw [replaceSlash_id, hclean, this]
    rfl
  have hall : ∀ l : List Str, p ∈ l → IsIgnored p false l = true := by
    intro l hl
    exact IsIgnored_of_mem p false l p hl (by simpa using hm)
  refine ⟨?_, hall [p] (List.mem_singleton_self p), hall pats hmem, ?_⟩
  · simp only [selfPattern]
    cases HasPrefix p (str "..") <;> cases IsAbs p <;> rfl
  · intro hw
    rw [← walkEntries_fst] at hw
    obtain ⟨e, he, h1⟩ := List.mem_map.1 hw
    obtain ⟨_, -, -, -, h4, -⟩ := mem_walkEntriesLoop _ _ _ _ _ e he
    rw [h1, hall pats hmem] at h4
    cases h4

/-! ## The lines of the listing, one for every listed entry -/

theorem mem_treeFilesE_line (pre rel : Str) (path : List Str) (n : Nat) (fs : List Str)
    (e : TreeEntry) : ∀ i, e ∈ treeFilesE pre rel path n i fs →
      ∃ f ∈ fs, ∃ c, (c = teeConnector ∨ c = lastConnector) ∧
        e = { line := pre ++ c ++ f, relPath := relJoin rel f, path := path ++ [f],
              isDir := false } := by
  induction fs with
  | nil => intro i h; simp [treeFilesE] at h
  | cons f fs ih =>
    intro i h
    simp only [treeFilesE, List.mem_cons] at h
    rcases h with h | h
    · refine ⟨f, List.mem_cons_self _ _, _, ?_, h⟩
      split_ifs
      · exact Or.inr rfl
      · exact Or.inl rfl
    · obtain ⟨g, hg, h2⟩ := ih _ h
      exact ⟨g, List.mem_cons_of_mem _ hg, h2⟩

theorem mem_treeDirsE_line (sub : Str → Str → List TreeEntry) (pre rel : Str)
    (path : List Str) (nd nf : Nat) (ds : List Str) (e : TreeEntry) :
    ∀ i, e ∈ treeDirsE sub pre rel path nd nf i ds →
      (∃ d ∈ ds, ∃ c, (c = teeConnector ∨ c = lastConnector) ∧
        e = { line := pre ++ c ++ d, relPath := relJoin rel d, path := path ++ [d],
              isDir := true }) ∨
      (∃ d ∈ ds, ∃ ext, (ext = blankExtension ∨ ext = barExtension) ∧
        e ∈ sub d (pre ++ ext)) := by
  induction ds with
  | nil => intro i h; simp [treeDirsE] at h
  | cons d ds ih =>
    intro i h
    simp only [treeDirsE, List.mem_cons, List.mem_append] at h
    rcases h with (h | h) | h
    · left
      refine ⟨d, List.mem_cons_self _ _, _, ?_, h⟩
      split_ifs
      · exact Or.inr rfl
      · exact Or.inl rfl
    · right
      refine ⟨d, List.mem_cons_self _ _, _, ?_, h⟩
      split_ifs
      · exact Or.inl rfl
      · exact Or.inr rfl
    · rcases ih _ h with ⟨g, hg, h2⟩ | ⟨g, hg, h2⟩
      · left; exact ⟨g, List.mem_cons_of_mem _ hg, h2⟩
      · right; exact ⟨g, List.mem_cons_of_mem _ hg, h2⟩

theorem extension_ne_nil (pre ext : Str) (h : ext = blankExtension ∨ ext = barExtension) :
    pre ++ ext ≠ [] := by
  intro hnil
  have := (List.append_eq_nil.mp hnil).2
  rcases h with h | h <;> rw [h] at this <;> exact absurd this (by decide)

theorem ListedFrom_single (rel : Str) (files : List (Str × Node)) (pats : List Str)
    (name : Str) (child : Node) (hl : lookupEntry name files = some child)
    (hs : child.stat.isSome = true)
    (hi : IsIgnored (relJoin rel name) child.isDir pats = false) :
    ListedFrom rel (.dir files) pats [name] := by
  refine ⟨by simp, ⟨child, by simp [resolve, hl], hs, hi⟩, ?_⟩
  intro pd hpd h1 h2
  simp only [List.inits, List.map_cons, List.map_nil, List.mem_cons, List.mem_singleton,
    List.mem_nil_iff, or_false] at hpd
  rcases hpd with h | h
  · exact absurd h h1
  · exact absurd h h2

theorem ListedFrom_cons (rel : Str) (files : List (Str × Node)) (pats : List Str)
    (name : Str) (child : Node) (below : List Str)
    (hl : lookupEntry name files = some child)
    (hi : IsIgnored (relJoin rel name) true pats = false) (hg : name ≠ str ".git")
    (h : ListedFrom (relJoin rel name) child pats below) :
    ListedFrom rel (.dir files) pats (name :: below) := by
  obtain ⟨hne, ⟨n, hn, hin⟩, hanc⟩ := h
  refine ⟨by simp, ⟨n, by simpa [resolve, hl] using hn, hin⟩, ?_⟩
  intro pd hpd h1 h2
  simp only [List.inits, List.mem_cons, List.mem_map] at hpd
  rcases hpd with h | ⟨pd2, hpd2, h⟩
  · exact absurd h h1
  · subst h
    cases pd2 with
    | nil => exact ⟨hi, by simpa using hg⟩
    | cons x pd2 =>
      have := hanc (x :: pd2) hpd2 (by simp) (fun h => h2 (by rw [h]))
      simpa using this

/-- The parts of `ListedFrom` for a location of two names or more. -/
theorem ListedFrom_tail (rel : Str) (files : List (Str × Node)) (pats : List Str)
    (name x : Str) (below : List Str)
    (h : ListedFrom rel (.dir files) pats (name :: x :: below)) :
    ∃ child, lookupEntry name files = some child ∧
      IsIgnored (relJoin rel name) true pats = false ∧ name ≠ str ".git" ∧
      ListedFrom (relJoin rel name) child pats (x :: below) := by
  obtain ⟨-, ⟨n, hn, hin⟩, hanc⟩ := h
  cases hl : lookupEntry name files with
  | none => simp [resolve, hl] at hn
  | some child =>
    have h1 := hanc [name] (by simp [List.inits]) (by simp) (by simp)
    refine ⟨child, rfl, h1.1, by simpa using h1.2, by simp, ⟨n, ?_, hin⟩, ?_⟩
    · simpa [resolve, hl] using hn
    · intro pd hpd hp1 hp2
      have := hanc (name :: pd)
        ((List.mem_inits _ _).2 (List.cons_prefix_cons.mpr ⟨rfl, (List.mem_inits _ _).1 hpd⟩))
        (by simp) (fun h => hp2 (List.cons.inj h).2)
      cases pd with
      | nil => exact absurd rfl hp1
      | cons y pd => simpa using this

theorem noDirLinksList_iff (es : List (Str × Node)) :
    noDirLinksList es = true ↔ ∀ e ∈ es, e.2.noDirLinks = true := by
  induction es with
  | nil => simp [noDirLinksList]
  | cons x es ih => simp [noDirLinksList, ih]

theorem noDirLinks_dir (es : List (Str × Node)) :
    (Node.dir es).noDirLinks = true ↔ ∀ e ∈ es, e.2.noDirLinks = true := by
  simp [Node.noDirLinks, noDirLinksList_iff]

/-- For an object that is not a symbolic link to a directory, `os.Stat` and
`os.Lstat` agree on whether it is a directory. -/
theorem noDirLinks_stat (n : Node) (h : n.noDirLinks = true) (b : Bool)
    (hs : n.stat.map Node.isDir = some b) : n.isDir = b := by
  cases n with
  | file c => simpa [Node.stat, Node.isDir] using hs
  | dir es => simpa [Node.stat, Node.isDir] using hs
  | link target =>
    simp only [Node.noDirLinks] at h
    simp only [Node.stat] at hs
    cases ht : target.stat with
    | none => rw [ht] at hs; simp at hs
    | some st =>
      rw [ht] at h hs
      simp only [Option.map_some', Option.some.injEq] at hs
      simp only [Bool.not_eq_true'] at h
      rw [← hs, h]
      rfl
  | dangling => simp [Node.stat] at hs

theorem isSome_of_map_eq_some {α β : Type} (f : α → β) (o : Option α) (b : β)
    (h : o.map f = some b) : o.isSome = true := by
  cases o with
  | none => simp at h
  | some a => rfl

/-- Every entry of the listing of a directory is the root line or a listed
entry, rendered with a connector before its name. -/
theorem entries_sound : ∀ (h : Nat) (files : List (Str × Node)), heightList files < h →
    ∀ (base rel : Str) (path pats : List Str) (pre : Str),
      (Node.dir files).distinctNames = true → (Node.dir files).noDirLinks = true →
      ∀ e ∈ GenerateTreeEntries base rel path (.dir files) pats pre,
        (pre = [] ∧ e = { line := base, relPath := rel, path := path, isDir := true }) ∨
        ∃ below, e.path = path ++ below ∧ ListedFrom rel (.dir files) pats below ∧
          e.relPath = below.foldl relJoin rel ∧
          (∃ p c name, below.getLast? = some name ∧
            (c = teeConnector ∨ c = lastConnector) ∧ e.line = p ++ c ++ name) ∧
          ∃ n ∈ resolve (.dir files) below, n.isDir = e.isDir := by
  intro h
  induction h with
  | zero => intro files hh; omega
  | succ h ih =>
    intro files hh base rel path pats pre hdist hlinks e he
    obtain ⟨hnames, hdistc⟩ := (distinctNames_dir files).1 hdist
    have hlinkc := (noDirLinks_dir files).1 hlinks
    rw [GenerateTreeEntries_dir] at he
    split at he
    · simp at he
    · simp only [List.mem_append] at he
      rcases he with (he | he) | he
      · left
        split at he
        · rename_i hp
          simp only [List.mem_singleton] at he
          exact ⟨by simpa using hp, he⟩
        · simp at he
      · right
        rcases mem_treeDirsE_line _ _ _ _ _ _ _ _ _ he with
          ⟨d, hd, c, hc, hed⟩ | ⟨d, hd, ext, hext, hsub⟩
        · obtain ⟨child, hmem, hcd, hign⟩ := (mem_level_dirs rel pats files hnames d).1 hd
          have hl := lookupEntry_of_mem _ _ _ hnames hmem
          have hcd2 := noDirLinks_stat child (hlinkc _ hmem) true hcd
          refine ⟨[d], by rw [hed], ListedFrom_single rel files pats d child hl
            (isSome_of_map_eq_some _ _ _ hcd) hign, by rw [hed]; rfl,
            ⟨pre, c, d, rfl, hc, by rw [hed]⟩,
            child, by simp [resolve, hl], by rw [hed]; exact hcd2⟩
        · obtain ⟨child, hmem, hcd, hign⟩ := (mem_level_dirs rel pats files hnames d).1 hd
          have hl := lookupEntry_of_mem _ _ _ hnames hmem
          have hcd2 := noDirLinks_stat child (hlinkc _ hmem) true hcd
          simp only [treeSubE, hl] at hsub
          cases child with
          | file c => cases hcd2
          | link target => cases hcd2
          | dangling => cases hcd2
          | dir sub =>
            have hg : d ≠ str ".git" := by
              intro hg
              rw [GenerateTreeEntries_dir] at hsub
              simp [hg] at hsub
            have hheight : heightList sub < h := by
              have := height_le_heightList _ _ hmem
              simp only [height_dir] at this
              omega
            rcases ih sub hheight d (relJoin rel d) (path ++ [d]) pats (pre ++ ext)
              (hdistc _ hmem) (hlinkc _ hmem) e hsub with
              ⟨hp, -⟩ | ⟨below, h1, h2, h3, ⟨p, c, name, h4, h5, h6⟩, n, h7, h8⟩
            · exact absurd hp (extension_ne_nil pre ext hext)
            · refine ⟨d :: below, by simp [h1], ListedFrom_cons rel files pats d _ below hl hign
                hg h2, by rw [h3]; rfl, ⟨p, c, name, ?_, h5, h6⟩, n, ?_, h8⟩
              · cases below with
                | nil => exact absurd rfl h2.1
                | cons x below => rw [List.getLast?_cons_cons]; exact h4
              · simpa [resolve, hl] using h7
      · right
        obtain ⟨f, hf, c, hc, hef⟩ := mem_treeFilesE_line _ _ _ _ _ _ _ he
        obtain ⟨child, hmem, hcd, hign⟩ := (mem_level_files rel pats files hnames f).1 hf
        have hl := lookupEntry_of_mem _ _ _ hnames hmem
        have hcd2 := noDirLinks_stat child (hlinkc _ hmem) false hcd
        refine ⟨[f], by rw [hef], ListedFrom_single rel files pats f child hl
          (isSome_of_map_eq_some _ _ _ hcd) hign, by rw [hef]; rfl,
          ⟨pre, c, f, rfl, hc, by rw [hef]⟩,
          child, by simp [resolve, hl], by rw [hef]; exact hcd2⟩

/-- Every listed entry has a line in the listing. -/
theorem entries_complete : ∀ (h : Nat) (files : List (Str × Node)), heightList files < h →
    ∀ (base rel : Str) (path pats : List Str) (pre : Str),
      (Node.dir files).distinctNames = true → (Node.dir files).noDirLinks = true →
      base ≠ str ".git" →
      ∀ below, ListedFrom rel (.dir files) pats below →
        ∃ e ∈ GenerateTreeEntries base rel path (.dir files) pats pre,
          e.path = path ++ below := by
  intro h
  induction h with
  | zero => intro files hh; omega
  | succ h ih =>
    intro files hh base rel path pats pre hdist hlinks hbase below hlisted
    obtain ⟨hnames, hdistc⟩ := (distinctNames_dir files).1 hdist
    have hlinkc := (noDirLinks_dir files).1 hlinks
    have hb : (base == str ".git") = false := by simpa using hbase
    rw [GenerateTreeEntries_dir, hb]
    simp only [Bool.false_eq_true, if_false]
    cases below with
    | nil => exact absurd rfl hlisted.1
    | cons name below =>
      cases below with
      | nil =>
        obtain ⟨-, ⟨n, hn, hst, hin⟩, -⟩ := hlisted
        cases hl : lookupEntry name files with
        | none => simp [resolve, hl] at hn
        | some child =>
          have hnc : n = child := by
            simp only [resolve, hl, Option.mem_def, Option.some.injEq] at hn
            exact hn.symm
          subst hnc
          have hmem := lookupEntry_mem _ _ _ hl
          have hin2 : IsIgnored (relJoin rel name) n.isDir pats = false := hin
          obtain ⟨st, hst2⟩ := Option.isSome_iff_exists.1 hst
          have hmap : n.stat.map Node.isDir = some st.isDir := by rw [hst2]; rfl
          cases hd : st.isDir with
          | true =>
            rw [hd] at hmap
            have hmd := (mem_level_dirs rel pats files hnames name).2 ⟨n, hmem, hmap, hin2⟩
            obtain ⟨⟨e, he, -, hp, -⟩, -⟩ := treeDirsE_of_mem
              (treeSubE (fun d r p child pre2 => GenerateTreeEntries d r p child pats pre2)
                files rel path) pre rel path
              (sortStrings (treeSplit files (treeContents rel pats files)).1).length
              (sortStrings (treeSplit files (treeContents rel pats files)).2).length _ name
              hmd 0
            exact ⟨e, List.mem_append_left _ (List.mem_append_right _ he), hp⟩
          | false =>
            rw [hd] at hmap
            have hmf := (mem_level_files rel pats files hnames name).2 ⟨n, hmem, hmap, hin2⟩
            obtain ⟨e, he, -, hp, -⟩ := treeFilesE_of_mem pre rel path
              (sortStrings (treeSplit files (treeContents rel pats files)).2).length _ name
              hmf 0
            exact ⟨e, List.mem_append_right _ he, hp⟩
      | cons x below =>
        obtain ⟨child, hl, hign, hg, hrest⟩ := ListedFrom_tail rel files pats name x below hlisted
        have hmem := lookupEntry_mem _ _ _ hl
        cases child with
        | file c =>
          obtain ⟨-, ⟨n, hn, -⟩, -⟩ := hrest
          simp [resolve] at hn
        | link target =>
          obtain ⟨-, ⟨n, hn, -⟩, -⟩ := hrest
          simp [resolve] at hn
        | dangling =>
          obtain ⟨-, ⟨n, hn, -⟩, -⟩ := hrest
          simp [resolve] at hn
        | dir sub =>
          have hmd := (mem_level_dirs rel pats files hnames name).2 ⟨_, hmem, rfl, hign⟩
          obtain ⟨-, p, hsub⟩ := treeDirsE_of_mem
            (treeSubE (fun d r p child pre2 => GenerateTreeEntries d r p child pats pre2)
              files rel path) pre rel path
            (sortStrings (treeSplit files (treeContents rel pats files)).1).length
            (sortStrings (treeSplit files (treeContents rel pats files)).2).length _ name
            hmd 0
          have hheight : heightList sub < h := by
            have := height_le_heightList _ _ hmem
            simp only [height_dir] at this
            omega
          obtain ⟨e, he, hp⟩ := ih sub hheight name (relJoin rel name) (path ++ [name]) pats p
            (hdistc _ hmem) (hlinkc _ hmem) hg (x :: below) hrest
          refine ⟨e, List.mem_append_left _ (List.mem_append_right _ (hsub e ?_)), ?_⟩
          · simp only [treeSubE, hl]
            exact he
          · rw [hp]; simp

theorem treeFilesE_paths (pre rel : Str) (path : List Str) (n : Nat) (fs : List Str) :
    ∀ i, (treeFilesE pre rel path n i fs).map (·.path) = fs.map fun f => path ++ [f] := by
  induction fs with
  | nil => intro i; rfl
  | cons f fs ih => intro i; simp [treeFilesE, ih]

theorem nodup_treeDirsE (sub : Str → Str → List TreeEntry) (pre rel : Str)
    (path : List Str) (nd nf : Nat) (ds : List Str) (hds : ds.Nodup)
    (hsub : ∀ d ∈ ds, ∀ ext, (ext = blankExtension ∨ ext = barExtension) →
      ((sub d (pre ++ ext)).map (·.path)).Nodup ∧
      ∀ e ∈ sub d (pre ++ ext), ∃ below, below ≠ [] ∧ e.path = path ++ d :: below) :
    ∀ i, ((treeDirsE sub pre rel path nd nf i ds).map (·.path)).Nodup := by
  induction ds with
  | nil => intro i; simp [treeDirsE]
  | cons d ds ih =>
    intro i
    have hd : d ∉ ds := (List.nodup_cons.mp hds).1
    have hrec := ih (List.nodup_cons.mp hds).2
      (fun g hg => hsub g (List.mem_cons_of_mem _ hg)) (i + 1)
    have hext : (if (i == nd - 1 && nf == 0) = true then blankExtension else barExtension)
        = blankExtension ∨
        (if (i == nd - 1 && nf == 0) = true then blankExtension else barExtension)
        = barExtension := by
      split_ifs
      · exact Or.inl rfl
      · exact Or.inr rfl
    obtain ⟨hsn, hsf⟩ := hsub d (List.mem_cons_self _ _) _ hext
    -- the paths of the later blocks start with another name
    have hlater : ∀ q ∈ (treeDirsE sub pre rel path nd nf (i + 1) ds).map (·.path),
        ∃ g ∈ ds, ∃ below, q = path ++ g :: below := by
      intro q hq
      obtain ⟨e, he, hqe⟩ := List.mem_map.1 hq
      rcases mem_treeDirsE_line _ _ _ _ _ _ _ _ _ he with
        ⟨g, hg, c, -, heq⟩ | ⟨g, hg, ext, hx, hes⟩
      · exact ⟨g, hg, [], by rw [← hqe, heq]⟩
      · obtain ⟨below, -, hb⟩ := (hsub g (List.mem_cons_of_mem _ hg) ext hx).2 e hes
        exact ⟨g, hg, below, by rw [← hqe, hb]⟩
    simp only [treeDirsE, List.map_cons, List.map_append]
    refine List.nodup_cons.mpr ⟨?_, List.Nodup.append hsn hrec ?_⟩
    · intro hmem
      rcases List.mem_append.mp hmem with hm | hm
      · obtain ⟨e, he, hqe⟩ := List.mem_map.1 hm
        obtain ⟨below, hne, hb⟩ := hsf e he
        rw [hb] at hqe
        have := List.append_cancel_left hqe
        simp only [List.cons.injEq, true_and] at this
        exact hne this
      · obtain ⟨g, hg, below, hq⟩ := hlater _ hm
        have := List.append_cancel_left hq
        simp only [List.cons.injEq] at this
        exact hd (by rw [this.1]; exact hg)
    · intro q hq1 hq2
      obtain ⟨e, he, hqe⟩ := List.mem_map.1 hq1
      obtain ⟨below, -, hb⟩ := hsf e he
      obtain ⟨g, hg, below2, hq⟩ := hlater _ hq2
      rw [← hqe, hb] at hq
      have := List.append_cancel_left hq
      simp only [List.cons.injEq] at this
      exact hd (by rw [this.1]; exact hg)

/-- No location is listed twice. -/
theorem entries_nodup : ∀ (h : Nat) (files : List (Str × Node)), heightList files < h →
    ∀ (base rel : Str) (path pats : List Str) (pre : Str),
      (Node.dir files).distinctNames = true → (Node.dir files).noDirLinks = true →
      ((GenerateTreeEntries base rel path (.dir files) pats pre).map (·.path)).Nodup := by
  intro h
  induction h with
  | zero => intro files hh; omega
  | succ h ih =>
    intro files hh base rel path pats pre hdist hlinks
    obtain ⟨hnames, hdistc⟩ := (distinctNames_dir files).1 hdist
    have hlinkc := (noDirLinks_dir files).1 hlinks
    rw [GenerateTreeEntries_dir]
    split
    · simp
    · have hlevel := level_nodup rel pats files hnames
      have hdn : (sortStrings (treeSplit files (treeContents rel pats files)).1).Nodup :=
        (sortStrings_perm _).nodup_iff.mpr hlevel.1
      have hfn : (sortStrings (treeSplit files (treeContents rel pats files)).2).Nodup :=
        (sortStrings_perm _).nodup_iff.mpr hlevel.2
      -- what lies beneath a listed subdirectory
      have hsub : ∀ d ∈ sortStrings (treeSplit files (treeContents rel pats files)).1,
          ∀ ext, (ext = blankExtension ∨ ext = barExtension) →
          ((treeSubE (fun d r p child pre2 => GenerateTreeEntries d r p child pats pre2)
              files rel path d (pre ++ ext)).map (·.path)).Nodup ∧
          ∀ e ∈ treeSubE (fun d r p child pre2 => GenerateTreeEntries d r p child pats pre2)
              files rel path d (pre ++ ext),
            ∃ below, below ≠ [] ∧ e.path = path ++ d :: below := by
        intro d hd ext hext
        obtain ⟨child, hmem, hcd, -⟩ := (mem_level_dirs rel pats files hnames d).1 hd
        have hl := lookupEntry_of_mem _ _ _ hnames hmem
        have hcd2 := noDirLinks_stat child (hlinkc _ hmem) true hcd
        simp only [treeSubE, hl]
        cases child with
        | file c => cases hcd2
        | link target => cases hcd2
        | dangling => cases hcd2
        | dir sub =>
          have hheight : heightList sub < h := by
            have := height_le_heightList _ _ hmem
            simp only [height_dir] at this
            omega
          refine ⟨ih sub hheight _ _ _ _ _ (hdistc _ hmem) (hlinkc _ hmem), ?_⟩
          intro e he
          rcases entries_sound _ sub (Nat.lt_succ_self _) _ _ _ _ _ (hdistc _ hmem)
            (hlinkc _ hmem) e he with
            ⟨hp, -⟩ | ⟨below, h1, h2, -⟩
          · exact absurd hp (extension_ne_nil pre ext hext)
          · exact ⟨below, h2.1, by rw [h1]; simp⟩
      have hdirs := nodup_treeDirsE _ pre rel path
        (sortStrings (treeSplit files (treeContents rel pats files)).1).length
        (sortStrings (treeSplit files (treeContents rel pats files)).2).length _ hdn hsub 0
      have hdirsForm : ∀ q ∈ (treeDirsE
            (treeSubE (fun d r p child pre2 => GenerateTreeEntries d r p child pats pre2)
              files rel path) pre rel path
            (sortStrings (treeSplit files (treeContents rel pats files)).1).length
            (sortStrings (treeSplit files (treeContents rel pats files)).2).length 0
            (sortStrings (treeSplit files (treeContents rel pats files)).1)).map (·.path),
          ∃ d ∈ sortStrings (treeSplit files (treeContents rel pats files)).1,
            ∃ below, q = path ++ d :: below := by
        intro q hq
        obtain ⟨e, he, hqe⟩ := List.mem_map.1 hq
        rcases mem_treeDirsE_line _ _ _ _ _ _ _ _ _ he with
          ⟨g, hg, c, -, heq⟩ | ⟨g, hg, ext, hx, hes⟩
        · exact ⟨g, hg, [], by rw [← hqe, heq]⟩
        · obtain ⟨below, -, hb⟩ := (hsub g hg ext hx).2 e hes
          exact ⟨g, hg, below, by rw [← hqe, hb]⟩
      have hfiles : ((treeFilesE pre rel path
            (sortStrings (treeSplit files (treeContents rel pats files)).2).length 0
            (sortStrings (treeSplit files (treeContents rel pats files)).2)).map
              (·.path)).Nodup := by
        rw [treeFilesE_paths]
        refine List.Nodup.map ?_ hfn
        intro a b hab
        have := List.append_cancel_left hab
        simpa using this
      simp only [List.map_append]
      refine List.Nodup.append (List.Nodup.append ?_ hdirs ?_) hfiles ?_
      · split <;> simp
      · intro q hq1 hq2
        obtain ⟨d, -, below, hq⟩ := hdirsForm q hq2
        split at hq1
        · simp only [List.map_cons, List.map_nil, List.mem_singleton] at hq1
          rw [hq1] at hq
          have h2 : path ++ [] = path ++ d :: below := by
            rw [List.append_nil]; exact hq
          have := List.append_cancel_left h2
          cases this
        · simp at hq1
      · intro q hq1 hq2
        rw [treeFilesE_paths] at hq2
        obtain ⟨f, hf, hqf⟩ := List.mem_map.1 hq2
        rcases List.mem_append.mp hq1 with hq | hq
        · split at hq
          · simp only [List.map_cons, List.map_nil, List.mem_singleton] at hq
            rw [hq] at hqf
            have h2 : path ++ [f] = path ++ [] := by
              rw [List.append_nil]; exact hqf
            have := List.append_cancel_left h2
            cases this
          · simp at hq
        · obtain ⟨d, hd, below, hqd⟩ := hdirsForm q hq
          rw [← hqf] at hqd
          have := List.append_cancel_left hqd
          simp only [List.cons.injEq] at this
          obtain ⟨c1, hm1, hc1, -⟩ := (mem_level_dirs rel pats files hnames d).1 hd
          obtain ⟨c2, hm2, hc2, -⟩ := (mem_level_files rel pats files hnames f).1 hf
          have e1 := lookupEntry_of_mem _ _ _ hnames hm1
          have e2 := lookupEntry_of_mem _ _ _ hnames hm2
          rw [← this.1, e2] at e1
          simp only [Option.some.injEq] at e1
          rw [e1, hc1] at hc2
          cases hc2

/-- C22 (as stated, refuted): a symbolic link whose target does not exist is an
entry of the directory whose relative path is not ignored, and `GenerateTree`
returns no line for it: the listing of a directory with the entries `a.txt` and
`gone`, the latter such a link, has two lines, not three. -/
theorem dangling_link_has_no_line :
    GenerateTree (str "repo") (str ".") repoWithDanglingLink [] [] =
        [str "repo", str "└── a.txt"] ∧
      resolve repoWithDanglingLink [str "gone"] = some .dangling ∧
      IsIgnored (str "gone") false [] = false ∧
      (GenerateTreeEntries (str "repo") (str ".") [] repoWithDanglingLink [] []).all
        (fun e => e.path != [str "gone"]) = true :=
  ⟨by decide, rfl, by decide, by decide⟩

/-- C22 (amended): for a directory not named `.git` below which no symbolic link
leads to a directory (with pairwise distinct names in every directory),
`GenerateTree` called with the empty prefix returns the root line, the base
name, followed by exactly one line for every listed entry: an entry that
`os.Stat` can examine, whose relative path is not ignored and whose ancestor
directories strictly below the root are not ignored and not named `.git`.  No
location has two lines, every line after the first is a prefix, a connector and
the name of its entry, and the number of lines is one more than the number of
listed entries. -/
theorem GenerateTree_lines (base : Str) (files : List (Str × Node)) (pats : List Str)
    (hbase : base ≠ str ".git") (hdist : (Node.dir files).distinctNames = true)
    (hlinks : (Node.dir files).noDirLinks = true) :
    ∃ rest : List TreeEntry,
      GenerateTreeEntries base (str ".") [] (.dir files) pats [] =
        { line := base, relPath := str ".", path := [], isDir := true } :: rest ∧
      GenerateTree base (str ".") (.dir files) pats [] = base :: rest.map (·.line) ∧
      (GenerateTree base (str ".") (.dir files) pats []).length = 1 + rest.length ∧
      (rest.map (·.path)).Nodup ∧
      (∀ path, path ∈ rest.map (·.path) ↔ Listed (.dir files) pats path) ∧
      ∀ e ∈ rest, e.relPath = relPathOf e.path ∧
        (∃ n ∈ resolve (.dir files) e.path, n.isDir = e.isDir) ∧
        ∃ p c name, e.path.getLast? = some name ∧
          (c = teeConnector ∨ c = lastConnector) ∧ e.line = p ++ c ++ name := by
  have hb : (base == str ".git") = false := by simpa using hbase
  have hE : GenerateTreeEntries base (str ".") [] (.dir files) pats [] =
      { line := base, relPath := str ".", path := [], isDir := true } ::
        (GenerateTreeEntries base (str ".") [] (.dir files) pats []).tail := by
    rw [GenerateTreeEntries_dir, hb]
    simp
  have hlines := GenerateTreeEntries_line base (str ".") [] (.dir files) pats []
  have hnodup := entries_nodup _ files (Nat.lt_succ_self _) base (str ".") [] pats [] hdist
    hlinks
  have hsound := entries_sound _ files (Nat.lt_succ_self _) base (str ".") [] pats [] hdist
    hlinks
  have hcomplete := entries_complete _ files (Nat.lt_succ_self _) base (str ".") [] pats []
    hdist hlinks hbase
  generalize (GenerateTreeEntries base (str ".") [] (.dir files) pats []).tail = rest at hE
  rw [hE] at hlines hnodup hsound hcomplete
  simp only [List.map_cons, List.nodup_cons] at hlines hnodup
  -- an entry after the first is not the root line
  have hrest : ∀ e ∈ rest, ∃ below, e.path = below ∧ ListedFrom (str ".") (.dir files) pats below ∧
      e.relPath = below.foldl relJoin (str ".") ∧
      (∃ p c name, below.getLast? = some name ∧
        (c = teeConnector ∨ c = lastConnector) ∧ e.line = p ++ c ++ name) ∧
      ∃ n ∈ resolve (.dir files) below, n.isDir = e.isDir := by
    intro e he
    rcases hsound e (List.mem_cons_of_mem _ he) with ⟨-, hroot⟩ | ⟨below, h1, h2⟩
    · exfalso
      apply hnodup.1
      exact List.mem_map.2 ⟨e, he, by rw [hroot]⟩
    · exact ⟨below, by simpa using h1, h2⟩
  refine ⟨rest, hE, hlines.symm, ?_, hnodup.2, ?_, ?_⟩
  · rw [← hlines]
    simp [Nat.add_comm]
  · intro path
    constructor
    · intro hp
      obtain ⟨e, he, hpe⟩ := List.mem_map.1 hp
      obtain ⟨below, h1, h2, -⟩ := hrest e he
      rw [← hpe, h1]
      exact h2
    · intro hl
      obtain ⟨e, he, hpe⟩ := hcomplete path hl
      rw [List.nil_append] at hpe
      rcases List.mem_cons.1 he with h | h
      · exfalso
        rw [h] at hpe
        exact hl.1 hpe.symm
      · exact List.mem_map.2 ⟨e, h, hpe⟩
  · intro e he
    obtain ⟨below, h1, -, h3, h4, h5⟩ := hrest e he
    rw [h1]
    exact ⟨h3, h5, h4⟩

theorem GenerateTree_lines_witness :
    ∃ rest : List TreeEntry,
      GenerateTreeEntries (str "repo") (str ".") [] (.dir fileLinkEntries) [] [] =
        { line := str "repo", relPath := str ".", path := [], isDir := true } :: rest ∧
      GenerateTree (str "repo") (str ".") (.dir fileLinkEntries) [] []
        = str "repo" :: rest.map (·.line) ∧
      (GenerateTree (str "repo") (str ".") (.dir fileLinkEntries) [] []).length
        = 1 + rest.length ∧
      (rest.map (·.path)).Nodup ∧
      (∀ path, path ∈ rest.map (·.path) ↔ Listed (.dir fileLinkEntries) [] path) ∧
      ∀ e ∈ rest, e.relPath = relPathOf e.path ∧
        (∃ n ∈ resolve (.dir fileLinkEntries) e.path, n.isDir = e.isDir) ∧
        ∃ p c name, e.path.getLast? = some name ∧
          (c = teeConnector ∨ c = lastConnector) ∧ e.line = p ++ c ++ name :=
  GenerateTree_lines (str "repo") fileLinkEntries [] (by decide) (by decide) (by decide)

end Contextify
